import Mathlib

/-!
# AutoCam: the directory scanner of `src/renderer/components/file.js`

A shallow embedding of `safeReadDirSync`, `normalizePath`, `isRegExp`, `directoryTree`
and `isFile`, followed by the properties proved about them.

Modelling decisions, all visible in the definitions below:

* The item built by `directoryTree` is a JavaScript object; it is embedded as an ordered list of
  properties (`Node`). The attribute copy `item[attribute] = stats[attribute]` writes into the very
  same object as `item.size`, `item.type`, ... and is embedded as such.
* The filesystem (`statSync`, `readdirSync`) and the `path` library (`basename`, `extname`,
  `join`) together with `String.prototype.toLowerCase` are not part of the repository; they are
  parameters (`World`, `PathLib`).
* A regular expression is embedded by its `test` method, taken to be a function of the tested
  string alone (a pattern without the `g`/`y` flag, whose `test` keeps no state).
* Sizes are natural numbers: `stats.size` is a non-negative integer, and JavaScript adds such
  numbers exactly as long as the sums stay below 2^53.
* The two callbacks are embedded as appending an `Event` to a trace.
* The recursion follows the filesystem, which need not be well-founded; `directoryTree` takes a
  fuel argument and has the extra outcome `outOfFuel`.
-/

namespace AutoCam

/-! ## Values, items, metadata -/

mutual
/-- JavaScript values that occur as property values of an item. -/
inductive Val where
  /-- The value `undefined`: the value of a property that is not there. -/
  | undefined : Val
  /-- The value `NaN`. -/
  | nan : Val
  /-- A number (a size in bytes). -/
  | num (n : Nat) : Val
  /-- A string. -/
  | str (s : String) : Val
  /-- A JSX element such as `<CameraOutlined />`, by the name of its component. -/
  | element (component : String) : Val
  /-- A raw metadata value other than the size (a date, a mode, a method, ...), kept abstract. -/
  | raw (payload : String) : Val
  /-- An array of items: the value of `children`. -/
  | arr (items : List Node) : Val
/-- An item: a JavaScript object, as the list of its properties in insertion order. -/
inductive Node where
  | mk (props : List (String × Val)) : Node
end

/-- The properties of an item. -/
def Node.props : Node → List (String × Val)
  | .mk ps => ps

/-- Property read `item[key]`; a missing property reads as `undefined`. -/
def Node.get (item : Node) (key : String) : Val :=
  match item.props.lookup key with
  | some v => v
  | none => .undefined

/-- Assignment on a property list: an existing property keeps its place and takes the new value,
a new property is added at the end. -/
def setProp (key : String) (v : Val) : List (String × Val) → List (String × Val)
  | [] => [(key, v)]
  | (k, w) :: rest => if k = key then (k, v) :: rest else (k, w) :: setProp key v rest

/-- Property write `item[key] = v`. -/
def Node.set (item : Node) (key : String) (v : Val) : Node :=
  .mk (setProp key v item.props)

/-- What `stats.isFile()` and `stats.isDirectory()` tell: a regular file, a directory, or
neither of them (device, FIFO, socket, ...). -/
inductive EntryKind where
  | file
  | directory
  | other
  deriving DecidableEq, Repr

/-- The metadata object returned by `statSync`. -/
structure Stats where
  /-- The kind of the entry. -/
  kind : EntryKind
  /-- The value of `stats.size`. -/
  size : Nat
  /-- The other own properties (`mtime`, `mode`, ...), by name. -/
  fields : List (String × String)
  deriving DecidableEq, Repr

/-- The test `stats.isFile()`. -/
def Stats.isFile (s : Stats) : Bool := s.kind == .file

/-- The test `stats.isDirectory()`. -/
def Stats.isDirectory (s : Stats) : Bool := s.kind == .directory

/-- Property read `stats[attribute]`. -/
def Stats.get (s : Stats) (attr : String) : Val :=
  if attr = "size" then .num s.size
  else match s.fields.lookup attr with
    | some payload => .raw payload
    | none => .undefined

/-- An error thrown by `readdirSync`, by its `code`. -/
structure JsError where
  code : String
  deriving DecidableEq, Repr

/-- The filesystem as the scanner sees it. -/
structure World where
  /-- The call `statSync(path)`: `none` when it throws. -/
  statSync : String → Option Stats
  /-- The call `readdirSync(path)`: the entry names, or the error thrown. -/
  readdirSync : String → Except JsError (List String)

/-- The functions of the `path` library used by the scanner, and `toLowerCase`. -/
structure PathLib where
  basename : String → String
  extname : String → String
  join : String → String → String
  toLowerCase : String → String

/-- A regular expression, by its `test` method. -/
abbrev Pattern := String → Bool

/-- The option `exclude`: one regular expression, or an array of them. -/
inductive Exclude where
  | single (pattern : Pattern)
  | many (patterns : List Pattern)

/-- The `options` object; a falsy or missing option is `none` (`false` for `normalizePath`). -/
structure Options where
  normalizePath : Bool
  exclude : Option Exclude
  extensions : Option Pattern
  attributes : Option (List String)

/-- Which of the two callbacks was invoked. -/
inductive Callback where
  | onEachFile
  | onEachDirectory
  deriving DecidableEq, Repr

/-- One callback invocation `callback(item, path, stats)`. -/
structure Event where
  callback : Callback
  item : Node
  path : String
  stats : Stats

/-- How a call of `directoryTree` ends. -/
inductive Outcome where
  /-- The call returns `item`. -/
  | node (item : Node)
  /-- The call returns `null`. -/
  | absent
  /-- The call throws `ex`. -/
  | throw (ex : JsError)
  /-- The fuel of the model ran out before the call ended. -/
  | outOfFuel

/-- The outcome of a call together with the callback invocations it made, in order. -/
structure Run where
  out : Outcome
  trace : List Event

/-! ## The source functions -/

/-- The constant `constants.DIRECTORY` (file.js 7). -/
abbrev constants.DIRECTORY : String := "directory"

/-- The constant `constants.FILE` (file.js 8). -/
abbrev constants.FILE : String := "file"

/-- The three ends of `safeReadDirSync`. -/
inductive DirData where
  | entries (names : List String)
  | null
  | throw (ex : JsError)

/-- Function `safeReadDirSync` (file.js 11-22). -/
def safeReadDirSync (w : World) (path : String) : DirData :=
  match w.readdirSync path with
  | .ok dirData => .entries dirData
  | .error ex =>
    if ex.code = "EACCES" ∨ ex.code = "EPERM" then .null
    else .throw ex

/-- Function `normalizePath` (file.js 29-31): `path.replace(/\\/g, "/")`. -/
def normalizePath (path : String) : String :=
  String.mk (path.data.map fun c => if c = '\\' then '/' else c)

/-- Function `isRegExp` (file.js 38-40), on the values the option `exclude` can take. -/
def isRegExp : Exclude → Bool
  | .single _ => true
  | .many _ => false

/-- The array `excludes` of lines 68-70: `[options.exclude]` when `isRegExp(options.exclude)`,
and `options.exclude` itself otherwise. -/
def excludesOf (exclude : Exclude) : List Pattern :=
  match exclude with
  | .single pattern => [pattern]
  | .many patterns => patterns

/-- The path after line 53: normalised when `options && options.normalizePath`. -/
def effectivePath (options : Option Options) (path : String) : String :=
  match options with
  | some o => if o.normalizePath then normalizePath path else path
  | none => path

/-- The test of lines 67-74: `options && options.exclude` and some exclusion matches. -/
def isExcluded (options : Option Options) (path : String) : Bool :=
  match options with
  | some o =>
    match o.exclude with
    | some exclude => (excludesOf exclude).any fun exclusion => exclusion path
    | none => false
  | none => false

/-- The test of line 80: `options && options.extensions && !options.extensions.test(ext)`. -/
def extensionRejected (options : Option Options) (ext : String) : Bool :=
  match options with
  | some o =>
    match o.extensions with
    | some extensions => !extensions ext
    | none => false
  | none => false

/-- The attribute copy of lines 89-93 and 102-106. -/
def copyAttributes (options : Option Options) (stats : Stats) (item : Node) : Node :=
  match options with
  | some o =>
    match o.attributes with
    | some attributes =>
      attributes.foldl (fun it attr => it.set attr (stats.get attr)) item
    | none => item
  | none => item

/-- The item after lines 54-58: `{ path, name }` with `title` and `key`. -/
def baseItem (name path : String) : Node :=
  ((Node.mk [("path", .str path), ("name", .str name)]).set "title" (.str name)).set
    "key" (.str path)

/-- The file item after lines 83-93. -/
def fileItem (options : Option Options) (name path ext : String) (stats : Stats) : Node :=
  let item := (baseItem name path).set "size" (.num stats.size)
  let item := item.set "extension" (.str ext)
  let item := item.set "type" (.str constants.FILE)
  let item := if ext = ".tc" then item.set "icon" (.element "CameraOutlined") else item
  copyAttributes options stats item

/-- The addition `prev + cur.size` of line 114. Two numbers add up; a number and `undefined`
give `NaN`, and so does `NaN` with anything. The other operands are given `NaN` as well: they do
not occur, the size of a returned item being a number (`size_isNum`). -/
def addSize (prev cur : Val) : Val :=
  match prev, cur with
  | .num a, .num b => .num (a + b)
  | _, _ => .nan

/-- The reduction of line 114: `children.reduce((prev, cur) => prev + cur.size, 0)`. -/
def reduceSize (children : List Node) : Val :=
  children.foldl (fun prev cur => addSize prev (cur.get "size")) (.num 0)

/-- The directory item after lines 102-116, from the collected `children`. -/
def directoryItem (options : Option Options) (name path : String) (stats : Stats)
    (children : List Node) : Node :=
  let item := copyAttributes options stats (baseItem name path)
  let item := item.set "children" (.arr children)
  let item := item.set "size" (reduceSize children)
  let item := item.set "type" (.str constants.DIRECTORY)
  item.set "icon" (.element "FolderFilled")

/-- How `dirData.map(child => directoryTree(...))` ends: with the array of the results
(`none` for `null`), or cut short by the first call that throws or runs out of fuel. -/
inductive Mapped where
  | results (rs : List (Option Node))
  | throw (ex : JsError)
  | outOfFuel

/-- The map of lines 108-111, for `scan` the recursive call on a child path: the children are
scanned from left to right, and the first throw ends the map. -/
def mapChildren (scan : String → Run) : List String → Mapped × List Event
  | [] => (.results [], [])
  | child :: rest =>
    let r := scan child
    match r.out with
    | .throw ex => (.throw ex, r.trace)
    | .outOfFuel => (.outOfFuel, r.trace)
    | .node item =>
      match mapChildren scan rest with
      | (.results rs, t) => (.results (some item :: rs), r.trace ++ t)
      | (.throw ex, t) => (.throw ex, r.trace ++ t)
      | (.outOfFuel, t) => (.outOfFuel, r.trace ++ t)
    | .absent =>
      match mapChildren scan rest with
      | (.results rs, t) => (.results (none :: rs), r.trace ++ t)
      | (.throw ex, t) => (.throw ex, r.trace ++ t)
      | (.outOfFuel, t) => (.outOfFuel, r.trace ++ t)

/-- The filter of line 112: `.filter((e) => !!e)`. -/
def filterTruthy (rs : List (Option Node)) : List Node :=
  rs.filterMap id

/-- The body of `directoryTree` (file.js 52-124), with `recurse` standing for the recursive call
`directoryTree(..., options, onEachFile, onEachDirectory)` of line 110. `onEachFile` and
`onEachDirectory` tell whether the callback was supplied. -/
def directoryTreeBody (w : World) (lib : PathLib) (options : Option Options)
    (onEachFile onEachDirectory : Bool) (recurse : String → Run) (path : String) : Run :=
  let name := lib.basename path
  let path := effectivePath options path
  match w.statSync path with
  | none => ⟨.absent, []⟩
  | some stats =>
    if isExcluded options path then ⟨.absent, []⟩
    else if stats.isFile then
      let ext := lib.toLowerCase (lib.extname path)
      if extensionRejected options ext then ⟨.absent, []⟩
      else
        let item := fileItem options name path ext stats
        ⟨.node item, if onEachFile then [⟨.onEachFile, item, path, stats⟩] else []⟩
    else if stats.isDirectory then
      match safeReadDirSync w path with
      | .null => ⟨.absent, []⟩
      | .throw ex => ⟨.throw ex, []⟩
      | .entries dirData =>
        match mapChildren (fun child => recurse (lib.join path child)) dirData with
        | (.throw ex, t) => ⟨.throw ex, t⟩
        | (.outOfFuel, t) => ⟨.outOfFuel, t⟩
        | (.results rs, t) =>
          let item := directoryItem options name path stats (filterTruthy rs)
          ⟨.node item,
            t ++ if onEachDirectory then [⟨.onEachDirectory, item, path, stats⟩] else []⟩
    else ⟨.absent, []⟩

/-- Function `directoryTree` (file.js 51-125): its body, the depth of the recursion being
bounded by the fuel. -/
def directoryTree (w : World) (lib : PathLib) (options : Option Options)
    (onEachFile onEachDirectory : Bool) : Nat → String → Run
  | 0, _ => ⟨.outOfFuel, []⟩
  | fuel + 1, path =>
    directoryTreeBody w lib options onEachFile onEachDirectory
      (directoryTree w lib options onEachFile onEachDirectory fuel) path

/-- Function `isFile` (file.js 127-129): `!!p.extname(path)`, the empty string being the one
falsy string. -/
def isFile (lib : PathLib) (path : String) : Bool :=
  lib.extname path != ""

/-! ## Notions used to state the properties -/

/-- The names listed in `options.attributes`, none when the option is not set. -/
def attributesOf (options : Option Options) : List String :=
  match options with
  | some o => o.attributes.getD []
  | none => []

/-- Item `m` occurs in the tree of item `n`: it is `n`, or it occurs in the tree of one of the
items of the array `n.children`. -/
inductive Node.Sub : Node → Node → Prop where
  | self (n : Node) : Node.Sub n n
  | child {m c n : Node} {items : List Node} :
      n.get "children" = .arr items → c ∈ items → Node.Sub m c → Node.Sub m n

/-- The item a call returned, `none` for `null` (and for a call that did not return). -/
def Outcome.result? : Outcome → Option Node
  | .node item => some item
  | _ => none

/-- The call returned: an item or `null`. -/
def Outcome.returns : Outcome → Bool
  | .node _ => true
  | .absent => true
  | _ => false

/-- The continuation of the map after a child that returned `r`. -/
def Mapped.push (r : Option Node) (t : List Event) : Mapped × List Event → Mapped × List Event
  | (.results rs, t') => (.results (r :: rs), t ++ t')
  | (.throw ex, t') => (.throw ex, t ++ t')
  | (.outOfFuel, t') => (.outOfFuel, t ++ t')

/-- The last step of the directory branch (lines 112-120), applied to what the map of lines
108-111 gave. -/
def finishDirectory (options : Option Options) (onEachDirectory : Bool) (name path : String)
    (stats : Stats) : Mapped × List Event → Run
  | (.throw ex, t) => ⟨.throw ex, t⟩
  | (.outOfFuel, t) => ⟨.outOfFuel, t⟩
  | (.results rs, t) =>
    ⟨.node (directoryItem options name path stats (filterTruthy rs)),
      t ++ if onEachDirectory then
        [⟨.onEachDirectory, directoryItem options name path stats (filterTruthy rs), path, stats⟩]
      else []⟩

/-- The filesystem `w` with the listing of the one directory `dir` replaced by `names`. -/
def World.withListing (w : World) (dir : String) (names : List String) : World where
  statSync := w.statSync
  readdirSync := fun p => if p = dir then .ok names else w.readdirSync p

/-- Two ends of the map of lines 108-111 that leave the same behind: the same items after the
filter of line 112 and the same callback invocations, or the same throw. -/
def Mapped.sameItems : Mapped × List Event → Mapped × List Event → Prop
  | (.results a, t), (.results b, t') => filterTruthy a = filterTruthy b ∧ t = t'
  | (.throw ex, t), (.throw ex', t') => ex = ex' ∧ t = t'
  | (.outOfFuel, t), (.outOfFuel, t') => t = t'
  | _, _ => False

/-- The call on `path` ends by returning, an item or `null`, when given enough fuel. -/
def Completes (w : World) (lib : PathLib) (options : Option Options)
    (onEachFile onEachDirectory : Bool) (path : String) : Prop :=
  ∃ fuel, (directoryTree w lib options onEachFile onEachDirectory fuel path).out.returns = true

/-- The scan started by the call on `root` comes to make the call on a path: the call on `root`
itself, and, for a call it comes to make on a directory whose metadata is fetched, whose path is
not excluded and whose listing succeeds, the call on an entry of the listing, once the calls on
the entries before it have returned. -/
inductive Reached (w : World) (lib : PathLib) (options : Option Options)
    (onEachFile onEachDirectory : Bool) (root : String) : String → Prop where
  | root : Reached w lib options onEachFile onEachDirectory root root
  | child {p : String} {stats : Stats} {xs : List String} {e : String} {ys : List String} :
      Reached w lib options onEachFile onEachDirectory root p →
      w.statSync (effectivePath options p) = some stats →
      isExcluded options (effectivePath options p) = false →
      stats.kind = .directory →
      w.readdirSync (effectivePath options p) = .ok (xs ++ e :: ys) →
      (∀ x ∈ xs, Completes w lib options onEachFile onEachDirectory
        (lib.join (effectivePath options p) x)) →
      Reached w lib options onEachFile onEachDirectory root
        (lib.join (effectivePath options p) e)

/-- The call on `path` works on a directory (metadata fetched, path not excluded) whose listing
fails with the error `ex`, whose code is neither `EACCES` nor `EPERM`. -/
def FatalListing (w : World) (options : Option Options) (path : String) (ex : JsError) : Prop :=
  ∃ stats, w.statSync (effectivePath options path) = some stats ∧
    isExcluded options (effectivePath options path) = false ∧
    stats.kind = .directory ∧
    w.readdirSync (effectivePath options path) = .error ex ∧
    ¬ (ex.code = "EACCES" ∨ ex.code = "EPERM")

/-- The items of the array `children` of an item, none when `children` is not an array. -/
def Node.childItems (n : Node) : List Node :=
  match n.get "children" with
  | .arr items => items
  | _ => []

/-- The size of a property value found by a lookup is below the size of the property list. -/
theorem lookup_sizeOf_lt (key : String) (ps : List (String × Val)) (v : Val)
    (h : ps.lookup key = some v) : sizeOf v < sizeOf ps := by
  induction ps with
  | nil => simp [List.lookup] at h
  | cons a rest ih =>
    obtain ⟨k, w⟩ := a
    by_cases hk : key = k
    · subst hk
      simp [List.lookup] at h
      subst h
      simp
      omega
    · have e : (key == k) = false := by simpa using hk
      simp only [List.lookup, e] at h
      have := ih h
      simp
      omega

/-- The post-order traversal of the tree of an item: the traversals of the items of `children`,
in order, then the item itself. -/
def Node.postorder (n : Node) : List Node :=
  (n.childItems.attach.flatMap fun c => c.1.postorder) ++ [n]
termination_by sizeOf n
decreasing_by
  obtain ⟨c, hc⟩ := c
  obtain ⟨ps⟩ := n
  unfold Node.childItems Node.get at hc
  simp only [Node.props] at hc
  cases hl : ps.lookup "children" with
  | none => simp [hl] at hc
  | some v =>
    simp only [hl] at hc
    have h1 := lookup_sizeOf_lt "children" ps v hl
    cases v with
    | arr items =>
      simp only at hc
      have h2 := List.sizeOf_lt_of_mem hc
      simp only [Val.arr.sizeOf_spec] at h1
      simp only [Node.mk.sizeOf_spec]
      omega
    | undefined => simp at hc
    | nan => simp at hc
    | num n => simp at hc
    | str s => simp at hc
    | element s => simp at hc
    | raw s => simp at hc

/-- The item has type directory. -/
def Node.isDirectoryItem (n : Node) : Bool :=
  match n.get "type" with
  | .str s => s == "directory"
  | _ => false

/-- Whether the callback for an item was supplied: `onEachDirectory` for an item of type
directory, `onEachFile` for any other item. -/
def callbackSupplied (onEachFile onEachDirectory : Bool) (n : Node) : Bool :=
  if n.isDirectoryItem then onEachDirectory else onEachFile

/-- The callback invocation passes what the call had at hand: the item the call returns, the
path the call worked on and the metadata fetched for that path; `onEachFile` is invoked for a
regular file, whose item is not of type directory, and `onEachDirectory` for a directory, whose
item is of type directory. -/
def Event.Faithful (w : World) (lib : PathLib) (options : Option Options)
    (onEachFile onEachDirectory : Bool) (ev : Event) : Prop :=
  w.statSync ev.path = some ev.stats ∧
  (∃ fuel p, (directoryTree w lib options onEachFile onEachDirectory fuel p).out = .node ev.item ∧
    ev.path = effectivePath options p) ∧
  ((ev.callback = .onEachFile ∧ ev.stats.kind = .file ∧ ev.item.isDirectoryItem = false) ∨
    (ev.callback = .onEachDirectory ∧ ev.stats.kind = .directory ∧
      ev.item.isDirectoryItem = true))

/-! ## A concrete path library and a concrete filesystem -/

/-- The last `/`-separated segment of a path: `acc` collects it, in reverse. -/
def lastSegmentAux : List Char → List Char → List Char
  | [], acc => acc.reverse
  | c :: rest, acc => if c = '/' then lastSegmentAux rest [] else lastSegmentAux rest (c :: acc)

/-- A path without its trailing slashes. -/
def dropTrailingSlashes (cs : List Char) : List Char :=
  (cs.reverse.dropWhile fun c => c = '/').reverse

/-- The last segment of a path, as POSIX `path.basename` gives it. -/
def plainBasename (path : String) : String :=
  String.mk (lastSegmentAux (dropTrailingSlashes path.data) [])

/-- The split of a segment at its last dot: what stands before the dot, and the rest from the
dot on; `none` when there is no dot. -/
def splitLastDot : List Char → Option (List Char × List Char) → List Char →
    Option (List Char × List Char)
  | [], found, _ => found
  | c :: rest, found, before =>
    if c = '.' then splitLastDot rest (some (before.reverse, c :: rest)) (c :: before)
    else splitLastDot rest found (c :: before)

/-- The extension of a path, as POSIX `path.extname` gives it: from the last dot of the last
segment on, and empty when there is no dot, when the dot starts the segment, or when the segment
is `..`. -/
def plainExtname (path : String) : String :=
  let seg := lastSegmentAux (dropTrailingSlashes path.data) []
  match splitLastDot seg none [] with
  | none => ""
  | some (before, ext) => if before = [] ∨ seg = ['.', '.'] then "" else String.mk ext

/-- A path library for the examples. Its `join` puts a `/` between its arguments, which is what
POSIX `path.join` does for a directory path without trailing slash and a plain entry name; its
`toLowerCase` maps the ASCII letters. -/
def plainLib : PathLib where
  basename := plainBasename
  extname := plainExtname
  join := fun a b => a ++ "/" ++ b
  toLowerCase := fun s => String.mk (s.data.map Char.toLower)

/-- Metadata of a regular file of `n` bytes, with a modification time. -/
def fileStats (n : Nat) (mtime : String) : Stats := ⟨.file, n, [("mtime", mtime)]⟩

/-- Metadata of a directory (whose own `stats.size` is 4096), with a modification time. -/
def dirStats (mtime : String) : Stats := ⟨.directory, 4096, [("mtime", mtime)]⟩

/-- The filesystem of the scenarios: `/r` with `a.txt` (3 bytes), `b.tc` (5 bytes) and the
directory `sub` with `c.txt` (2 bytes). -/
def exampleWorld : World where
  statSync := fun p =>
    if p = "/r" then some (dirStats "t0")
    else if p = "/r/a.txt" then some (fileStats 3 "t1")
    else if p = "/r/b.tc" then some (fileStats 5 "t2")
    else if p = "/r/sub" then some (dirStats "t3")
    else if p = "/r/sub/c.txt" then some (fileStats 2 "t4")
    else none
  readdirSync := fun p =>
    if p = "/r" then .ok ["a.txt", "b.tc", "sub"]
    else if p = "/r/sub" then .ok ["c.txt"]
    else .error ⟨"ENOTDIR"⟩

/-- The item expected for `/r/a.txt`. -/
def itemA : Node :=
  .mk [("path", .str "/r/a.txt"), ("name", .str "a.txt"), ("title", .str "a.txt"),
    ("key", .str "/r/a.txt"), ("size", .num 3), ("extension", .str ".txt"),
    ("type", .str "file")]

/-- The item expected for `/r/b.tc`. -/
def itemB : Node :=
  .mk [("path", .str "/r/b.tc"), ("name", .str "b.tc"), ("title", .str "b.tc"),
    ("key", .str "/r/b.tc"), ("size", .num 5), ("extension", .str ".tc"),
    ("type", .str "file"), ("icon", .element "CameraOutlined")]

/-- The item expected for `/r/sub/c.txt`. -/
def itemC : Node :=
  .mk [("path", .str "/r/sub/c.txt"), ("name", .str "c.txt"), ("title", .str "c.txt"),
    ("key", .str "/r/sub/c.txt"), ("size", .num 2), ("extension", .str ".txt"),
    ("type", .str "file")]

/-- The item expected for `/r/sub` when nothing is filtered. -/
def itemSub : Node :=
  .mk [("path", .str "/r/sub"), ("name", .str "sub"), ("title", .str "sub"),
    ("key", .str "/r/sub"), ("children", .arr [itemC]), ("size", .num 2),
    ("type", .str "directory"), ("icon", .element "FolderFilled")]

/-- The item expected for `/r` when nothing is filtered. -/
def itemR : Node :=
  .mk [("path", .str "/r"), ("name", .str "r"), ("title", .str "r"),
    ("key", .str "/r"), ("children", .arr [itemA, itemB, itemSub]), ("size", .num 10),
    ("type", .str "directory"), ("icon", .element "FolderFilled")]

/-- Options with an extension rule accepting `.tc` only (the expression `/^\.tc$/`). -/
def onlyTc : Options where
  normalizePath := false
  exclude := none
  extensions := some fun ext => ext == ".tc"
  attributes := none

/-- The item expected for `/r/sub` under `onlyTc`: an empty directory. -/
def itemSubEmpty : Node :=
  .mk [("path", .str "/r/sub"), ("name", .str "sub"), ("title", .str "sub"),
    ("key", .str "/r/sub"), ("children", .arr []), ("size", .num 0),
    ("type", .str "directory"), ("icon", .element "FolderFilled")]

/-- The item expected for `/r` under `onlyTc`. -/
def itemRTc : Node :=
  .mk [("path", .str "/r"), ("name", .str "r"), ("title", .str "r"),
    ("key", .str "/r"), ("children", .arr [itemB, itemSubEmpty]), ("size", .num 5),
    ("type", .str "directory"), ("icon", .element "FolderFilled")]

/-- Options with one exclusion pattern, matching the path `/r/sub` (the expression
`/^\/r\/sub$/`). -/
def withoutSub : Options where
  normalizePath := false
  exclude := some (.single fun path => path == "/r/sub")
  extensions := none
  attributes := none

/-- The item expected for `/r` under `withoutSub`. -/
def itemRNoSub : Node :=
  .mk [("path", .str "/r"), ("name", .str "r"), ("title", .str "r"),
    ("key", .str "/r"), ("children", .arr [itemA, itemB]), ("size", .num 8),
    ("type", .str "directory"), ("icon", .element "FolderFilled")]

/-- A filesystem with a directory that may not be listed: `/r` with `a.txt` (3 bytes), the
directory `locked`, whose listing fails with `EACCES`, and `b.tc` (5 bytes). -/
def lockedWorld : World where
  statSync := fun p =>
    if p = "/r" then some (dirStats "t0")
    else if p = "/r/a.txt" then some (fileStats 3 "t1")
    else if p = "/r/locked" then some (dirStats "t5")
    else if p = "/r/b.tc" then some (fileStats 5 "t2")
    else none
  readdirSync := fun p =>
    if p = "/r" then .ok ["a.txt", "locked", "b.tc"]
    else if p = "/r/locked" then .error ⟨"EACCES"⟩
    else .error ⟨"ENOTDIR"⟩

/-- A filesystem with a directory whose listing fails for another reason than permissions: `/r`
with `a.txt` (3 bytes), the directory `broken`, whose listing fails with `EIO`, and `b.tc`. -/
def brokenWorld : World where
  statSync := fun p =>
    if p = "/r" then some (dirStats "t0")
    else if p = "/r/a.txt" then some (fileStats 3 "t1")
    else if p = "/r/broken" then some (dirStats "t5")
    else if p = "/r/b.tc" then some (fileStats 5 "t2")
    else none
  readdirSync := fun p =>
    if p = "/r" then .ok ["a.txt", "broken", "b.tc"]
    else if p = "/r/broken" then .error ⟨"EIO"⟩
    else .error ⟨"ENOTDIR"⟩

/-- Options asking for the attribute `mtime`. -/
def withMtime : Options where
  normalizePath := false
  exclude := none
  extensions := none
  attributes := some ["mtime"]

/-- Options asking for the attributes `size`, `children`, `type` and `icon`: the names of the
properties that the directory branch assigns after the attribute copy. -/
def withNodeFields : Options where
  normalizePath := false
  exclude := none
  extensions := none
  attributes := some ["size", "children", "type", "icon"]

/-- The item returned for `/r` under `withMtime` (the empty object if none were returned). -/
def itemRMtime : Node :=
  (directoryTree exampleWorld plainLib (some withMtime) true true 3 "/r").out.result?.getD
    (.mk [])

/-- The item returned for `/r` under `withNodeFields` (the empty object if none were
returned). -/
def itemRFields : Node :=
  (directoryTree exampleWorld plainLib (some withNodeFields) true true 3 "/r").out.result?.getD
    (.mk [])

/-- Options asking for the attribute `extension`, a name the metadata has no property for. -/
def withExtensionAttr : Options where
  normalizePath := false
  exclude := none
  extensions := none
  attributes := some ["extension"]

/-- The item expected for `/r/b.tc` under `withExtensionAttr`: the attribute copy of lines
89-93 overwrites `extension` with `stats.extension`, which is `undefined`. -/
def itemBNoExtension : Node :=
  .mk [("path", .str "/r/b.tc"), ("name", .str "b.tc"), ("title", .str "b.tc"),
    ("key", .str "/r/b.tc"), ("size", .num 5), ("extension", .undefined),
    ("type", .str "file"), ("icon", .element "CameraOutlined")]

/-- Options that enable `normalizePath` and nothing else. -/
def normalizing : Options where
  normalizePath := true
  exclude := none
  extensions := none
  attributes := none

/-- A POSIX filesystem with a backslash in an entry name: `/r` holds the regular file named
`a\b.txt` (9 bytes) and the directory `a`, which holds the regular file `b.txt` (7 bytes). -/
def backslashWorld : World where
  statSync := fun p =>
    if p = "/r" then some (dirStats "t0")
    else if p = "/r/a\\b.txt" then some (fileStats 9 "t1")
    else if p = "/r/a" then some (dirStats "t2")
    else if p = "/r/a/b.txt" then some (fileStats 7 "t3")
    else none
  readdirSync := fun p =>
    if p = "/r" then .ok ["a\\b.txt", "a"]
    else if p = "/r/a" then .ok ["b.txt"]
    else .error ⟨"ENOTDIR"⟩

/-- The item returned under `normalizing` for the entry `a\b.txt` of `/r`: the call normalises
its path to `/r/a/b.txt` and fetches the metadata of that path. -/
def itemBackslash : Node :=
  .mk [("path", .str "/r/a/b.txt"), ("name", .str "a\\b.txt"), ("title", .str "a\\b.txt"),
    ("key", .str "/r/a/b.txt"), ("size", .num 7), ("extension", .str ".txt"),
    ("type", .str "file")]

/-- The item returned for the entry `b.txt` of `/r/a`. -/
def itemPlainB : Node :=
  .mk [("path", .str "/r/a/b.txt"), ("name", .str "b.txt"), ("title", .str "b.txt"),
    ("key", .str "/r/a/b.txt"), ("size", .num 7), ("extension", .str ".txt"),
    ("type", .str "file")]

/-- The item returned for the directory `/r/a`. -/
def itemDirA : Node :=
  .mk [("path", .str "/r/a"), ("name", .str "a"), ("title", .str "a"),
    ("key", .str "/r/a"), ("children", .arr [itemPlainB]), ("size", .num 7),
    ("type", .str "directory"), ("icon", .element "FolderFilled")]

/-- The item returned for `/r` on `backslashWorld` under `normalizing`. -/
def itemRBackslash : Node :=
  .mk [("path", .str "/r"), ("name", .str "r"), ("title", .str "r"),
    ("key", .str "/r"), ("children", .arr [itemBackslash, itemDirA]), ("size", .num 14),
    ("type", .str "directory"), ("icon", .element "FolderFilled")]

/-- Options asking for the attribute `path`, a name the metadata has no property for. -/
def withPathAttr : Options where
  normalizePath := false
  exclude := none
  extensions := none
  attributes := some ["path"]

/-- The item returned for `/r` under `withPathAttr` (the empty object if none were returned). -/
def itemRPathAttr : Node :=
  (directoryTree exampleWorld plainLib (some withPathAttr) true true 3 "/r").out.result?.getD
    (.mk [])

/-! ## Further notions used to state the properties -/

/-- The sizes of the items of the tree of `n` that are not of type directory (the items built
by the file branch), in post-order. -/
def Node.fileSizes (n : Node) : List Val :=
  (n.postorder.filter fun m => !m.isDirectoryItem).map fun m => m.get "size"

/-- The call on `p` makes the recursive call on `c`: `p` is a directory, with metadata fetched
and path not excluded, whose listing succeeds, and `c` is the joined path of one of its
entries. -/
def Calls (w : World) (lib : PathLib) (options : Option Options) (p c : String) : Prop :=
  ∃ stats dirData e,
    w.statSync (effectivePath options p) = some stats ∧
    isExcluded options (effectivePath options p) = false ∧
    stats.kind = .directory ∧
    w.readdirSync (effectivePath options p) = .ok dirData ∧
    e ∈ dirData ∧ c = lib.join (effectivePath options p) e

/-- The depth of the paths of the scenario below `/r`, counted from the leaves. -/
def exampleRank (p : String) : Nat :=
  if p = "/r" then 2 else if p = "/r/sub" then 1 else 0

/-- The exclusion patterns of the options, none when no exclusion rule is set. -/
def exclusionsOf (options : Option Options) : List Pattern :=
  match options with
  | some o =>
    match o.exclude with
    | some exclude => excludesOf exclude
    | none => []
  | none => []

/-- The options that differ from `options` only in that the exclusion rule has the further
patterns `extra`. -/
def withMoreExclusions (options : Option Options) (extra : List Pattern) : Options :=
  match options with
  | some o => { o with exclude := some (.many (exclusionsOf (some o) ++ extra)) }
  | none =>
    { normalizePath := false, exclude := some (.many extra), extensions := none,
      attributes := none }

mutual
/-- The tree of `n2` is the tree of `n1` with some subtrees taken out: the two items are the
same, or they agree on every property but `children` and `size`, the children of `n2` are
children of `n1`, in the same order and themselves with subtrees taken out, and the size of
`n2` is at most the size of `n1`. -/
inductive Pruned : Node → Node → Prop where
  | same (n : Node) : Pruned n n
  | directory {n2 n1 : Node} {cs2 cs1 : List Node} {s2 s1 : Nat} :
      (∀ k, k ≠ "children" → k ≠ "size" → n2.get k = n1.get k) →
      n2.get "children" = .arr cs2 → n1.get "children" = .arr cs1 →
      PrunedList cs2 cs1 →
      n2.get "size" = .num s2 → n1.get "size" = .num s1 → s2 ≤ s1 →
      Pruned n2 n1
/-- The list `cs2` is the list `cs1` with some items left out and the others, in the same
order, with subtrees taken out. -/
inductive PrunedList : List Node → List Node → Prop where
  | nil : PrunedList [] []
  | drop {c1 : Node} {cs2 cs1 : List Node} : PrunedList cs2 cs1 → PrunedList cs2 (c1 :: cs1)
  | keep {c2 c1 : Node} {cs2 cs1 : List Node} :
      Pruned c2 c1 → PrunedList cs2 cs1 → PrunedList (c2 :: cs2) (c1 :: cs1)
end

/-- The scan lists the directory at the path `q` and finds the entry `e`: the metadata of `q`
is fetched, `q` is not excluded, it is a directory, its listing succeeds and holds `e`. -/
def Lists (w : World) (options : Option Options) (q e : String) : Prop :=
  ∃ stats dirData, w.statSync q = some stats ∧ isExcluded options q = false ∧
    stats.kind = .directory ∧ w.readdirSync q = .ok dirData ∧ e ∈ dirData

/-- The path `s` lies below the path `t` in the scan: it is `t`, or it is the path the scan
works on for an entry of a directory that lies below `t` and that the scan lists, which is the
joined path `p.join(q, e)` after the normalisation the options ask for. -/
inductive Below (w : World) (lib : PathLib) (options : Option Options) (t : String) :
    String → Prop where
  | refl : Below w lib options t t
  | entry {q e : String} : Below w lib options t q → Lists w options q e →
      Below w lib options t (effectivePath options (lib.join q e))

/-! ## Basic facts about the embedding -/

theorem lookup_setProp (key : String) (v : Val) (k : String) (ps : List (String × Val)) :
    (setProp key v ps).lookup k = if k = key then some v else ps.lookup k := by
  induction ps with
  | nil =>
    by_cases h : k = key
    · simp [setProp, List.lookup, h]
    · have : (k == key) = false := by simpa using h
      simp [setProp, List.lookup, h, this]
  | cons a rest ih =>
    obtain ⟨k0, w⟩ := a
    by_cases h0 : k0 = key
    · subst h0
      by_cases h : k = k0
      · subst h; simp [setProp, List.lookup]
      · have : (k == k0) = false := by simpa using h
        simp [setProp, List.lookup, h, this]
    · by_cases h1 : k = k0
      · subst h1
        have hk : ¬ k = key := h0
        simp [setProp, List.lookup, h0]
      · have : (k == k0) = false := by simpa using h1
        simp [setProp, List.lookup, h0, this, ih]

theorem Node.get_set (item : Node) (key : String) (v : Val) (k : String) :
    (item.set key v).get k = if k = key then v else item.get k := by
  unfold Node.get Node.set
  simp only [Node.props, lookup_setProp]
  split_ifs <;> rfl

theorem copyAttributes_eq (options : Option Options) (stats : Stats) (item : Node) :
    copyAttributes options stats item =
      (attributesOf options).foldl (fun it attr => it.set attr (stats.get attr)) item := by
  unfold copyAttributes attributesOf
  cases options with
  | none => rfl
  | some o =>
    obtain ⟨np, ex, ext, attrs⟩ := o
    cases attrs <;> rfl

theorem get_foldl_set (stats : Stats) (attrs : List String) (item : Node) (k : String) :
    (attrs.foldl (fun it attr => it.set attr (stats.get attr)) item).get k =
      if k ∈ attrs then stats.get k else item.get k := by
  induction attrs generalizing item with
  | nil => simp
  | cons a rest ih =>
    rw [List.foldl_cons, ih, Node.get_set]
    by_cases h1 : k ∈ rest
    · simp [h1]
    · by_cases h2 : k = a
      · subst h2; simp [h1]
      · simp [h1, h2]

theorem copyAttributes_get (options : Option Options) (stats : Stats) (item : Node) (k : String) :
    (copyAttributes options stats item).get k =
      if k ∈ attributesOf options then stats.get k else item.get k := by
  rw [copyAttributes_eq, get_foldl_set]

theorem mapChildren_cons_returns (scan : String → Run) (c : String) (rest : List String)
    (h : (scan c).out.returns = true) :
    mapChildren scan (c :: rest) =
      Mapped.push (scan c).out.result? (scan c).trace (mapChildren scan rest) := by
  rw [mapChildren]
  cases hc : (scan c).out with
  | throw ex => rw [hc] at h; cases h
  | outOfFuel => rw [hc] at h; cases h
  | node item =>
    rcases mapChildren scan rest with ⟨m, t'⟩
    cases m <;> rfl
  | absent =>
    rcases mapChildren scan rest with ⟨m, t'⟩
    cases m <;> rfl

theorem mapChildren_cons_throw (scan : String → Run) (c : String) (rest : List String)
    (ex : JsError) (h : (scan c).out = .throw ex) :
    mapChildren scan (c :: rest) = (.throw ex, (scan c).trace) := by
  rw [mapChildren]; simp only [h]

theorem mapChildren_cons_outOfFuel (scan : String → Run) (c : String) (rest : List String)
    (h : (scan c).out = .outOfFuel) :
    mapChildren scan (c :: rest) = (.outOfFuel, (scan c).trace) := by
  rw [mapChildren]; simp only [h]

theorem mapChildren_of_returns (scan : String → Run) (xs : List String)
    (h : ∀ c ∈ xs, (scan c).out.returns = true) :
    mapChildren scan xs =
      (.results (xs.map fun c => (scan c).out.result?),
        (xs.map fun c => (scan c).trace).flatten) := by
  induction xs with
  | nil => rfl
  | cons c rest ih =>
    rw [mapChildren_cons_returns scan c rest (h c (List.mem_cons_self _ _)),
      ih (fun c hc => h c (List.mem_cons_of_mem _ hc))]
    rfl

theorem returns_of_mapChildren (scan : String → Run) (xs : List String)
    (rs : List (Option Node)) (t : List Event) (h : mapChildren scan xs = (.results rs, t)) :
    ∀ c ∈ xs, (scan c).out.returns = true := by
  induction xs generalizing rs t with
  | nil => intro c hc; cases hc
  | cons c rest ih =>
    have hc : (scan c).out.returns = true := by
      cases hc : (scan c).out with
      | throw ex => rw [mapChildren_cons_throw scan c rest ex hc] at h; cases h
      | outOfFuel => rw [mapChildren_cons_outOfFuel scan c rest hc] at h; cases h
      | node item => rfl
      | absent => rfl
    rw [mapChildren_cons_returns scan c rest hc] at h
    rcases hm : mapChildren scan rest with ⟨m, t'⟩
    rw [hm] at h
    cases m with
    | results rs' =>
      intro c' hc'
      rcases List.mem_cons.1 hc' with rfl | hmem
      · exact hc
      · exact ih rs' t' hm c' hmem
    | throw ex => cases h
    | outOfFuel => cases h

theorem mapChildren_results (scan : String → Run) (xs : List String)
    (rs : List (Option Node)) (t : List Event) (h : mapChildren scan xs = (.results rs, t)) :
    (∀ c ∈ xs, (scan c).out.returns = true) ∧
      rs = xs.map (fun c => (scan c).out.result?) ∧
      t = (xs.map fun c => (scan c).trace).flatten := by
  have hr := returns_of_mapChildren scan xs rs t h
  rw [mapChildren_of_returns scan xs hr] at h
  cases h
  exact ⟨hr, rfl, rfl⟩

section
variable (w : World) (lib : PathLib) (options : Option Options) (onEachFile onEachDirectory : Bool)

theorem directoryTree_stat_fails (fuel : Nat) (path : String)
    (h : w.statSync (effectivePath options path) = none) :
    directoryTree w lib options onEachFile onEachDirectory (fuel + 1) path = ⟨.absent, []⟩ := by
  simp only [directoryTree, directoryTreeBody, h]

theorem directoryTree_excluded (fuel : Nat) (path : String) (stats : Stats)
    (h : w.statSync (effectivePath options path) = some stats)
    (hx : isExcluded options (effectivePath options path) = true) :
    directoryTree w lib options onEachFile onEachDirectory (fuel + 1) path = ⟨.absent, []⟩ := by
  simp only [directoryTree, directoryTreeBody, h, hx, if_true]

theorem directoryTree_file (fuel : Nat) (path : String) (stats : Stats)
    (h : w.statSync (effectivePath options path) = some stats)
    (hx : isExcluded options (effectivePath options path) = false)
    (hk : stats.kind = .file) :
    directoryTree w lib options onEachFile onEachDirectory (fuel + 1) path =
      if extensionRejected options (lib.toLowerCase (lib.extname (effectivePath options path)))
      then ⟨.absent, []⟩
      else
        ⟨.node (fileItem options (lib.basename path) (effectivePath options path)
            (lib.toLowerCase (lib.extname (effectivePath options path))) stats),
          if onEachFile then
            [⟨.onEachFile, fileItem options (lib.basename path) (effectivePath options path)
              (lib.toLowerCase (lib.extname (effectivePath options path))) stats,
              effectivePath options path, stats⟩]
          else []⟩ := by
  have hf : stats.isFile = true := by simp [Stats.isFile, hk]
  simp only [directoryTree, directoryTreeBody, h, hx, hf, if_true, Bool.false_eq_true, if_false]

theorem directoryTree_other (fuel : Nat) (path : String) (stats : Stats)
    (h : w.statSync (effectivePath options path) = some stats)
    (hk : stats.kind = .other) :
    directoryTree w lib options onEachFile onEachDirectory (fuel + 1) path = ⟨.absent, []⟩ := by
  have hf : stats.isFile = false := by simp [Stats.isFile, hk]
  have hd : stats.isDirectory = false := by simp [Stats.isDirectory, hk]
  simp only [directoryTree, directoryTreeBody, h, hf, hd, Bool.false_eq_true, if_false, ite_self]

theorem directoryTree_directory (fuel : Nat) (path : String) (stats : Stats)
    (h : w.statSync (effectivePath options path) = some stats)
    (hx : isExcluded options (effectivePath options path) = false)
    (hk : stats.kind = .directory) :
    directoryTree w lib options onEachFile onEachDirectory (fuel + 1) path =
      match safeReadDirSync w (effectivePath options path) with
      | .null => ⟨.absent, []⟩
      | .throw ex => ⟨.throw ex, []⟩
      | .entries dirData =>
        match mapChildren
            (fun child => directoryTree w lib options onEachFile onEachDirectory fuel
              (lib.join (effectivePath options path) child)) dirData with
        | (.throw ex, t) => ⟨.throw ex, t⟩
        | (.outOfFuel, t) => ⟨.outOfFuel, t⟩
        | (.results rs, t) =>
          ⟨.node (directoryItem options (lib.basename path) (effectivePath options path) stats
              (filterTruthy rs)),
            t ++ if onEachDirectory then
              [⟨.onEachDirectory,
                directoryItem options (lib.basename path) (effectivePath options path) stats
                  (filterTruthy rs),
                effectivePath options path, stats⟩]
            else []⟩ := by
  have hf : stats.isFile = false := by simp [Stats.isFile, hk]
  have hd : stats.isDirectory = true := by simp [Stats.isDirectory, hk]
  simp only [directoryTree, directoryTreeBody, h, hx, hf, hd, if_true, Bool.false_eq_true, if_false]

end

theorem Stats.get_ne_str (s : Stats) (a x : String) : s.get a ≠ .str x := by
  unfold Stats.get
  split_ifs
  · intro h; cases h
  · split <;> intro h <;> cases h

theorem Stats.get_ne_arr (s : Stats) (a : String) (items : List Node) : s.get a ≠ .arr items := by
  unfold Stats.get
  split_ifs
  · intro h; cases h
  · split <;> intro h <;> cases h

theorem Stats.get_size (s : Stats) : s.get "size" = .num s.size := by
  simp [Stats.get]

theorem baseItem_get (name path k : String) :
    (baseItem name path).get k =
      if k = "key" then .str path else if k = "title" then .str name
      else if k = "path" then .str path else if k = "name" then .str name else .undefined := by
  unfold baseItem
  rw [Node.get_set, Node.get_set]
  by_cases h1 : k = "key"
  · simp [h1]
  by_cases h2 : k = "title"
  · simp [h2]
  by_cases h3 : k = "path"
  · subst h3; simp [Node.get, Node.props, List.lookup]
  by_cases h4 : k = "name"
  · subst h4; simp [Node.get, Node.props, List.lookup]
  have e3 : (k == "path") = false := by simpa using h3
  have e4 : (k == "name") = false := by simpa using h4
  simp [h1, h2, h3, h4, Node.get, Node.props, List.lookup, e3, e4]

theorem directoryItem_get (options : Option Options) (name path : String) (stats : Stats)
    (children : List Node) (k : String) :
    (directoryItem options name path stats children).get k =
      if k = "icon" then .element "FolderFilled"
      else if k = "type" then .str "directory"
      else if k = "size" then reduceSize children
      else if k = "children" then .arr children
      else if k ∈ attributesOf options then stats.get k
      else (baseItem name path).get k := by
  unfold directoryItem
  simp only [Node.get_set, copyAttributes_get]

theorem fileItem_get (options : Option Options) (name path ext : String) (stats : Stats)
    (k : String) :
    (fileItem options name path ext stats).get k =
      if k ∈ attributesOf options then stats.get k
      else if k = "icon" ∧ ext = ".tc" then .element "CameraOutlined"
      else if k = "type" then .str "file"
      else if k = "extension" then .str ext
      else if k = "size" then .num stats.size
      else (baseItem name path).get k := by
  unfold fileItem
  simp only [copyAttributes_get]
  by_cases hm : k ∈ attributesOf options
  · simp [hm]
  · simp only [hm, if_false]
    by_cases he : ext = ".tc"
    · simp only [he, if_true, Node.get_set, and_true]
    · simp only [he, if_false, Node.get_set, and_false]

theorem fileItem_size (options : Option Options) (name path ext : String) (stats : Stats) :
    (fileItem options name path ext stats).get "size" = .num stats.size := by
  rw [fileItem_get]
  split_ifs <;> first | rfl | exact Stats.get_size stats | simp_all

theorem fileItem_children (options : Option Options) (name path ext : String) (stats : Stats)
    (items : List Node) : (fileItem options name path ext stats).get "children" ≠ .arr items := by
  rw [fileItem_get, baseItem_get]
  by_cases hm : "children" ∈ attributesOf options
  · simp only [hm, if_true]; exact Stats.get_ne_arr _ _ _
  · simp [hm]

theorem fileItem_type_ne (options : Option Options) (name path ext : String) (stats : Stats) :
    (fileItem options name path ext stats).get "type" ≠ .str "directory" := by
  rw [fileItem_get]
  by_cases hm : "type" ∈ attributesOf options
  · simp only [hm, if_true]; exact Stats.get_ne_str _ _ _
  · simp [hm]

theorem reduceSize_aux (children : List Node) (sizes : List Nat) (a : Nat)
    (h : children.map (fun c => c.get "size") = sizes.map Val.num) :
    children.foldl (fun prev cur => addSize prev (cur.get "size")) (.num a) =
      .num (a + sizes.sum) := by
  induction children generalizing sizes a with
  | nil =>
    cases sizes with
    | nil => simp
    | cons s ss => simp at h
  | cons c rest ih =>
    cases sizes with
    | nil => simp at h
    | cons s ss =>
      simp only [List.map_cons, List.cons.injEq] at h
      rw [List.foldl_cons, h.1, addSize, ih ss (a + s) h.2, List.sum_cons, Nat.add_assoc]

theorem reduceSize_eq (children : List Node) (sizes : List Nat)
    (h : children.map (fun c => c.get "size") = sizes.map Val.num) :
    reduceSize children = .num sizes.sum := by
  unfold reduceSize
  rw [reduceSize_aux children sizes 0 h, Nat.zero_add]

section
variable (w : World) (lib : PathLib) (options : Option Options) (onEachFile onEachDirectory : Bool)

theorem filterTruthy_mem (rs : List (Option Node)) (c : Node) :
    c ∈ filterTruthy rs ↔ some c ∈ rs := by
  simp [filterTruthy]

theorem node_of_result (out : Outcome) (c : Node) (h : out.result? = some c) : out = .node c := by
  cases out <;> simp_all [Outcome.result?]

theorem sizes_of_items (items : List Node) (h : ∀ c ∈ items, ∃ k, c.get "size" = .num k) :
    ∃ sizes : List Nat, items.map (fun c => c.get "size") = sizes.map Val.num := by
  induction items with
  | nil => exact ⟨[], rfl⟩
  | cons c rest ih =>
    obtain ⟨sizes, hs⟩ := ih (fun c hc => h c (List.mem_cons_of_mem _ hc))
    obtain ⟨k, hk⟩ := h c (List.mem_cons_self _ _)
    exact ⟨k :: sizes, by rw [List.map_cons, List.map_cons, hs, hk]⟩

/-- The ways a call can have returned an item. -/
theorem directoryTree_node_inv (fuel : Nat) (path : String) (n : Node)
    (h : (directoryTree w lib options onEachFile onEachDirectory fuel path).out = .node n) :
    ∃ fuel' stats, fuel = fuel' + 1 ∧
      w.statSync (effectivePath options path) = some stats ∧
      isExcluded options (effectivePath options path) = false ∧
      ((stats.kind = .file ∧
        extensionRejected options
          (lib.toLowerCase (lib.extname (effectivePath options path))) = false ∧
        n = fileItem options (lib.basename path) (effectivePath options path)
          (lib.toLowerCase (lib.extname (effectivePath options path))) stats) ∨
       (stats.kind = .directory ∧ ∃ dirData,
        w.readdirSync (effectivePath options path) = .ok dirData ∧
        (∀ c ∈ dirData, (directoryTree w lib options onEachFile onEachDirectory fuel'
          (lib.join (effectivePath options path) c)).out.returns = true) ∧
        n = directoryItem options (lib.basename path) (effectivePath options path) stats
          (filterTruthy (dirData.map fun c =>
            (directoryTree w lib options onEachFile onEachDirectory fuel'
              (lib.join (effectivePath options path) c)).out.result?)))) := by
  cases fuel with
  | zero => simp [directoryTree] at h
  | succ fuel' =>
    refine ⟨fuel', ?_⟩
    cases hs : w.statSync (effectivePath options path) with
    | none => rw [directoryTree_stat_fails w lib options _ _ fuel' path hs] at h; cases h
    | some stats =>
      refine ⟨stats, rfl, rfl, ?_⟩
      cases hx : isExcluded options (effectivePath options path) with
      | true => rw [directoryTree_excluded w lib options _ _ fuel' path stats hs hx] at h; cases h
      | false =>
        refine ⟨rfl, ?_⟩
        cases hk : stats.kind with
        | other => rw [directoryTree_other w lib options _ _ fuel' path stats hs hk] at h; cases h
        | file =>
          left
          rw [directoryTree_file w lib options _ _ fuel' path stats hs hx hk] at h
          cases hr : extensionRejected options
              (lib.toLowerCase (lib.extname (effectivePath options path))) with
          | true => rw [hr] at h; cases h
          | false =>
            rw [hr] at h
            simp only [Bool.false_eq_true, if_false, Outcome.node.injEq] at h
            exact ⟨rfl, rfl, h.symm⟩
        | directory =>
          right
          refine ⟨rfl, ?_⟩
          rw [directoryTree_directory w lib options _ _ fuel' path stats hs hx hk] at h
          unfold safeReadDirSync at h
          cases hl : w.readdirSync (effectivePath options path) with
          | error ex =>
            rw [hl] at h
            simp only at h
            by_cases hc : ex.code = "EACCES" ∨ ex.code = "EPERM" <;> simp [hc] at h
          | ok dirData =>
            rw [hl] at h
            simp only at h
            rcases hm : mapChildren
              (fun child => directoryTree w lib options onEachFile onEachDirectory fuel'
                (lib.join (effectivePath options path) child)) dirData with ⟨m, t⟩
            rw [hm] at h
            cases m with
            | throw ex => cases h
            | outOfFuel => cases h
            | results rs =>
              simp only [Outcome.node.injEq] at h
              obtain ⟨h1, h2, _⟩ := mapChildren_results _ _ _ _ hm
              exact ⟨dirData, rfl, h1, by rw [← h, h2]⟩

/-- Every item of a returned tree was itself returned by a call of `directoryTree`. -/
theorem scanned_of_sub (fuel : Nat) (path : String) (root m : Node)
    (h : (directoryTree w lib options onEachFile onEachDirectory fuel path).out = .node root)
    (hm : m.Sub root) :
    ∃ fuel' path', (directoryTree w lib options onEachFile onEachDirectory fuel' path').out
      = .node m := by
  induction hm generalizing fuel path with
  | self => exact ⟨fuel, path, h⟩
  | @child c n items hch hmem _ ih =>
    obtain ⟨fuel', stats, _, _, _, hcase⟩ :=
      directoryTree_node_inv w lib options onEachFile onEachDirectory fuel path n h
    rcases hcase with ⟨_, _, hn⟩ | ⟨_, dirData, _, _, hn⟩
    · exact absurd (hn ▸ hch) (fileItem_children _ _ _ _ _ _)
    · rw [hn, directoryItem_get] at hch
      simp only [String.reduceEq, if_false, if_true, Val.arr.injEq] at hch
      rw [← hch, filterTruthy_mem, List.mem_map] at hmem
      obtain ⟨e, _, he⟩ := hmem
      refine ih fuel' (lib.join (effectivePath options path) e) ?_
      exact node_of_result _ _ he

/-- The size of a returned item is a number. -/
theorem size_isNum (fuel : Nat) (path : String) (n : Node)
    (h : (directoryTree w lib options onEachFile onEachDirectory fuel path).out = .node n) :
    ∃ k, n.get "size" = .num k := by
  induction fuel generalizing path n with
  | zero => simp [directoryTree] at h
  | succ fuel ih =>
    obtain ⟨fuel', stats, hf, _, _, hcase⟩ :=
      directoryTree_node_inv w lib options onEachFile onEachDirectory _ path n h
    cases hf
    rcases hcase with ⟨_, _, hn⟩ | ⟨_, dirData, _, hret, hn⟩
    · exact ⟨stats.size, hn ▸ fileItem_size _ _ _ _ _⟩
    · obtain ⟨sizes, hs⟩ := sizes_of_items (filterTruthy (dirData.map fun c =>
          (directoryTree w lib options onEachFile onEachDirectory fuel
            (lib.join (effectivePath options path) c)).out.result?)) (fun c hc => by
        rw [filterTruthy_mem, List.mem_map] at hc
        obtain ⟨e, _, he⟩ := hc
        exact ih (lib.join (effectivePath options path) e) c (node_of_result _ _ he))
      refine ⟨sizes.sum, ?_⟩
      rw [hn, directoryItem_get]
      simp only [String.reduceEq, if_false, if_true]
      exact reduceSize_eq _ _ hs

end

/-! ## More fuel does not change a finished scan -/

theorem mapChildren_congr (s1 s2 : String → Run) (xs : List String)
    (hne : (mapChildren s1 xs).1 ≠ .outOfFuel)
    (h : ∀ c ∈ xs, (s1 c).out ≠ .outOfFuel → s2 c = s1 c) :
    mapChildren s2 xs = mapChildren s1 xs := by
  induction xs with
  | nil => rfl
  | cons c rest ih =>
    cases hc : (s1 c).out with
    | outOfFuel =>
      rw [mapChildren_cons_outOfFuel s1 c rest hc] at hne
      exact absurd rfl hne
    | throw ex =>
      have h2 : s2 c = s1 c := h c (List.mem_cons_self _ _) (by rw [hc]; intro h; cases h)
      rw [mapChildren_cons_throw s1 c rest ex hc,
        mapChildren_cons_throw s2 c rest ex (by rw [h2, hc]), h2]
    | node item =>
      have h2 : s2 c = s1 c := h c (List.mem_cons_self _ _) (by rw [hc]; intro h; cases h)
      have hr : (s1 c).out.returns = true := by rw [hc]; rfl
      rw [mapChildren_cons_returns s1 c rest hr] at hne ⊢
      rw [mapChildren_cons_returns s2 c rest (by rw [h2]; exact hr), h2]
      rw [ih ?_ (fun c hc => h c (List.mem_cons_of_mem _ hc))]
      intro hm
      rcases hr' : mapChildren s1 rest with ⟨m, t⟩
      rw [hr'] at hne hm
      cases m <;> simp_all [Mapped.push]
    | absent =>
      have h2 : s2 c = s1 c := h c (List.mem_cons_self _ _) (by rw [hc]; intro h; cases h)
      have hr : (s1 c).out.returns = true := by rw [hc]; rfl
      rw [mapChildren_cons_returns s1 c rest hr] at hne ⊢
      rw [mapChildren_cons_returns s2 c rest (by rw [h2]; exact hr), h2]
      rw [ih ?_ (fun c hc => h c (List.mem_cons_of_mem _ hc))]
      intro hm
      rcases hr' : mapChildren s1 rest with ⟨m, t⟩
      rw [hr'] at hne hm
      cases m <;> simp_all [Mapped.push]

/-- The body gives the same run for two recursive calls that agree wherever the first one does
not run out of fuel, provided the run with the first one does not run out of fuel. -/
theorem directoryTreeBody_congr (w : World) (lib : PathLib) (options : Option Options)
    (onEachFile onEachDirectory : Bool) (r1 r2 : String → Run) (path : String)
    (hne : (directoryTreeBody w lib options onEachFile onEachDirectory r1 path).out
      ≠ .outOfFuel)
    (h : ∀ c, (r1 c).out ≠ .outOfFuel → r2 c = r1 c) :
    directoryTreeBody w lib options onEachFile onEachDirectory r2 path =
      directoryTreeBody w lib options onEachFile onEachDirectory r1 path := by
  unfold directoryTreeBody at hne ⊢
  simp only at hne ⊢
  cases hs : w.statSync (effectivePath options path) with
  | none => rfl
  | some stats =>
    simp only [hs] at hne ⊢
    cases hx : isExcluded options (effectivePath options path) with
    | true => simp only [if_true]
    | false =>
      cases hf : stats.isFile with
      | true => simp only [if_true, Bool.false_eq_true, if_false]
      | false =>
        cases hd : stats.isDirectory with
        | false => simp only [Bool.false_eq_true, if_false]
        | true =>
          simp only [hx, hf, hd, if_true, Bool.false_eq_true, if_false] at hne ⊢
          cases hl : safeReadDirSync w (effectivePath options path) with
          | null => rfl
          | throw ex => rfl
          | entries dirData =>
            simp only [hl] at hne ⊢
            rw [mapChildren_congr
              (fun child => r1 (lib.join (effectivePath options path) child))
              (fun child => r2 (lib.join (effectivePath options path) child)) dirData ?_
              (fun c _ hc => h _ hc)]
            intro hm
            rcases hr' : mapChildren
              (fun child => r1 (lib.join (effectivePath options path) child)) dirData
              with ⟨m, t⟩
            rw [hr'] at hne hm
            cases m <;> simp_all

theorem directoryTree_succ_eq (w : World) (lib : PathLib) (options : Option Options)
    (onEachFile onEachDirectory : Bool) (fuel : Nat) (path : String)
    (hne : (directoryTree w lib options onEachFile onEachDirectory fuel path).out ≠ .outOfFuel) :
    directoryTree w lib options onEachFile onEachDirectory (fuel + 1) path =
      directoryTree w lib options onEachFile onEachDirectory fuel path := by
  induction fuel generalizing path with
  | zero => exact absurd rfl hne
  | succ fuel ih =>
    rw [directoryTree]
    exact directoryTreeBody_congr w lib options onEachFile onEachDirectory _ _ path hne
      (fun c hc => ih c hc)

/-- A scan that ended with some fuel ends the same way with any larger fuel. -/
theorem directoryTree_mono (w : World) (lib : PathLib) (options : Option Options)
    (onEachFile onEachDirectory : Bool) (fuel fuel' : Nat) (path : String)
    (hne : (directoryTree w lib options onEachFile onEachDirectory fuel path).out ≠ .outOfFuel)
    (hle : fuel ≤ fuel') :
    directoryTree w lib options onEachFile onEachDirectory fuel' path =
      directoryTree w lib options onEachFile onEachDirectory fuel path := by
  induction hle with
  | refl => rfl
  | step _ ih =>
    rw [directoryTree_succ_eq w lib options onEachFile onEachDirectory _ path (by rw [ih]; exact hne),
      ih]

/-! ## The body, branch by branch -/

theorem directoryTreeBody_directory (w : World) (lib : PathLib) (options : Option Options)
    (onEachFile onEachDirectory : Bool) (recurse : String → Run) (path : String) (stats : Stats)
    (h : w.statSync (effectivePath options path) = some stats)
    (hx : isExcluded options (effectivePath options path) = false)
    (hk : stats.kind = .directory) :
    directoryTreeBody w lib options onEachFile onEachDirectory recurse path =
      match safeReadDirSync w (effectivePath options path) with
      | .null => ⟨.absent, []⟩
      | .throw ex => ⟨.throw ex, []⟩
      | .entries dirData =>
        finishDirectory options onEachDirectory (lib.basename path) (effectivePath options path)
          stats
          (mapChildren (fun child => recurse (lib.join (effectivePath options path) child))
            dirData) := by
  have hf : stats.isFile = false := by simp [Stats.isFile, hk]
  have hd : stats.isDirectory = true := by simp [Stats.isDirectory, hk]
  simp only [directoryTreeBody, h, hx, hf, hd, if_true, Bool.false_eq_true, if_false]
  cases safeReadDirSync w (effectivePath options path) with
  | null => rfl
  | throw ex => rfl
  | entries dirData =>
    simp only
    rcases mapChildren (fun child => recurse (lib.join (effectivePath options path) child))
      dirData with ⟨m, t⟩
    cases m <;> rfl

/-- Outside the directory branch the body asks neither for a listing nor for a recursive
call. -/
theorem directoryTreeBody_not_directory (w w' : World) (lib : PathLib)
    (options : Option Options) (onEachFile onEachDirectory : Bool) (r r' : String → Run)
    (path : String) (hstat : w'.statSync = w.statSync)
    (h : ∀ stats, w.statSync (effectivePath options path) = some stats →
      isExcluded options (effectivePath options path) = false → stats.kind ≠ .directory) :
    directoryTreeBody w' lib options onEachFile onEachDirectory r' path =
      directoryTreeBody w lib options onEachFile onEachDirectory r path := by
  unfold directoryTreeBody
  simp only [hstat]
  cases hs : w.statSync (effectivePath options path) with
  | none => rfl
  | some stats =>
    simp only
    cases hx : isExcluded options (effectivePath options path) with
    | true => simp only [if_true]
    | false =>
      have hk := h stats hs hx
      cases hf : stats.isFile with
      | true => simp only [if_true, Bool.false_eq_true, if_false]
      | false =>
        have hd : stats.isDirectory = false := by
          simp only [Stats.isDirectory, beq_eq_false_iff_ne]
          exact hk
        simp only [hd, Bool.false_eq_true, if_false]

/-- The body looks at the filesystem through the metadata and through the listing of its own
path only. -/
theorem directoryTreeBody_world (w w' : World) (lib : PathLib) (options : Option Options)
    (onEachFile onEachDirectory : Bool) (r : String → Run) (path : String)
    (hstat : w'.statSync = w.statSync)
    (hl : w'.readdirSync (effectivePath options path) =
      w.readdirSync (effectivePath options path)) :
    directoryTreeBody w' lib options onEachFile onEachDirectory r path =
      directoryTreeBody w lib options onEachFile onEachDirectory r path := by
  unfold directoryTreeBody safeReadDirSync
  simp only [hstat, hl]

theorem Mapped.sameItems_push (r : Option Node) (t : List Event)
    (a b : Mapped × List Event) (h : Mapped.sameItems a b) :
    Mapped.sameItems (Mapped.push r t a) (Mapped.push r t b) := by
  obtain ⟨ma, ta⟩ := a
  obtain ⟨mb, tb⟩ := b
  cases r <;> cases ma <;> cases mb <;>
    simp_all [Mapped.sameItems, Mapped.push, filterTruthy, List.filterMap_cons]

theorem Mapped.sameItems_push_null (a : Mapped × List Event) :
    Mapped.sameItems a (Mapped.push none [] a) := by
  obtain ⟨ma, ta⟩ := a
  cases ma <;> simp [Mapped.sameItems, Mapped.push, filterTruthy]

theorem Mapped.sameItems_refl (a : Mapped × List Event) : Mapped.sameItems a a := by
  obtain ⟨ma, ta⟩ := a
  cases ma <;> simp [Mapped.sameItems]

theorem finishDirectory_sameItems (options : Option Options) (onEachDirectory : Bool)
    (name path : String) (stats : Stats) (a b : Mapped × List Event)
    (h : Mapped.sameItems a b) :
    finishDirectory options onEachDirectory name path stats a =
      finishDirectory options onEachDirectory name path stats b := by
  obtain ⟨ma, ta⟩ := a
  obtain ⟨mb, tb⟩ := b
  cases ma <;> cases mb <;> simp_all [Mapped.sameItems, finishDirectory]

theorem push_ne_outOfFuel (r : Option Node) (t : List Event) (a : Mapped × List Event)
    (h : (Mapped.push r t a).1 ≠ .outOfFuel) : a.1 ≠ .outOfFuel := by
  obtain ⟨ma, ta⟩ := a
  cases ma <;> simp_all [Mapped.push]

/-- Leaving out of the listing an entry whose scan returns `null` without calling back leaves
the same behind. -/
theorem mapChildren_remove (s1 s2 : String → Run) (xs ys : List String) (d : String)
    (hne : (mapChildren s1 (xs ++ d :: ys)).1 ≠ .outOfFuel)
    (h : ∀ c, (s1 c).out ≠ .outOfFuel → s2 c = s1 c)
    (hd : (s1 d).out ≠ .outOfFuel → s1 d = ⟨.absent, []⟩) :
    Mapped.sameItems (mapChildren s2 (xs ++ ys)) (mapChildren s1 (xs ++ d :: ys)) := by
  induction xs with
  | nil =>
    simp only [List.nil_append] at hne ⊢
    have hdo : (s1 d).out ≠ .outOfFuel := by
      intro hc
      rw [mapChildren_cons_outOfFuel s1 d ys hc] at hne
      exact hne rfl
    have hd' := hd hdo
    have hr : (s1 d).out.returns = true := by rw [hd']; rfl
    rw [mapChildren_cons_returns s1 d ys hr] at hne ⊢
    rw [mapChildren_congr s1 s2 ys (push_ne_outOfFuel _ _ _ hne) (fun c _ hc => h c hc), hd']
    exact Mapped.sameItems_push_null _
  | cons x rest ih =>
    simp only [List.cons_append] at hne ⊢
    cases hx : (s1 x).out with
    | outOfFuel =>
      rw [mapChildren_cons_outOfFuel s1 x _ hx] at hne
      exact absurd rfl hne
    | throw ex =>
      have h2 : s2 x = s1 x := h x (by rw [hx]; intro e; cases e)
      rw [mapChildren_cons_throw s1 x _ ex hx,
        mapChildren_cons_throw s2 x _ ex (by rw [h2, hx]), h2]
      exact Mapped.sameItems_refl _
    | node item =>
      have h2 : s2 x = s1 x := h x (by rw [hx]; intro e; cases e)
      have hr : (s1 x).out.returns = true := by rw [hx]; rfl
      rw [mapChildren_cons_returns s1 x _ hr] at hne ⊢
      rw [mapChildren_cons_returns s2 x _ (by rw [h2]; exact hr), h2]
      exact Mapped.sameItems_push _ _ _ _ (ih (push_ne_outOfFuel _ _ _ hne))
    | absent =>
      have h2 : s2 x = s1 x := h x (by rw [hx]; intro e; cases e)
      have hr : (s1 x).out.returns = true := by rw [hx]; rfl
      rw [mapChildren_cons_returns s1 x _ hr] at hne ⊢
      rw [mapChildren_cons_returns s2 x _ (by rw [h2]; exact hr), h2]
      exact Mapped.sameItems_push _ _ _ _ (ih (push_ne_outOfFuel _ _ _ hne))

/-! ## The size of a directory -/

/-- C1: in a tree returned by `directoryTree`, under any options and on any filesystem, every
item of type directory has an array `children` whose items all have a numeric size, and its
own `size` is the sum of those sizes; it is 0 when `children` is empty. -/
theorem C1_directory_size_is_sum (w : World) (lib : PathLib) (options : Option Options)
    (onEachFile onEachDirectory : Bool) (fuel : Nat) (path : String) (root D : Node)
    (h : (directoryTree w lib options onEachFile onEachDirectory fuel path).out = .node root)
    (hD : D.Sub root) (hdir : D.get "type" = .str "directory") :
    ∃ (items : List Node) (sizes : List Nat),
      D.get "children" = .arr items ∧
      items.map (fun c => c.get "size") = sizes.map Val.num ∧
      D.get "size" = .num sizes.sum ∧
      (items = [] → D.get "size" = .num 0) := by
  obtain ⟨fuel1, path1, h1⟩ :=
    scanned_of_sub w lib options onEachFile onEachDirectory fuel path root D h hD
  obtain ⟨fuel', stats, hf, _, _, hcase⟩ :=
    directoryTree_node_inv w lib options onEachFile onEachDirectory _ path1 D h1
  rcases hcase with ⟨_, _, hn⟩ | ⟨_, dirData, _, hret, hn⟩
  · exact absurd (hn ▸ hdir) (fileItem_type_ne _ _ _ _ _)
  · obtain ⟨sizes, hs⟩ := sizes_of_items (filterTruthy (dirData.map fun c =>
          (directoryTree w lib options onEachFile onEachDirectory fuel'
            (lib.join (effectivePath options path1) c)).out.result?)) (fun c hc => by
      rw [filterTruthy_mem, List.mem_map] at hc
      obtain ⟨e, _, he⟩ := hc
      exact size_isNum w lib options onEachFile onEachDirectory _ _ c (node_of_result _ _ he))
    have hsize : D.get "size" = .num sizes.sum := by
      rw [hn, directoryItem_get]
      simp only [String.reduceEq, if_false, if_true]
      exact reduceSize_eq _ _ hs
    refine ⟨_, sizes, ?_, hs, hsize, ?_⟩
    · rw [hn, directoryItem_get]
      simp only [String.reduceEq, if_false, if_true]
    · intro hnil
      rw [hnil] at hs
      cases sizes with
      | nil => exact hsize
      | cons s ss => simp at hs

/-- C1, on the scenario: `/r` with `a.txt` (3 bytes), `b.tc` (5 bytes) and `sub/c.txt`
(2 bytes), no filters; `/r` has size 10 and `sub` has size 2. -/
theorem C1_directory_size_is_sum_witness :
    (directoryTree exampleWorld plainLib none true true 3 "/r").out = .node itemR ∧
    itemSub.Sub itemR ∧ itemSub.get "type" = .str "directory" ∧
    itemR.get "size" = .num 10 ∧ itemSub.get "size" = .num 2 ∧
    ∃ (items : List Node) (sizes : List Nat),
      itemSub.get "children" = .arr items ∧
      items.map (fun c => c.get "size") = sizes.map Val.num ∧
      itemSub.get "size" = .num sizes.sum ∧
      (items = [] → itemSub.get "size" = .num 0) :=
  ⟨rfl, @Node.Sub.child itemSub itemSub itemR [itemA, itemB, itemSub] rfl (by simp) (.self _),
    rfl, rfl, rfl,
    C1_directory_size_is_sum exampleWorld plainLib none true true 3 "/r" itemR itemSub rfl
      (@Node.Sub.child itemSub itemSub itemR [itemA, itemB, itemSub] rfl (by simp) (.self _))
      rfl⟩

/-! ## The extension rule -/

theorem fileItem_extension (options : Option Options) (name path ext : String) (stats : Stats)
    (e : String) (h : (fileItem options name path ext stats).get "extension" = .str e) :
    e = ext := by
  rw [fileItem_get] at h
  by_cases hm : "extension" ∈ attributesOf options
  · simp only [hm, if_true] at h; exact absurd h (Stats.get_ne_str _ _ _)
  · simp only [hm, if_false, String.reduceEq, false_and, if_true, Val.str.injEq] at h
    exact h.symm

theorem fileItem_path (options : Option Options) (name path ext : String) (stats : Stats)
    (q : String) (h : (fileItem options name path ext stats).get "path" = .str q) :
    q = path := by
  rw [fileItem_get, baseItem_get] at h
  by_cases hm : "path" ∈ attributesOf options
  · simp only [hm, if_true] at h; exact absurd h (Stats.get_ne_str _ _ _)
  · simp only [hm, if_false, String.reduceEq, false_and, if_true, Val.str.injEq] at h
    exact h.symm

theorem directoryItem_path (options : Option Options) (name path : String) (stats : Stats)
    (children : List Node) (q : String)
    (h : (directoryItem options name path stats children).get "path" = .str q) :
    q = path := by
  rw [directoryItem_get, baseItem_get] at h
  by_cases hm : "path" ∈ attributesOf options
  · simp only [hm, if_true, String.reduceEq, if_false] at h
    exact absurd h (Stats.get_ne_str _ _ _)
  · simp only [hm, if_false, String.reduceEq, if_true, Val.str.injEq] at h
    exact h.symm

/-- The `path` of a returned item, when it is a string, is the path the call worked on. -/
theorem path_of_scanned (w : World) (lib : PathLib) (options : Option Options)
    (onEachFile onEachDirectory : Bool) (fuel : Nat) (path : String) (n : Node) (q : String)
    (h : (directoryTree w lib options onEachFile onEachDirectory fuel path).out = .node n)
    (hq : n.get "path" = .str q) : q = effectivePath options path := by
  obtain ⟨fuel', stats, _, _, _, hcase⟩ :=
    directoryTree_node_inv w lib options onEachFile onEachDirectory fuel path n h
  rcases hcase with ⟨_, _, hn⟩ | ⟨_, dirData, _, _, hn⟩
  · exact fileItem_path _ _ _ _ _ _ (hn ▸ hq)
  · exact directoryItem_path _ _ _ _ _ _ (hn ▸ hq)

/-- C2: with an extension rule, every item of type file in a returned tree is the item returned
for an entry that is a regular file and whose lowercase extension satisfies the rule, and its
`extension` and `path`, when they are strings, are that extension and the path of that entry; a
regular file whose lowercase extension does not satisfy the rule gives `null`, and no item of
the tree has its path. -/
theorem C2_extension_rule (w : World) (lib : PathLib) (o : Options) (rule : Pattern)
    (onEachFile onEachDirectory : Bool) (fuel : Nat) (path : String) (root : Node)
    (hrule : o.extensions = some rule)
    (h : (directoryTree w lib (some o) onEachFile onEachDirectory fuel path).out = .node root) :
    (∀ m : Node, m.Sub root → m.get "type" = .str "file" →
      ∃ (fuel' : Nat) (p : String) (stats : Stats),
        (directoryTree w lib (some o) onEachFile onEachDirectory fuel' p).out = .node m ∧
        w.statSync (effectivePath (some o) p) = some stats ∧ stats.kind = .file ∧
        rule (lib.toLowerCase (lib.extname (effectivePath (some o) p))) = true ∧
        (∀ e, m.get "extension" = .str e →
          e = lib.toLowerCase (lib.extname (effectivePath (some o) p))) ∧
        (∀ q, m.get "path" = .str q → q = effectivePath (some o) p)) ∧
    (∀ (q : String) (stats : Stats), w.statSync q = some stats → stats.kind = .file →
      rule (lib.toLowerCase (lib.extname q)) = false →
      (∀ (fuel' : Nat) (p : String), effectivePath (some o) p = q →
        directoryTree w lib (some o) onEachFile onEachDirectory (fuel' + 1) p = ⟨.absent, []⟩) ∧
      (∀ m : Node, m.Sub root → m.get "path" ≠ .str q)) := by
  have hrej : ∀ e, extensionRejected (some o) e = !rule e := by
    intro e; simp [extensionRejected, hrule]
  have habs : ∀ (q : String) (stats : Stats), w.statSync q = some stats → stats.kind = .file →
      rule (lib.toLowerCase (lib.extname q)) = false →
      ∀ (fuel' : Nat) (p : String), effectivePath (some o) p = q →
        directoryTree w lib (some o) onEachFile onEachDirectory (fuel' + 1) p = ⟨.absent, []⟩ := by
    intro q stats hs hk hr fuel' p hp
    subst hp
    cases hx : isExcluded (some o) (effectivePath (some o) p) with
    | true => exact directoryTree_excluded w lib _ _ _ fuel' p stats hs hx
    | false =>
      rw [directoryTree_file w lib _ _ _ fuel' p stats hs hx hk, hrej, hr]
      rfl
  refine ⟨?_, ?_⟩
  · intro m hm htype
    obtain ⟨fuel1, p, h1⟩ :=
      scanned_of_sub w lib (some o) onEachFile onEachDirectory fuel path root m h hm
    obtain ⟨fuel', stats, _, hs, _, hcase⟩ :=
      directoryTree_node_inv w lib (some o) onEachFile onEachDirectory _ p m h1
    rcases hcase with ⟨hk, hr, hn⟩ | ⟨_, dirData, _, _, hn⟩
    · refine ⟨fuel1, p, stats, h1, hs, hk, ?_, ?_, ?_⟩
      · rw [hrej] at hr; simpa using hr
      · intro e he; exact fileItem_extension _ _ _ _ _ _ (hn ▸ he)
      · intro q hq; exact fileItem_path _ _ _ _ _ _ (hn ▸ hq)
    · rw [hn, directoryItem_get] at htype
      simp at htype
  · intro q stats hs hk hr
    refine ⟨habs q stats hs hk hr, ?_⟩
    intro m hm hq
    obtain ⟨fuel1, p, h1⟩ :=
      scanned_of_sub w lib (some o) onEachFile onEachDirectory fuel path root m h hm
    have hp := path_of_scanned w lib (some o) onEachFile onEachDirectory fuel1 p m q h1 hq
    obtain ⟨fuel', _, hf, _⟩ :=
      directoryTree_node_inv w lib (some o) onEachFile onEachDirectory _ p m h1
    subst hf
    rw [habs q stats hs hk hr fuel' p hp.symm] at h1
    cases h1

/-- C2, on the scenario with a rule accepting `.tc` only: `b.tc` is in the tree of `/r` and
`a.txt`, whose extension the rule rejects, is not. -/
theorem C2_extension_rule_witness :
    onlyTc.extensions = some (fun ext => ext == ".tc") ∧
    (directoryTree exampleWorld plainLib (some onlyTc) true true 3 "/r").out = .node itemRTc ∧
    ((∀ m : Node, m.Sub itemRTc → m.get "type" = .str "file" →
      ∃ (fuel' : Nat) (p : String) (stats : Stats),
        (directoryTree exampleWorld plainLib (some onlyTc) true true fuel' p).out = .node m ∧
        exampleWorld.statSync (effectivePath (some onlyTc) p) = some stats ∧
        stats.kind = .file ∧
        (plainLib.toLowerCase (plainLib.extname (effectivePath (some onlyTc) p)) == ".tc")
          = true ∧
        (∀ e, m.get "extension" = .str e →
          e = plainLib.toLowerCase (plainLib.extname (effectivePath (some onlyTc) p))) ∧
        (∀ q, m.get "path" = .str q → q = effectivePath (some onlyTc) p)) ∧
    (∀ (q : String) (stats : Stats), exampleWorld.statSync q = some stats → stats.kind = .file →
      (plainLib.toLowerCase (plainLib.extname q) == ".tc") = false →
      (∀ (fuel' : Nat) (p : String), effectivePath (some onlyTc) p = q →
        directoryTree exampleWorld plainLib (some onlyTc) true true (fuel' + 1) p
          = ⟨.absent, []⟩) ∧
      (∀ m : Node, m.Sub itemRTc → m.get "path" ≠ .str q))) :=
  ⟨rfl, rfl,
    C2_extension_rule exampleWorld plainLib onlyTc (fun ext => ext == ".tc") true true 3 "/r"
      itemRTc rfl rfl⟩

/-! ## The exclusion rule -/

/-- Two `options` objects that normalise, exclude, reject extensions and copy attributes alike
give the same scans. -/
theorem directoryTree_congr (w : World) (lib : PathLib) (o1 o2 : Option Options)
    (onEachFile onEachDirectory : Bool)
    (hp : ∀ p, effectivePath o1 p = effectivePath o2 p)
    (hx : ∀ p, isExcluded o1 p = isExcluded o2 p)
    (hr : ∀ e, extensionRejected o1 e = extensionRejected o2 e)
    (ha : ∀ stats item, copyAttributes o1 stats item = copyAttributes o2 stats item)
    (fuel : Nat) (path : String) :
    directoryTree w lib o1 onEachFile onEachDirectory fuel path =
      directoryTree w lib o2 onEachFile onEachDirectory fuel path := by
  induction fuel generalizing path with
  | zero => rfl
  | succ fuel ih =>
    have hf : ∀ name p ext stats, fileItem o1 name p ext stats = fileItem o2 name p ext stats := by
      intro name p ext stats; simp only [fileItem, ha]
    have hd : ∀ name p stats children,
        directoryItem o1 name p stats children = directoryItem o2 name p stats children := by
      intro name p stats children; simp only [directoryItem, ha]
    simp only [directoryTree, directoryTreeBody, hp, hx, hr, hf, hd, ih]

/-- The array `excludes` follows `isRegExp`: the one-element array for a regular expression,
the array itself otherwise. -/
theorem excludesOf_isRegExp (exclude : Exclude) :
    (isRegExp exclude = true → ∃ pattern, exclude = .single pattern ∧
      excludesOf exclude = [pattern]) ∧
    (isRegExp exclude = false → ∃ patterns, exclude = .many patterns ∧
      excludesOf exclude = patterns) := by
  cases exclude with
  | single pattern => exact ⟨fun _ => ⟨pattern, rfl, rfl⟩, fun h => Bool.noConfusion h⟩
  | many patterns => exact ⟨fun h => Bool.noConfusion h, fun _ => ⟨patterns, rfl, rfl⟩⟩

theorem isExcluded_eq_false_iff (o : Options) (exclude : Exclude) (hex : o.exclude = some exclude)
    (q : String) :
    isExcluded (some o) q = false ↔ ∀ pattern ∈ excludesOf exclude, pattern q = false := by
  simp [isExcluded, hex]

/-- C3: with an exclusion rule, no item of a returned tree has a path that matches one of the
patterns, every item of the tree is the item returned for an entry whose path matches none of
them, and so is every item above it in the tree; a call on a path that matches a pattern returns
`null` at once, without scanning anything beneath it. A single pattern gives the same scans as
the array holding that one pattern. -/
theorem C3_exclusion (w : World) (lib : PathLib) (o : Options) (exclude : Exclude)
    (onEachFile onEachDirectory : Bool) (fuel : Nat) (path : String) (root : Node)
    (hex : o.exclude = some exclude)
    (h : (directoryTree w lib (some o) onEachFile onEachDirectory fuel path).out = .node root) :
    (∀ (m : Node) (q : String), m.Sub root → m.get "path" = .str q →
      ∀ pattern ∈ excludesOf exclude, pattern q = false) ∧
    (∀ m : Node, m.Sub root → ∃ (fuel' : Nat) (p : String),
      (directoryTree w lib (some o) onEachFile onEachDirectory fuel' p).out = .node m ∧
      ∀ pattern ∈ excludesOf exclude, pattern (effectivePath (some o) p) = false) ∧
    (∀ (a m : Node) (q : String), a.Sub root → m.Sub a → a.get "path" = .str q →
      ∀ pattern ∈ excludesOf exclude, pattern q = false) ∧
    (∀ (fuel' : Nat) (p : String),
      (∃ pattern ∈ excludesOf exclude, pattern (effectivePath (some o) p) = true) →
      directoryTree w lib (some o) onEachFile onEachDirectory (fuel' + 1) p = ⟨.absent, []⟩) ∧
    (∀ (pattern : Pattern) (fuel' : Nat) (p : String),
      directoryTree w lib (some { o with exclude := some (.single pattern) })
          onEachFile onEachDirectory fuel' p =
        directoryTree w lib (some { o with exclude := some (.many [pattern]) })
          onEachFile onEachDirectory fuel' p) := by
  have prov : ∀ m : Node, m.Sub root → ∃ (fuel' : Nat) (p : String),
      (directoryTree w lib (some o) onEachFile onEachDirectory fuel' p).out = .node m ∧
      ∀ pattern ∈ excludesOf exclude, pattern (effectivePath (some o) p) = false := by
    intro m hm
    obtain ⟨fuel1, p, h1⟩ :=
      scanned_of_sub w lib (some o) onEachFile onEachDirectory fuel path root m h hm
    obtain ⟨_, _, _, _, hx, _⟩ :=
      directoryTree_node_inv w lib (some o) onEachFile onEachDirectory _ p m h1
    exact ⟨fuel1, p, h1, (isExcluded_eq_false_iff o exclude hex _).1 hx⟩
  have fieldwise : ∀ (m : Node) (q : String), m.Sub root → m.get "path" = .str q →
      ∀ pattern ∈ excludesOf exclude, pattern q = false := by
    intro m q hm hq
    obtain ⟨fuel1, p, h1, hp⟩ := prov m hm
    rw [path_of_scanned w lib (some o) onEachFile onEachDirectory fuel1 p m q h1 hq]
    exact hp
  refine ⟨fieldwise, prov, fun a _ q ha _ hq => fieldwise a q ha hq, ?_, ?_⟩
  · rintro fuel' p ⟨pattern, hmem, hmatch⟩
    cases hs : w.statSync (effectivePath (some o) p) with
    | none => exact directoryTree_stat_fails w lib _ _ _ fuel' p hs
    | some stats =>
      refine directoryTree_excluded w lib _ _ _ fuel' p stats hs ?_
      cases hx : isExcluded (some o) (effectivePath (some o) p) with
      | true => rfl
      | false =>
        have := (isExcluded_eq_false_iff o exclude hex _).1 hx pattern hmem
        rw [this] at hmatch
        cases hmatch
  · intro pattern fuel' p
    exact directoryTree_congr w lib (some { o with exclude := some (.single pattern) })
      (some { o with exclude := some (.many [pattern]) }) onEachFile onEachDirectory
      (fun _ => rfl) (fun _ => rfl) (fun _ => rfl) (fun _ _ => rfl) fuel' p

/-- C3, on the scenario with one pattern matching `/r/sub`: the tree of `/r` keeps `a.txt` and
`b.tc` and has size 8. -/
theorem C3_exclusion_witness :
    withoutSub.exclude = some (.single fun path => path == "/r/sub") ∧
    (directoryTree exampleWorld plainLib (some withoutSub) true true 3 "/r").out
      = .node itemRNoSub ∧
    itemRNoSub.get "size" = .num 8 ∧
    (∀ (m : Node) (q : String), m.Sub itemRNoSub → m.get "path" = .str q →
      ∀ pattern ∈ excludesOf (.single fun path => path == "/r/sub"), pattern q = false) :=
  ⟨rfl, rfl, rfl,
    (C3_exclusion exampleWorld plainLib withoutSub (.single fun path => path == "/r/sub")
      true true 3 "/r" itemRNoSub rfl rfl).1⟩

/-! ## The children of a directory -/

theorem returns_ne_outOfFuel (out : Outcome) (h : out.returns = true) : out ≠ .outOfFuel := by
  intro e; rw [e] at h; cases h

theorem filterTruthy_map (f : String → Option Node) (xs : List String) :
    filterTruthy (xs.map f) = xs.filterMap f := by
  simp [filterTruthy, List.filterMap_map]

/-- C4: every item `D` of type directory in a returned tree is the item returned by a call on
a directory whose listing `dirData` succeeded; every entry of the listing was scanned by the
recursive call on the joined path, with the same options and callbacks, and returned an item or
`null` (the same whatever larger fuel is given); `D.children` is the list of the items
returned, in the order of the listing, the entries that gave `null` being left out. -/
theorem C4_children_in_listing_order (w : World) (lib : PathLib) (options : Option Options)
    (onEachFile onEachDirectory : Bool) (fuel : Nat) (path : String) (root D : Node)
    (h : (directoryTree w lib options onEachFile onEachDirectory fuel path).out = .node root)
    (hD : D.Sub root) (hdir : D.get "type" = .str "directory") :
    ∃ (fuel' : Nat) (p : String) (dirData : List String),
      (directoryTree w lib options onEachFile onEachDirectory (fuel' + 1) p).out = .node D ∧
      (∀ q, D.get "path" = .str q → q = effectivePath options p) ∧
      w.readdirSync (effectivePath options p) = .ok dirData ∧
      (∀ e ∈ dirData,
        (directoryTree w lib options onEachFile onEachDirectory fuel'
          (lib.join (effectivePath options p) e)).out.returns = true ∧
        ∀ k, fuel' ≤ k →
          directoryTree w lib options onEachFile onEachDirectory k
              (lib.join (effectivePath options p) e) =
            directoryTree w lib options onEachFile onEachDirectory fuel'
              (lib.join (effectivePath options p) e)) ∧
      D.get "children" = .arr (dirData.filterMap fun e =>
        (directoryTree w lib options onEachFile onEachDirectory fuel'
          (lib.join (effectivePath options p) e)).out.result?) := by
  obtain ⟨fuel1, p, h1⟩ :=
    scanned_of_sub w lib options onEachFile onEachDirectory fuel path root D h hD
  obtain ⟨fuel', stats, hf, _, _, hcase⟩ :=
    directoryTree_node_inv w lib options onEachFile onEachDirectory _ p D h1
  subst hf
  rcases hcase with ⟨_, _, hn⟩ | ⟨_, dirData, hl, hret, hn⟩
  · exact absurd (hn ▸ hdir) (fileItem_type_ne _ _ _ _ _)
  · refine ⟨fuel', p, dirData, h1, ?_, hl, ?_, ?_⟩
    · intro q hq
      exact path_of_scanned w lib options onEachFile onEachDirectory _ p D q h1 hq
    · intro e he
      exact ⟨hret e he, fun k hk => directoryTree_mono w lib options onEachFile onEachDirectory
        fuel' k _ (returns_ne_outOfFuel _ (hret e he)) hk⟩
    · rw [hn, directoryItem_get, filterTruthy_map]
      simp only [String.reduceEq, if_false, if_true]

/-- C4, on the scenario without filters: the children of `/r` are the items of `a.txt`, `b.tc`
and `sub`, in the order of the listing. -/
theorem C4_children_in_listing_order_witness :
    (directoryTree exampleWorld plainLib none true true 3 "/r").out = .node itemR ∧
    itemR.Sub itemR ∧ itemR.get "type" = .str "directory" ∧
    itemR.get "children" = .arr [itemA, itemB, itemSub] ∧
    ∃ (fuel' : Nat) (p : String) (dirData : List String),
      (directoryTree exampleWorld plainLib none true true (fuel' + 1) p).out = .node itemR ∧
      (∀ q, itemR.get "path" = .str q → q = effectivePath none p) ∧
      exampleWorld.readdirSync (effectivePath none p) = .ok dirData ∧
      (∀ e ∈ dirData,
        (directoryTree exampleWorld plainLib none true true fuel'
          (plainLib.join (effectivePath none p) e)).out.returns = true ∧
        ∀ k, fuel' ≤ k →
          directoryTree exampleWorld plainLib none true true k
              (plainLib.join (effectivePath none p) e) =
            directoryTree exampleWorld plainLib none true true fuel'
              (plainLib.join (effectivePath none p) e)) ∧
      itemR.get "children" = .arr (dirData.filterMap fun e =>
        (directoryTree exampleWorld plainLib none true true fuel'
          (plainLib.join (effectivePath none p) e)).out.result?) :=
  ⟨rfl, .self _, rfl, rfl,
    C4_children_in_listing_order exampleWorld plainLib none true true 3 "/r" itemR itemR rfl
      (.self _) rfl⟩

/-! ## When a call returns `null` -/

theorem safeReadDirSync_null_iff (w : World) (path : String) :
    safeReadDirSync w path = .null ↔
      ∃ ex, w.readdirSync path = .error ex ∧ (ex.code = "EACCES" ∨ ex.code = "EPERM") := by
  unfold safeReadDirSync
  cases hl : w.readdirSync path with
  | ok dirData => simp
  | error ex =>
    by_cases hc : ex.code = "EACCES" ∨ ex.code = "EPERM"
    · simp [hc]
    · simp only [hc, if_false, Except.error.injEq, exists_eq_left', iff_false]
      intro h; cases h

theorem isExcluded_eq_true_iff (options : Option Options) (q : String) :
    isExcluded options q = true ↔
      ∃ o exclude, options = some o ∧ o.exclude = some exclude ∧
        ∃ pattern ∈ excludesOf exclude, pattern q = true := by
  cases options with
  | none => simp [isExcluded]
  | some o =>
    cases hex : o.exclude with
    | none => simp [isExcluded, hex]
    | some exclude => simp [isExcluded, hex]

theorem extensionRejected_eq_true_iff (options : Option Options) (ext : String) :
    extensionRejected options ext = true ↔
      ∃ o rule, options = some o ∧ o.extensions = some rule ∧ rule ext = false := by
  cases options with
  | none => simp [extensionRejected]
  | some o =>
    cases hex : o.extensions with
    | none => simp [extensionRejected, hex]
    | some rule => simp [extensionRejected, hex]

/-- C5: a call of `directoryTree` (with fuel for its own body) returns `null` exactly when the
metadata fetch for its path fails, or the path matches a configured exclusion pattern, or the
entry is a regular file and a configured extension rule is not matched by its lowercase
extension, or the entry is a directory whose listing fails with the code `EACCES` or `EPERM`,
or the entry is neither a regular file nor a directory; in every other case a call that neither
throws nor runs out of fuel returns an item. -/
theorem C5_absent_iff (w : World) (lib : PathLib) (options : Option Options)
    (onEachFile onEachDirectory : Bool) (fuel : Nat) (path : String) :
    ((directoryTree w lib options onEachFile onEachDirectory (fuel + 1) path).out = .absent ↔
      (w.statSync (effectivePath options path) = none ∨
       (∃ o exclude, options = some o ∧ o.exclude = some exclude ∧
          ∃ pattern ∈ excludesOf exclude, pattern (effectivePath options path) = true) ∨
       (∃ stats o rule, w.statSync (effectivePath options path) = some stats ∧
          stats.kind = .file ∧ options = some o ∧ o.extensions = some rule ∧
          rule (lib.toLowerCase (lib.extname (effectivePath options path))) = false) ∨
       (∃ stats ex, w.statSync (effectivePath options path) = some stats ∧
          stats.kind = .directory ∧ w.readdirSync (effectivePath options path) = .error ex ∧
          (ex.code = "EACCES" ∨ ex.code = "EPERM")) ∨
       (∃ stats, w.statSync (effectivePath options path) = some stats ∧
          stats.kind = .other))) ∧
    ((directoryTree w lib options onEachFile onEachDirectory (fuel + 1) path).out ≠ .absent →
      (∀ ex, (directoryTree w lib options onEachFile onEachDirectory (fuel + 1) path).out
        ≠ .throw ex) →
      (directoryTree w lib options onEachFile onEachDirectory (fuel + 1) path).out
        ≠ .outOfFuel →
      ∃ item, (directoryTree w lib options onEachFile onEachDirectory (fuel + 1) path).out
        = .node item) := by
  refine ⟨?_, ?_⟩
  · cases hs : w.statSync (effectivePath options path) with
    | none =>
      rw [directoryTree_stat_fails w lib options _ _ fuel path hs]
      simp
    | some stats =>
      cases hx : isExcluded options (effectivePath options path) with
      | true =>
        rw [directoryTree_excluded w lib options _ _ fuel path stats hs hx]
        have := (isExcluded_eq_true_iff options _).1 hx
        simp only [true_iff]
        exact Or.inr (Or.inl this)
      | false =>
        have hnx : ¬ ∃ o exclude, options = some o ∧ o.exclude = some exclude ∧
            ∃ pattern ∈ excludesOf exclude, pattern (effectivePath options path) = true := by
          rw [← isExcluded_eq_true_iff, hx]; simp
        cases hk : stats.kind with
        | other =>
          rw [directoryTree_other w lib options _ _ fuel path stats hs hk]
          simp only [true_iff]
          exact Or.inr (Or.inr (Or.inr (Or.inr ⟨stats, rfl, hk⟩)))
        | file =>
          rw [directoryTree_file w lib options _ _ fuel path stats hs hx hk]
          cases hr : extensionRejected options
              (lib.toLowerCase (lib.extname (effectivePath options path))) with
          | true =>
            obtain ⟨o, rule, ho, hrule, hrej⟩ := (extensionRejected_eq_true_iff options _).1 hr
            simp only [if_true, true_iff]
            exact Or.inr (Or.inr (Or.inl ⟨stats, o, rule, rfl, hk, ho, hrule, hrej⟩))
          | false =>
            simp only [Bool.false_eq_true, if_false]
            refine ⟨fun h => Outcome.noConfusion h, fun hdisj => False.elim ?_⟩
            rcases hdisj with (h | h | ⟨st, o, rule, hst, _, ho, hrule, hrej⟩ | ⟨st, ex, hst, hk', _⟩ |
              ⟨st, hst, hk'⟩)
            · cases h
            · exact hnx h
            · have := (extensionRejected_eq_true_iff options _).2 ⟨o, rule, ho, hrule, hrej⟩
              rw [hr] at this; cases this
            · cases hst; rw [hk] at hk'; cases hk'
            · cases hst; rw [hk] at hk'; cases hk'
        | directory =>
          rw [directoryTree_directory w lib options _ _ fuel path stats hs hx hk]
          cases hl : safeReadDirSync w (effectivePath options path) with
          | null =>
            obtain ⟨ex, hex, hcode⟩ := (safeReadDirSync_null_iff w _).1 hl
            simp only [true_iff]
            exact Or.inr (Or.inr (Or.inr (Or.inl ⟨stats, ex, rfl, hk, hex, hcode⟩)))
          | throw ex0 =>
            refine ⟨fun h => Outcome.noConfusion h, fun hdisj => False.elim ?_⟩
            rcases hdisj with (h | h | ⟨st, o, rule, hst, hk', _⟩ | ⟨st, ex, hst, _, hex, hcode⟩ |
              ⟨st, hst, hk'⟩)
            · cases h
            · exact hnx h
            · cases hst; rw [hk] at hk'; cases hk'
            · have := (safeReadDirSync_null_iff w _).2 ⟨ex, hex, hcode⟩
              rw [hl] at this; cases this
            · cases hst; rw [hk] at hk'; cases hk'
          | entries dirData =>
            have hout : (match mapChildren
                (fun child => directoryTree w lib options onEachFile onEachDirectory fuel
                  (lib.join (effectivePath options path) child)) dirData with
              | (.throw ex, t) => Run.mk (.throw ex) t
              | (.outOfFuel, t) => Run.mk .outOfFuel t
              | (.results rs, t) =>
                Run.mk (.node (directoryItem options (lib.basename path)
                    (effectivePath options path) stats (filterTruthy rs)))
                  (t ++ if onEachDirectory then
                    [Event.mk .onEachDirectory
                      (directoryItem options (lib.basename path) (effectivePath options path)
                        stats (filterTruthy rs))
                      (effectivePath options path) stats]
                  else [])).out ≠ .absent := by
              rcases mapChildren
                (fun child => directoryTree w lib options onEachFile onEachDirectory fuel
                  (lib.join (effectivePath options path) child)) dirData with ⟨m, t⟩
              cases m <;> simp
            refine ⟨fun h => absurd h hout, fun hdisj => False.elim ?_⟩
            rcases hdisj with (h | h | ⟨st, o, rule, hst, hk', _⟩ | ⟨st, ex, hst, _, hex, hcode⟩ |
              ⟨st, hst, hk'⟩)
            · cases h
            · exact hnx h
            · cases hst; rw [hk] at hk'; cases hk'
            · have := (safeReadDirSync_null_iff w _).2 ⟨ex, hex, hcode⟩
              rw [hl] at this; cases this
            · cases hst; rw [hk] at hk'; cases hk'
  · intro h1 h2 h3
    cases ho : (directoryTree w lib options onEachFile onEachDirectory (fuel + 1) path).out with
    | node item => exact ⟨item, rfl⟩
    | absent => exact absurd ho h1
    | throw ex => exact absurd ho (h2 ex)
    | outOfFuel => exact absurd ho h3

/-- C5, on the scenario with a rule accepting `.tc` only: the call on `/r/a.txt` returns
`null`, the entry being a regular file whose lowercase extension `.txt` the rule rejects. -/
theorem C5_absent_iff_witness :
    (directoryTree exampleWorld plainLib (some onlyTc) true true 1 "/r/a.txt").out = .absent ∧
    plainLib.toLowerCase (plainLib.extname (effectivePath (some onlyTc) "/r/a.txt")) = ".txt" ∧
    (exampleWorld.statSync (effectivePath (some onlyTc) "/r/a.txt") = none ∨
       (∃ o exclude, some onlyTc = some o ∧ o.exclude = some exclude ∧
          ∃ pattern ∈ excludesOf exclude,
            pattern (effectivePath (some onlyTc) "/r/a.txt") = true) ∨
       (∃ stats o rule,
          exampleWorld.statSync (effectivePath (some onlyTc) "/r/a.txt") = some stats ∧
          stats.kind = .file ∧ some onlyTc = some o ∧ o.extensions = some rule ∧
          rule (plainLib.toLowerCase
            (plainLib.extname (effectivePath (some onlyTc) "/r/a.txt"))) = false) ∨
       (∃ stats ex,
          exampleWorld.statSync (effectivePath (some onlyTc) "/r/a.txt") = some stats ∧
          stats.kind = .directory ∧
          exampleWorld.readdirSync (effectivePath (some onlyTc) "/r/a.txt") = .error ex ∧
          (ex.code = "EACCES" ∨ ex.code = "EPERM")) ∨
       (∃ stats, exampleWorld.statSync (effectivePath (some onlyTc) "/r/a.txt") = some stats ∧
          stats.kind = .other)) :=
  ⟨rfl, rfl, (C5_absent_iff exampleWorld plainLib (some onlyTc) true true 0 "/r/a.txt").1.1 rfl⟩

/-! ## A directory that may not be listed -/

/-- A directory whose listing fails with `EACCES` or `EPERM` gives `null`, without a callback. -/
theorem directoryTree_permission_denied (w : World) (lib : PathLib) (options : Option Options)
    (onEachFile onEachDirectory : Bool) (fuel : Nat) (path : String) (stats : Stats)
    (ex : JsError) (hs : w.statSync (effectivePath options path) = some stats)
    (hk : stats.kind = .directory)
    (hl : w.readdirSync (effectivePath options path) = .error ex)
    (hperm : ex.code = "EACCES" ∨ ex.code = "EPERM") :
    directoryTree w lib options onEachFile onEachDirectory (fuel + 1) path = ⟨.absent, []⟩ := by
  cases hx : isExcluded options (effectivePath options path) with
  | true => exact directoryTree_excluded w lib options _ _ fuel path stats hs hx
  | false =>
    rw [directoryTree_directory w lib options _ _ fuel path stats hs hx hk,
      (safeReadDirSync_null_iff w _).2 ⟨ex, hl, hperm⟩]

/-- Taking out of the listing of `dir` an entry whose scan gives `null` without a callback
changes no scan that ends. -/
theorem withListing_invariant (w : World) (lib : PathLib) (options : Option Options)
    (onEachFile onEachDirectory : Bool) (dir : String) (xs ys : List String) (d : String)
    (hl : w.readdirSync dir = .ok (xs ++ d :: ys))
    (hd : ∀ fuel, directoryTree w lib options onEachFile onEachDirectory (fuel + 1)
      (lib.join dir d) = ⟨.absent, []⟩)
    (fuel : Nat) (path : String)
    (hne : (directoryTree w lib options onEachFile onEachDirectory fuel path).out
      ≠ .outOfFuel) :
    directoryTree (w.withListing dir (xs ++ ys)) lib options onEachFile onEachDirectory fuel path
      = directoryTree w lib options onEachFile onEachDirectory fuel path := by
  induction fuel generalizing path with
  | zero => rfl
  | succ fuel ih =>
    rw [directoryTree] at hne ⊢
    rw [directoryTree]
    by_cases hq : effectivePath options path = dir
    · -- the directory whose listing was changed
      by_cases hdir : ∃ stats, w.statSync (effectivePath options path) = some stats ∧
          isExcluded options (effectivePath options path) = false ∧ stats.kind = .directory
      · obtain ⟨stats, hs, hx, hk⟩ := hdir
        rw [directoryTreeBody_directory w lib options _ _ _ path stats hs hx hk] at hne ⊢
        rw [directoryTreeBody_directory (w.withListing dir (xs ++ ys)) lib options _ _ _ path
          stats hs hx hk]
        have e1 : safeReadDirSync w (effectivePath options path) = .entries (xs ++ d :: ys) := by
          simp [safeReadDirSync, hq, hl]
        have e2 : safeReadDirSync (w.withListing dir (xs ++ ys)) (effectivePath options path)
            = .entries (xs ++ ys) := by
          simp [safeReadDirSync, World.withListing, hq]
        rw [e1] at hne ⊢
        rw [e2]
        simp only at hne ⊢
        apply finishDirectory_sameItems
        apply mapChildren_remove
        · intro hm
          apply hne
          rcases hr : mapChildren (fun child => directoryTree w lib options onEachFile
            onEachDirectory fuel (lib.join (effectivePath options path) child))
            (xs ++ d :: ys) with ⟨m, t⟩
          rw [hr] at hm
          simp only at hm
          subst hm
          rfl
        · intro c hc
          exact ih _ hc
        · intro hc
          cases fuel with
          | zero => exact absurd rfl hc
          | succ k => rw [hq]; exact hd k
      · refine directoryTreeBody_not_directory w _ lib options _ _ _ _ path rfl ?_
        intro stats hs hx hk
        exact hdir ⟨stats, hs, hx, hk⟩
    · rw [directoryTreeBody_world w (w.withListing dir (xs ++ ys)) lib options _ _ _ path rfl
        (by simp [World.withListing, hq])]
      exact directoryTreeBody_congr w lib options _ _ _ _ path hne (fun c hc => ih c hc)

/-- C6: let the directory `P` be scanned successfully, and let the entry `d` of its listing be a
directory whose own listing fails with the code `EACCES` or `EPERM`. Then the scan of `d`
returns `null`, with no exception and no callback; the scan of `P` is the very scan of `P` on the
filesystem in which `d` is taken out of the listing of `P` (the same item, the same callback
invocations); the children of the item of `P` are the items returned for the other entries, in
order, and its size is the sum of their sizes. -/
theorem C6_permission_denied_child (w : World) (lib : PathLib) (options : Option Options)
    (onEachFile onEachDirectory : Bool) (fuel : Nat) (P : String) (xs ys : List String)
    (d : String) (statsP statsD : Stats) (ex : JsError) (root : Node)
    (hP : (directoryTree w lib options onEachFile onEachDirectory fuel P).out = .node root)
    (hPs : w.statSync (effectivePath options P) = some statsP)
    (hPk : statsP.kind = .directory)
    (hPl : w.readdirSync (effectivePath options P) = .ok (xs ++ d :: ys))
    (hDs : w.statSync (effectivePath options (lib.join (effectivePath options P) d))
      = some statsD)
    (hDk : statsD.kind = .directory)
    (hDl : w.readdirSync (effectivePath options (lib.join (effectivePath options P) d))
      = .error ex)
    (hperm : ex.code = "EACCES" ∨ ex.code = "EPERM") :
    (∀ fuel', directoryTree w lib options onEachFile onEachDirectory (fuel' + 1)
      (lib.join (effectivePath options P) d) = ⟨.absent, []⟩) ∧
    directoryTree (w.withListing (effectivePath options P) (xs ++ ys)) lib options
        onEachFile onEachDirectory fuel P =
      directoryTree w lib options onEachFile onEachDirectory fuel P ∧
    ∃ (fuel' : Nat) (sizes : List Nat), fuel = fuel' + 1 ∧
      root.get "children" = .arr ((xs ++ ys).filterMap fun e =>
        (directoryTree w lib options onEachFile onEachDirectory fuel'
          (lib.join (effectivePath options P) e)).out.result?) ∧
      ((xs ++ ys).filterMap fun e =>
        (directoryTree w lib options onEachFile onEachDirectory fuel'
          (lib.join (effectivePath options P) e)).out.result?).map (fun c => c.get "size")
        = sizes.map Val.num ∧
      root.get "size" = .num sizes.sum := by
  have hd : ∀ fuel', directoryTree w lib options onEachFile onEachDirectory (fuel' + 1)
      (lib.join (effectivePath options P) d) = ⟨.absent, []⟩ :=
    fun fuel' => directoryTree_permission_denied w lib options _ _ fuel' _ statsD ex hDs hDk hDl
      hperm
  have hinv := withListing_invariant w lib options onEachFile onEachDirectory
    (effectivePath options P) xs ys d hPl hd fuel P (by rw [hP]; intro e; cases e)
  refine ⟨hd, hinv, ?_⟩
  -- the item of `P`, read off the scan on the changed filesystem
  rw [← hinv] at hP
  obtain ⟨fuel', stats, hf, hs, _, hcase⟩ :=
    directoryTree_node_inv (w.withListing (effectivePath options P) (xs ++ ys)) lib options
      onEachFile onEachDirectory fuel P root hP
  subst hf
  rcases hcase with ⟨hk, _, _⟩ | ⟨_, dirData, hl, hret, hn⟩
  · have : stats = statsP := by
      have : some stats = some statsP := hs.symm.trans hPs
      exact Option.some.inj this
    rw [this, hPk] at hk
    cases hk
  · have hdd : dirData = xs ++ ys := by
      simp [World.withListing] at hl
      exact hl.symm
    subst hdd
    -- the scans of the children are the scans on `w`
    have hchild : ∀ e ∈ xs ++ ys,
        directoryTree (w.withListing (effectivePath options P) (xs ++ ys)) lib options
          onEachFile onEachDirectory fuel' (lib.join (effectivePath options P) e) =
        directoryTree w lib options onEachFile onEachDirectory fuel'
          (lib.join (effectivePath options P) e) := by
      intro e he
      have hne : (directoryTree w lib options onEachFile onEachDirectory (fuel' + 1) P).out
          ≠ .outOfFuel := by
        rw [← hinv, hP]; intro e; cases e
      have hmem : e ∈ xs ++ d :: ys := by
        rcases List.mem_append.1 he with h | h
        · exact List.mem_append_left _ h
        · exact List.mem_append_right _ (List.mem_cons_of_mem _ h)
      have hw : (directoryTree w lib options onEachFile onEachDirectory (fuel' + 1) P).out
          = .node root := by rw [← hinv]; exact hP
      obtain ⟨f2, st2, hf2, hs2, _, hcase2⟩ :=
        directoryTree_node_inv w lib options onEachFile onEachDirectory _ P root hw
      cases hf2
      rcases hcase2 with ⟨hk2, _, _⟩ | ⟨_, dd2, hl2, hret2, _⟩
      · have : st2 = statsP := Option.some.inj (hs2.symm.trans hPs)
        rw [this, hPk] at hk2
        cases hk2
      · have : dd2 = xs ++ d :: ys := by
          rw [hPl] at hl2
          cases hl2
          rfl
        subst this
        exact withListing_invariant w lib options onEachFile onEachDirectory
          (effectivePath options P) xs ys d hPl hd fuel' _
          (returns_ne_outOfFuel _ (hret2 e hmem))
    have hlist : (xs ++ ys).map (fun c =>
          (directoryTree (w.withListing (effectivePath options P) (xs ++ ys)) lib options
            onEachFile onEachDirectory fuel' (lib.join (effectivePath options P) c)).out.result?)
        = (xs ++ ys).map (fun c =>
          (directoryTree w lib options onEachFile onEachDirectory fuel'
            (lib.join (effectivePath options P) c)).out.result?) :=
      List.map_congr_left (fun e he => by rw [hchild e he])
    rw [hlist, filterTruthy_map] at hn
    obtain ⟨sizes, hsz⟩ := sizes_of_items ((xs ++ ys).filterMap fun e =>
        (directoryTree w lib options onEachFile onEachDirectory fuel'
          (lib.join (effectivePath options P) e)).out.result?) (fun c hc => by
      rw [List.mem_filterMap] at hc
      obtain ⟨e, _, he⟩ := hc
      exact size_isNum w lib options onEachFile onEachDirectory _ _ c (node_of_result _ _ he))
    refine ⟨fuel', sizes, rfl, ?_, hsz, ?_⟩
    · rw [hn, directoryItem_get]
      simp only [String.reduceEq, if_false, if_true]
    · rw [hn, directoryItem_get]
      simp only [String.reduceEq, if_false, if_true]
      exact reduceSize_eq _ _ hsz

/-- C6, on `lockedWorld`: the directory `locked` is not among the children of `/r`, which are
the items of `a.txt` and `b.tc`, and the size of `/r` is 8. -/
theorem C6_permission_denied_child_witness :
    (directoryTree lockedWorld plainLib none true true 3 "/r").out = .node itemRNoSub ∧
    itemRNoSub.get "children" = .arr [itemA, itemB] ∧ itemRNoSub.get "size" = .num 8 ∧
    ((∀ fuel', directoryTree lockedWorld plainLib none true true (fuel' + 1)
      (plainLib.join (effectivePath none "/r") "locked") = ⟨.absent, []⟩) ∧
    directoryTree (lockedWorld.withListing (effectivePath none "/r") (["a.txt"] ++ ["b.tc"]))
        plainLib none true true 3 "/r" =
      directoryTree lockedWorld plainLib none true true 3 "/r" ∧
    ∃ (fuel' : Nat) (sizes : List Nat), 3 = fuel' + 1 ∧
      itemRNoSub.get "children" = .arr ((["a.txt"] ++ ["b.tc"]).filterMap fun e =>
        (directoryTree lockedWorld plainLib none true true fuel'
          (plainLib.join (effectivePath none "/r") e)).out.result?) ∧
      ((["a.txt"] ++ ["b.tc"]).filterMap fun e =>
        (directoryTree lockedWorld plainLib none true true fuel'
          (plainLib.join (effectivePath none "/r") e)).out.result?).map (fun c => c.get "size")
        = sizes.map Val.num ∧
      itemRNoSub.get "size" = .num sizes.sum) :=
  ⟨rfl, rfl, rfl,
    C6_permission_denied_child lockedWorld plainLib none true true 3 "/r" ["a.txt"] ["b.tc"]
      "locked" (dirStats "t0") (dirStats "t5") ⟨"EACCES"⟩ itemRNoSub rfl rfl rfl rfl rfl rfl rfl
      (Or.inl rfl)⟩

/-! ## Fatal listing errors -/

theorem mapChildren_throw (s : String → Run) (xs : List String) (ex : JsError) (t : List Event)
    (h : mapChildren s xs = (.throw ex, t)) :
    ∃ before e after, xs = before ++ e :: after ∧
      (∀ x ∈ before, (s x).out.returns = true) ∧ (s e).out = .throw ex := by
  induction xs generalizing t with
  | nil => simp [mapChildren] at h
  | cons c rest ih =>
    cases hc : (s c).out with
    | outOfFuel => rw [mapChildren_cons_outOfFuel s c rest hc] at h; cases h
    | throw ex' =>
      rw [mapChildren_cons_throw s c rest ex' hc] at h
      cases h
      exact ⟨[], c, rest, rfl, by simp, hc⟩
    | node item =>
      have hr : (s c).out.returns = true := by rw [hc]; rfl
      rw [mapChildren_cons_returns s c rest hr] at h
      rcases hm : mapChildren s rest with ⟨m, t'⟩
      rw [hm] at h
      cases m with
      | results rs => cases h
      | outOfFuel => cases h
      | throw ex' =>
        simp only [Mapped.push, Prod.mk.injEq, Mapped.throw.injEq] at h
        obtain ⟨before, e, after, hxs, hb, he⟩ := ih t' (by rw [hm, h.1])
        refine ⟨c :: before, e, after, by rw [hxs]; rfl, ?_, he⟩
        intro x hx
        rcases List.mem_cons.1 hx with rfl | hx
        · exact hr
        · exact hb x hx
    | absent =>
      have hr : (s c).out.returns = true := by rw [hc]; rfl
      rw [mapChildren_cons_returns s c rest hr] at h
      rcases hm : mapChildren s rest with ⟨m, t'⟩
      rw [hm] at h
      cases m with
      | results rs => cases h
      | outOfFuel => cases h
      | throw ex' =>
        simp only [Mapped.push, Prod.mk.injEq, Mapped.throw.injEq] at h
        obtain ⟨before, e, after, hxs, hb, he⟩ := ih t' (by rw [hm, h.1])
        refine ⟨c :: before, e, after, by rw [hxs]; rfl, ?_, he⟩
        intro x hx
        rcases List.mem_cons.1 hx with rfl | hx
        · exact hr
        · exact hb x hx

theorem mapChildren_of_throw (s : String → Run) (before after : List String) (e : String)
    (ex : JsError) (hb : ∀ x ∈ before, (s x).out.returns = true) (he : (s e).out = .throw ex) :
    (mapChildren s (before ++ e :: after)).1 = .throw ex := by
  induction before with
  | nil => rw [List.nil_append, mapChildren_cons_throw s e after ex he]
  | cons c rest ih =>
    rw [List.cons_append, mapChildren_cons_returns s c _ (hb c (List.mem_cons_self _ _))]
    have := ih (fun x hx => hb x (List.mem_cons_of_mem _ hx))
    rcases hm : mapChildren s (rest ++ e :: after) with ⟨m, t'⟩
    rw [hm] at this
    simp only at this
    subst this
    rfl

theorem finishDirectory_throw (options : Option Options) (onEachDirectory : Bool)
    (name path : String) (stats : Stats) (a : Mapped × List Event) (ex : JsError) :
    (finishDirectory options onEachDirectory name path stats a).out = .throw ex ↔
      a.1 = .throw ex := by
  obtain ⟨m, t⟩ := a
  cases m <;> simp [finishDirectory]

theorem Reached.trans {w : World} {lib : PathLib} {options : Option Options}
    {onEachFile onEachDirectory : Bool} {a b c : String}
    (hab : Reached w lib options onEachFile onEachDirectory a b)
    (hbc : Reached w lib options onEachFile onEachDirectory b c) :
    Reached w lib options onEachFile onEachDirectory a c := by
  induction hbc with
  | root => exact hab
  | child _ hs hx hk hl hc ih => exact .child ih hs hx hk hl hc

/-- Two runs of the same call that both end, end the same way. -/
theorem directoryTree_deterministic (w : World) (lib : PathLib) (options : Option Options)
    (onEachFile onEachDirectory : Bool) (fuel1 fuel2 : Nat) (path : String)
    (h1 : (directoryTree w lib options onEachFile onEachDirectory fuel1 path).out ≠ .outOfFuel)
    (h2 : (directoryTree w lib options onEachFile onEachDirectory fuel2 path).out ≠ .outOfFuel) :
    directoryTree w lib options onEachFile onEachDirectory fuel1 path =
      directoryTree w lib options onEachFile onEachDirectory fuel2 path := by
  rcases Nat.le_total fuel1 fuel2 with h | h
  · exact (directoryTree_mono w lib options _ _ fuel1 fuel2 path h1 h).symm
  · exact directoryTree_mono w lib options _ _ fuel2 fuel1 path h2 h

theorem exists_fuel_forall (w : World) (lib : PathLib) (options : Option Options)
    (onEachFile onEachDirectory : Bool) (paths : List String)
    (h : ∀ p ∈ paths, Completes w lib options onEachFile onEachDirectory p) :
    ∃ fuel, ∀ p ∈ paths, ∀ k, fuel ≤ k →
      (directoryTree w lib options onEachFile onEachDirectory k p).out.returns = true := by
  induction paths with
  | nil => exact ⟨0, fun p hp => by cases hp⟩
  | cons c rest ih =>
    obtain ⟨f1, h1⟩ := ih (fun p hp => h p (List.mem_cons_of_mem _ hp))
    obtain ⟨f2, h2⟩ := h c (List.mem_cons_self _ _)
    refine ⟨max f1 f2, ?_⟩
    intro p hp k hk
    rcases List.mem_cons.1 hp with rfl | hp
    · rw [directoryTree_mono w lib options _ _ f2 k p (returns_ne_outOfFuel _ h2)
        (le_trans (le_max_right _ _) hk)]
      exact h2
    · exact h1 p hp k (le_trans (le_max_left _ _) hk)

/-- A fatal listing error makes the call throw it. -/
theorem directoryTree_fatal (w : World) (lib : PathLib) (options : Option Options)
    (onEachFile onEachDirectory : Bool) (fuel : Nat) (path : String) (ex : JsError)
    (h : FatalListing w options path ex) :
    directoryTree w lib options onEachFile onEachDirectory (fuel + 1) path = ⟨.throw ex, []⟩ := by
  obtain ⟨stats, hs, hx, hk, hl, hcode⟩ := h
  rw [directoryTree_directory w lib options _ _ fuel path stats hs hx hk]
  have : safeReadDirSync w (effectivePath options path) = .throw ex := by
    simp [safeReadDirSync, hl, hcode]
  rw [this]

/-- A throw of a call the scan comes to make is a throw of the scan. -/
theorem throw_of_reached (w : World) (lib : PathLib) (options : Option Options)
    (onEachFile onEachDirectory : Bool) (root p : String) (ex : JsError)
    (hr : Reached w lib options onEachFile onEachDirectory root p)
    (hp : ∃ fuel, (directoryTree w lib options onEachFile onEachDirectory fuel p).out
      = .throw ex) :
    ∃ fuel, (directoryTree w lib options onEachFile onEachDirectory fuel root).out
      = .throw ex := by
  induction hr with
  | root => exact hp
  | @child q stats xs e ys _ hs hx hk hl hc ih =>
    apply ih
    obtain ⟨fe, hfe⟩ := hp
    obtain ⟨f1, h1⟩ := exists_fuel_forall w lib options onEachFile onEachDirectory
      (xs.map fun x => lib.join (effectivePath options q) x) (by
        intro p hp
        obtain ⟨x, hx, rfl⟩ := List.mem_map.1 hp
        exact hc x hx)
    refine ⟨max f1 fe + 1, ?_⟩
    rw [directoryTree, directoryTreeBody_directory w lib options _ _ _ q stats hs hx hk]
    have : safeReadDirSync w (effectivePath options q) = .entries (xs ++ e :: ys) := by
      simp [safeReadDirSync, hl]
    rw [this]
    simp only
    rw [finishDirectory_throw]
    apply mapChildren_of_throw
    · intro x hx
      exact h1 _ (List.mem_map.2 ⟨x, hx, rfl⟩) _ (le_max_left _ _)
    · rw [directoryTree_mono w lib options _ _ fe (max f1 fe) _ (by rw [hfe]; intro h; cases h)
        (le_max_right _ _)]
      exact hfe

/-- A throw of the scan is the fatal listing error of a call the scan comes to make. -/
theorem reached_of_throw (w : World) (lib : PathLib) (options : Option Options)
    (onEachFile onEachDirectory : Bool) (fuel : Nat) (root : String) (ex : JsError)
    (h : (directoryTree w lib options onEachFile onEachDirectory fuel root).out = .throw ex) :
    ∃ p, Reached w lib options onEachFile onEachDirectory root p ∧
      FatalListing w options p ex := by
  induction fuel generalizing root with
  | zero => simp [directoryTree] at h
  | succ fuel ih =>
    cases hs : w.statSync (effectivePath options root) with
    | none => rw [directoryTree_stat_fails w lib options _ _ fuel root hs] at h; cases h
    | some stats =>
      cases hx : isExcluded options (effectivePath options root) with
      | true => rw [directoryTree_excluded w lib options _ _ fuel root stats hs hx] at h; cases h
      | false =>
        cases hk : stats.kind with
        | other => rw [directoryTree_other w lib options _ _ fuel root stats hs hk] at h; cases h
        | file =>
          rw [directoryTree_file w lib options _ _ fuel root stats hs hx hk] at h
          split_ifs at h
        | directory =>
          rw [directoryTree, directoryTreeBody_directory w lib options _ _ _ root stats hs hx hk]
            at h
          cases hl : w.readdirSync (effectivePath options root) with
          | error ex' =>
            by_cases hcode : ex'.code = "EACCES" ∨ ex'.code = "EPERM"
            · simp [safeReadDirSync, hl, hcode] at h
            · simp only [safeReadDirSync, hl, hcode, if_false, Outcome.throw.injEq] at h
              subst h
              exact ⟨root, .root, stats, hs, hx, hk, hl, hcode⟩
          | ok dirData =>
            simp only [safeReadDirSync, hl] at h
            rw [finishDirectory_throw] at h
            rcases hm : mapChildren (fun child => directoryTree w lib options onEachFile
              onEachDirectory fuel (lib.join (effectivePath options root) child)) dirData
              with ⟨m, t⟩
            rw [hm] at h
            simp only at h
            subst h
            obtain ⟨before, e, after, hdd, hb, he⟩ := mapChildren_throw _ _ _ _ hm
            obtain ⟨p, hp, hfatal⟩ := ih _ he
            subst hdd
            exact ⟨p, Reached.trans (.child .root hs hx hk hl (fun x hx => ⟨fuel, hb x hx⟩)) hp,
              hfatal⟩

/-- C7: the call `directoryTree(root, options, ...)` throws `ex` (with some fuel) if and only if
the scan comes to make a call on a directory, with metadata fetched and path not excluded, whose
listing fails with `ex`, an error whose code is neither `EACCES` nor `EPERM`; and when the call
throws, it returns no item, whatever fuel it is given. -/
theorem C7_throws_iff_fatal_listing (w : World) (lib : PathLib) (options : Option Options)
    (onEachFile onEachDirectory : Bool) (root : String) (ex : JsError) :
    ((∃ fuel, (directoryTree w lib options onEachFile onEachDirectory fuel root).out
        = .throw ex) ↔
      ∃ p, Reached w lib options onEachFile onEachDirectory root p ∧
        FatalListing w options p ex) ∧
    ((∃ fuel, (directoryTree w lib options onEachFile onEachDirectory fuel root).out
        = .throw ex) →
      ∀ fuel', (directoryTree w lib options onEachFile onEachDirectory fuel' root).out
          = .throw ex ∨
        (directoryTree w lib options onEachFile onEachDirectory fuel' root).out
          = .outOfFuel) := by
  refine ⟨⟨?_, ?_⟩, ?_⟩
  · rintro ⟨fuel, h⟩
    exact reached_of_throw w lib options onEachFile onEachDirectory fuel root ex h
  · rintro ⟨p, hp, hfatal⟩
    exact throw_of_reached w lib options onEachFile onEachDirectory root p ex hp
      ⟨1, by rw [directoryTree_fatal w lib options _ _ 0 p ex hfatal]⟩
  · rintro ⟨fuel, h⟩ fuel'
    by_cases hne : (directoryTree w lib options onEachFile onEachDirectory fuel' root).out
        = .outOfFuel
    · exact Or.inr hne
    · left
      rw [directoryTree_deterministic w lib options _ _ fuel' fuel root hne
        (by rw [h]; intro e; cases e)]
      exact h

/-- C7, on `brokenWorld`: the listing of `/r/broken` fails with `EIO`, the scan of `/r` comes to
it after `a.txt`, and the call on `/r` throws that error. -/
theorem C7_throws_iff_fatal_listing_witness :
    (directoryTree brokenWorld plainLib none true true 3 "/r").out = .throw ⟨"EIO"⟩ ∧
    Reached brokenWorld plainLib none true true "/r" "/r/broken" ∧
    FatalListing brokenWorld none "/r/broken" ⟨"EIO"⟩ ∧
    ∃ p, Reached brokenWorld plainLib none true true "/r" p ∧
      FatalListing brokenWorld none p ⟨"EIO"⟩ :=
  ⟨rfl,
    @Reached.child brokenWorld plainLib none true true "/r" "/r" (dirStats "t0") ["a.txt"]
      "broken" ["b.tc"] .root rfl rfl rfl rfl
      (fun x hx => ⟨1, by rw [List.mem_singleton.1 hx]; rfl⟩),
    ⟨dirStats "t5", rfl, rfl, rfl, rfl, by decide⟩,
    (C7_throws_iff_fatal_listing brokenWorld plainLib none true true "/r" ⟨"EIO"⟩).1.1
      ⟨3, rfl⟩⟩

/-! ## Directories and the extension rule -/

theorem reduceSize_nil : reduceSize [] = .num 0 := rfl

/-- C8: whatever the options are, and so whatever the extension rule is, a call on a directory
whose metadata is fetched, whose path matches no exclusion pattern and whose listing succeeds
returns an item of type directory as soon as the scans of the entries of the listing return;
its children are the items they return, and when every one of them returns `null` it has no
children and size 0. -/
theorem C8_directory_kept (w : World) (lib : PathLib) (options : Option Options)
    (onEachFile onEachDirectory : Bool) (fuel : Nat) (path : String) (stats : Stats)
    (dirData : List String)
    (hs : w.statSync (effectivePath options path) = some stats)
    (hk : stats.kind = .directory)
    (hx : isExcluded options (effectivePath options path) = false)
    (hl : w.readdirSync (effectivePath options path) = .ok dirData)
    (hch : ∀ e ∈ dirData, (directoryTree w lib options onEachFile onEachDirectory fuel
      (lib.join (effectivePath options path) e)).out.returns = true) :
    ∃ D : Node,
      (directoryTree w lib options onEachFile onEachDirectory (fuel + 1) path).out = .node D ∧
      D.get "type" = .str "directory" ∧
      D.get "children" = .arr (dirData.filterMap fun e =>
        (directoryTree w lib options onEachFile onEachDirectory fuel
          (lib.join (effectivePath options path) e)).out.result?) ∧
      ((∀ e ∈ dirData, (directoryTree w lib options onEachFile onEachDirectory fuel
          (lib.join (effectivePath options path) e)).out = .absent) →
        D.get "children" = .arr [] ∧ D.get "size" = .num 0) := by
  have hrun := directoryTree_directory w lib options onEachFile onEachDirectory fuel path stats
    hs hx hk
  have hsafe : safeReadDirSync w (effectivePath options path) = .entries dirData := by
    simp [safeReadDirSync, hl]
  rw [hsafe] at hrun
  simp only at hrun
  rw [mapChildren_of_returns _ dirData hch] at hrun
  simp only at hrun
  refine ⟨_, by rw [hrun], ?_, ?_, ?_⟩
  · rw [directoryItem_get]; simp
  · rw [directoryItem_get, filterTruthy_map]; simp
  · intro habs
    have hnil : filterTruthy (dirData.map fun c =>
        (directoryTree w lib options onEachFile onEachDirectory fuel
          (lib.join (effectivePath options path) c)).out.result?) = [] := by
      rw [filterTruthy_map, List.filterMap_eq_nil_iff]
      intro e he
      rw [habs e he]
      rfl
    rw [hnil]
    constructor
    · rw [directoryItem_get]; simp
    · rw [directoryItem_get]; simp [reduceSize_nil]

/-- C8, on the scenario with a rule accepting `.tc` only: `/r` has size 5 and the children
`b.tc` and `sub`; `sub`, beneath which everything is filtered out, is an item of type directory
with size 0 and no children. -/
theorem C8_directory_kept_witness :
    (directoryTree exampleWorld plainLib (some onlyTc) true true 3 "/r").out = .node itemRTc ∧
    itemRTc.get "size" = .num 5 ∧ itemRTc.get "children" = .arr [itemB, itemSubEmpty] ∧
    itemSubEmpty.get "type" = .str "directory" ∧ itemSubEmpty.get "size" = .num 0 ∧
    itemSubEmpty.get "children" = .arr [] ∧
    extensionRejected (some onlyTc)
      (plainLib.toLowerCase (plainLib.extname (effectivePath (some onlyTc) "/r/sub"))) = true ∧
    ∃ D : Node,
      (directoryTree exampleWorld plainLib (some onlyTc) true true (1 + 1) "/r/sub").out
        = .node D ∧
      D.get "type" = .str "directory" ∧
      D.get "children" = .arr (["c.txt"].filterMap fun e =>
        (directoryTree exampleWorld plainLib (some onlyTc) true true 1
          (plainLib.join (effectivePath (some onlyTc) "/r/sub") e)).out.result?) ∧
      ((∀ e ∈ ["c.txt"], (directoryTree exampleWorld plainLib (some onlyTc) true true 1
          (plainLib.join (effectivePath (some onlyTc) "/r/sub") e)).out = .absent) →
        D.get "children" = .arr [] ∧ D.get "size" = .num 0) :=
  ⟨rfl, rfl, rfl, rfl, rfl, rfl, rfl,
    C8_directory_kept exampleWorld plainLib (some onlyTc) true true 1 "/r/sub" (dirStats "t3")
      ["c.txt"] rfl rfl rfl rfl (fun e he => by rw [List.mem_singleton.1 he]; rfl)⟩

/-! ## The callbacks -/

theorem Node.postorder_eq (n : Node) :
    n.postorder = (n.childItems.flatMap Node.postorder) ++ [n] := by
  rw [Node.postorder]
  congr 1
  generalize n.childItems = items
  induction items with
  | nil => rfl
  | cons c rest ih =>
    simp only [List.attach_cons, List.flatMap_cons, List.flatMap_map]
    rw [ih]

/-- A call that returns `null` has invoked no callback. -/
theorem trace_of_absent (w : World) (lib : PathLib) (options : Option Options)
    (onEachFile onEachDirectory : Bool) (fuel : Nat) (path : String)
    (h : (directoryTree w lib options onEachFile onEachDirectory fuel path).out = .absent) :
    (directoryTree w lib options onEachFile onEachDirectory fuel path).trace = [] := by
  cases fuel with
  | zero => rfl
  | succ fuel =>
    cases hs : w.statSync (effectivePath options path) with
    | none => rw [directoryTree_stat_fails w lib options _ _ fuel path hs]
    | some stats =>
      cases hx : isExcluded options (effectivePath options path) with
      | true => rw [directoryTree_excluded w lib options _ _ fuel path stats hs hx]
      | false =>
        cases hk : stats.kind with
        | other => rw [directoryTree_other w lib options _ _ fuel path stats hs hk]
        | file =>
          rw [directoryTree_file w lib options _ _ fuel path stats hs hx hk] at h ⊢
          cases hr : extensionRejected options
              (lib.toLowerCase (lib.extname (effectivePath options path))) with
          | true => rfl
          | false => rw [hr] at h; exact absurd h (by simp)
        | directory =>
          rw [directoryTree, directoryTreeBody_directory w lib options _ _ _ path stats hs hx hk]
            at h ⊢
          cases hl : safeReadDirSync w (effectivePath options path) with
          | null => rfl
          | throw ex => simp [hl] at h
          | entries dirData =>
            rw [hl] at h
            simp only at h
            rcases hm : mapChildren (fun child => directoryTree w lib options onEachFile
              onEachDirectory fuel (lib.join (effectivePath options path) child)) dirData
              with ⟨m, t⟩
            rw [hm] at h
            cases m <;> cases h

theorem fileItem_childItems (options : Option Options) (name path ext : String) (stats : Stats) :
    (fileItem options name path ext stats).childItems = [] := by
  unfold Node.childItems
  split
  · rename_i items h
    exact absurd h (fileItem_children _ _ _ _ _ _)
  · rfl

theorem fileItem_isDirectoryItem (options : Option Options) (name path ext : String)
    (stats : Stats) : (fileItem options name path ext stats).isDirectoryItem = false := by
  unfold Node.isDirectoryItem
  split
  · rename_i s h
    by_cases hs : s = "directory"
    · subst hs; exact absurd h (fileItem_type_ne _ _ _ _ _)
    · simpa using hs
  · rfl

theorem directoryItem_childItems (options : Option Options) (name path : String) (stats : Stats)
    (children : List Node) :
    (directoryItem options name path stats children).childItems = children := by
  unfold Node.childItems
  rw [directoryItem_get]
  simp

theorem directoryItem_isDirectoryItem (options : Option Options) (name path : String)
    (stats : Stats) (children : List Node) :
    (directoryItem options name path stats children).isDirectoryItem = true := by
  unfold Node.isDirectoryItem
  rw [directoryItem_get]
  simp

/-- The run of a call on a regular file that passes the filters. -/
theorem directoryTree_file_run (w : World) (lib : PathLib) (options : Option Options)
    (onEachFile onEachDirectory : Bool) (fuel : Nat) (path : String) (stats : Stats)
    (h : w.statSync (effectivePath options path) = some stats)
    (hx : isExcluded options (effectivePath options path) = false)
    (hk : stats.kind = .file)
    (hr : extensionRejected options
      (lib.toLowerCase (lib.extname (effectivePath options path))) = false) :
    directoryTree w lib options onEachFile onEachDirectory (fuel + 1) path =
      ⟨.node (fileItem options (lib.basename path) (effectivePath options path)
          (lib.toLowerCase (lib.extname (effectivePath options path))) stats),
        if onEachFile then
          [⟨.onEachFile, fileItem options (lib.basename path) (effectivePath options path)
            (lib.toLowerCase (lib.extname (effectivePath options path))) stats,
            effectivePath options path, stats⟩]
        else []⟩ := by
  rw [directoryTree_file w lib options _ _ fuel path stats h hx hk, hr]
  rfl

/-- The run of a call on a directory whose entries are all scanned to the end. -/
theorem directoryTree_directory_run (w : World) (lib : PathLib) (options : Option Options)
    (onEachFile onEachDirectory : Bool) (fuel : Nat) (path : String) (stats : Stats)
    (dirData : List String)
    (h : w.statSync (effectivePath options path) = some stats)
    (hx : isExcluded options (effectivePath options path) = false)
    (hk : stats.kind = .directory)
    (hl : w.readdirSync (effectivePath options path) = .ok dirData)
    (hret : ∀ c ∈ dirData, (directoryTree w lib options onEachFile onEachDirectory fuel
      (lib.join (effectivePath options path) c)).out.returns = true) :
    directoryTree w lib options onEachFile onEachDirectory (fuel + 1) path =
      ⟨.node (directoryItem options (lib.basename path) (effectivePath options path) stats
          (dirData.filterMap fun c =>
            (directoryTree w lib options onEachFile onEachDirectory fuel
              (lib.join (effectivePath options path) c)).out.result?)),
        (dirData.map fun c =>
            (directoryTree w lib options onEachFile onEachDirectory fuel
              (lib.join (effectivePath options path) c)).trace).flatten ++
          if onEachDirectory then
            [⟨.onEachDirectory,
              directoryItem options (lib.basename path) (effectivePath options path) stats
                (dirData.filterMap fun c =>
                  (directoryTree w lib options onEachFile onEachDirectory fuel
                    (lib.join (effectivePath options path) c)).out.result?),
              effectivePath options path, stats⟩]
          else []⟩ := by
  rw [directoryTree, directoryTreeBody_directory w lib options _ _ _ path stats h hx hk]
  have : safeReadDirSync w (effectivePath options path) = .entries dirData := by
    simp [safeReadDirSync, hl]
  rw [this]
  simp only
  rw [mapChildren_of_returns _ dirData hret]
  simp only [finishDirectory, filterTruthy_map]

/-- The items passed to the callbacks, in order, are the post-order traversal of the returned
tree, restricted to the items whose callback was supplied. -/
theorem trace_items (w : World) (lib : PathLib) (options : Option Options)
    (onEachFile onEachDirectory : Bool) (fuel : Nat) (path : String) (root : Node)
    (h : (directoryTree w lib options onEachFile onEachDirectory fuel path).out = .node root) :
    (directoryTree w lib options onEachFile onEachDirectory fuel path).trace.map (fun ev => ev.item)
      = root.postorder.filter (callbackSupplied onEachFile onEachDirectory) := by
  induction fuel generalizing path root with
  | zero => simp [directoryTree] at h
  | succ fuel ih =>
    obtain ⟨fuel', stats, hf, hs, hx, hcase⟩ :=
      directoryTree_node_inv w lib options onEachFile onEachDirectory _ path root h
    cases hf
    rcases hcase with ⟨hk, hr, hn⟩ | ⟨hk, dirData, hl, hret, hn⟩
    · rw [directoryTree_file_run w lib options _ _ fuel path stats hs hx hk hr, hn,
        Node.postorder_eq, fileItem_childItems]
      simp only [List.flatMap_nil, List.nil_append, List.filter_cons, List.filter_nil,
        callbackSupplied, fileItem_isDirectoryItem, Bool.false_eq_true, if_false]
      cases onEachFile <;> rfl
    · rw [filterTruthy_map] at hn
      rw [directoryTree_directory_run w lib options _ _ fuel path stats dirData hs hx hk hl hret,
        hn, Node.postorder_eq, directoryItem_childItems]
      simp only [List.map_append, List.filter_append, List.filter_cons, List.filter_nil,
        callbackSupplied, directoryItem_isDirectoryItem, if_true]
      congr 1
      · clear hn hl
        induction dirData with
        | nil => rfl
        | cons e rest ihr =>
          have hrest := ihr (fun c hc => hret c (List.mem_cons_of_mem _ hc))
          simp only [List.map_cons, List.flatten_cons, List.map_append, List.filterMap_cons]
          cases he : (directoryTree w lib options onEachFile onEachDirectory fuel
              (lib.join (effectivePath options path) e)).out with
          | node c =>
            simp only [Outcome.result?, List.flatMap_cons, List.filter_append]
            rw [ih _ c he, hrest]
            rfl
          | absent =>
            simp only [Outcome.result?]
            rw [trace_of_absent w lib options _ _ fuel _ he, hrest]
            rfl
          | throw ex =>
            have := hret e (List.mem_cons_self _ _)
            rw [he] at this
            cases this
          | outOfFuel =>
            have := hret e (List.mem_cons_self _ _)
            rw [he] at this
            cases this
      · cases onEachDirectory <;> rfl

/-- Every callback invocation of a call that returns an item passes an item of the returned
tree, faithfully. -/
theorem trace_events (w : World) (lib : PathLib) (options : Option Options)
    (onEachFile onEachDirectory : Bool) (fuel : Nat) (path : String) (root : Node)
    (h : (directoryTree w lib options onEachFile onEachDirectory fuel path).out = .node root) :
    ∀ ev ∈ (directoryTree w lib options onEachFile onEachDirectory fuel path).trace,
      ev.item.Sub root ∧ Event.Faithful w lib options onEachFile onEachDirectory ev := by
  induction fuel generalizing path root with
  | zero => simp [directoryTree] at h
  | succ fuel ih =>
    obtain ⟨fuel', stats, hf, hs, hx, hcase⟩ :=
      directoryTree_node_inv w lib options onEachFile onEachDirectory _ path root h
    cases hf
    rcases hcase with ⟨hk, hr, hn⟩ | ⟨hk, dirData, hl, hret, hn⟩
    · subst hn
      intro ev hev
      rw [directoryTree_file_run w lib options _ _ fuel path stats hs hx hk hr] at hev
      simp only at hev
      cases onEachFile with
      | false => simp at hev
      | true =>
        simp only [if_true, List.mem_singleton] at hev
        subst hev
        exact ⟨.self _, hs, ⟨fuel + 1, path, h, rfl⟩,
          Or.inl ⟨rfl, hk, fileItem_isDirectoryItem _ _ _ _ _⟩⟩
    · rw [filterTruthy_map] at hn
      subst hn
      intro ev hev
      rw [directoryTree_directory_run w lib options _ _ fuel path stats dirData hs hx hk hl hret]
        at hev
      simp only [List.mem_append, List.mem_flatten, List.mem_map] at hev
      rcases hev with ⟨t, ⟨e, he, rfl⟩, hmem⟩ | hev
      · cases hc : (directoryTree w lib options onEachFile onEachDirectory fuel
            (lib.join (effectivePath options path) e)).out with
        | node c =>
          obtain ⟨hsub, hfaith⟩ := ih _ c hc ev hmem
          have hch : (directoryItem options (lib.basename path) (effectivePath options path)
              stats (dirData.filterMap fun c =>
                (directoryTree w lib options onEachFile onEachDirectory fuel
                  (lib.join (effectivePath options path) c)).out.result?)).get "children"
              = .arr (dirData.filterMap fun c =>
                (directoryTree w lib options onEachFile onEachDirectory fuel
                  (lib.join (effectivePath options path) c)).out.result?) := by
            rw [directoryItem_get]; simp
          have hcm : c ∈ dirData.filterMap fun c =>
                (directoryTree w lib options onEachFile onEachDirectory fuel
                  (lib.join (effectivePath options path) c)).out.result? := by
            rw [List.mem_filterMap]
            exact ⟨e, he, by rw [hc]; rfl⟩
          exact ⟨Node.Sub.child hch hcm hsub, hfaith⟩
        | absent =>
          rw [trace_of_absent w lib options _ _ fuel _ hc] at hmem
          cases hmem
        | throw ex =>
          have := hret e he
          rw [hc] at this
          cases this
        | outOfFuel =>
          have := hret e he
          rw [hc] at this
          cases this
      · cases onEachDirectory with
        | false => simp at hev
        | true =>
          simp only [if_true, List.mem_singleton] at hev
          subst hev
          exact ⟨.self _, hs, ⟨fuel + 1, path, h, rfl⟩,
            Or.inr ⟨rfl, hk, directoryItem_isDirectoryItem _ _ _ _ _⟩⟩

/-- C9: for a call that returns an item, the items passed to the callbacks, in the order of the
invocations, are the post-order traversal of the returned tree (the children of a directory in
order, then the directory), restricted to the items whose callback was supplied, hence the whole
traversal when both callbacks are supplied; every invocation passes an item of the tree, the
path the call that returned it worked on and the metadata fetched for that path, `onEachFile`
for a regular file and `onEachDirectory` for a directory. A call that returns `null` invokes no
callback. -/
theorem C9_callbacks_postorder (w : World) (lib : PathLib) (options : Option Options)
    (onEachFile onEachDirectory : Bool) (fuel : Nat) (path : String) :
    (∀ root : Node,
      (directoryTree w lib options onEachFile onEachDirectory fuel path).out = .node root →
      (directoryTree w lib options onEachFile onEachDirectory fuel path).trace.map
          (fun ev => ev.item)
        = root.postorder.filter (callbackSupplied onEachFile onEachDirectory) ∧
      (onEachFile = true → onEachDirectory = true →
        (directoryTree w lib options onEachFile onEachDirectory fuel path).trace.map
          (fun ev => ev.item) = root.postorder) ∧
      ∀ ev ∈ (directoryTree w lib options onEachFile onEachDirectory fuel path).trace,
        ev.item.Sub root ∧ Event.Faithful w lib options onEachFile onEachDirectory ev) ∧
    ((directoryTree w lib options onEachFile onEachDirectory fuel path).out = .absent →
      (directoryTree w lib options onEachFile onEachDirectory fuel path).trace = []) := by
  refine ⟨fun root h => ⟨?_, ?_, ?_⟩, ?_⟩
  · exact trace_items w lib options onEachFile onEachDirectory fuel path root h
  · intro hf hd
    rw [trace_items w lib options onEachFile onEachDirectory fuel path root h]
    apply List.filter_eq_self.2
    intro n _
    simp [callbackSupplied, hf, hd]
  · exact trace_events w lib options onEachFile onEachDirectory fuel path root h
  · exact trace_of_absent w lib options onEachFile onEachDirectory fuel path

/-- C9, on the scenario without filters and with both callbacks: the callbacks are invoked for
`a.txt`, `b.tc`, `sub/c.txt`, `sub` and `/r`, in this order, which is the post-order traversal
of the tree of `/r`. -/
theorem C9_callbacks_postorder_witness :
    (directoryTree exampleWorld plainLib none true true 3 "/r").out = .node itemR ∧
    (directoryTree exampleWorld plainLib none true true 3 "/r").trace.map (fun ev => ev.item)
      = [itemA, itemB, itemC, itemSub, itemR] ∧
    (directoryTree exampleWorld plainLib none true true 3 "/r").trace.map
      (fun ev => (ev.callback, ev.path))
      = [(.onEachFile, "/r/a.txt"), (.onEachFile, "/r/b.tc"), (.onEachFile, "/r/sub/c.txt"),
         (.onEachDirectory, "/r/sub"), (.onEachDirectory, "/r")] ∧
    (directoryTree exampleWorld plainLib none true true 3 "/r").trace.map (fun ev => ev.item)
      = itemR.postorder :=
  ⟨rfl, rfl, rfl,
    ((C9_callbacks_postorder exampleWorld plainLib none true true 3 "/r").1 itemR rfl).2.1
      rfl rfl⟩

/-! ## The attribute copy -/

/-- C10 fails as stated: with `attributes: ["size", "children", "type", "icon"]`, the item of
the directory `/r` carries under `size` the sum 10 of the sizes of its children, where its
metadata has the size 4096, and under `children`, `type` and `icon` its array of children, the
string `directory` and its icon, where its metadata has no such property. -/
theorem C10_counterexample :
    (directoryTree exampleWorld plainLib (some withNodeFields) true true 3 "/r").out
      = .node itemRFields ∧
    exampleWorld.statSync (effectivePath (some withNodeFields) "/r") = some (dirStats "t0") ∧
    attributesOf (some withNodeFields) = ["size", "children", "type", "icon"] ∧
    (itemRFields.get "size" = .num 10 ∧ (dirStats "t0").get "size" = .num 4096) ∧
    (itemRFields.get "type" = .str "directory" ∧ (dirStats "t0").get "type" = .undefined) ∧
    (itemRFields.get "icon" = .element "FolderFilled" ∧
      (dirStats "t0").get "icon" = .undefined) ∧
    (itemRFields.childItems.length = 3 ∧ (dirStats "t0").get "children" = .undefined) ∧
    itemRFields.get "size" ≠ (dirStats "t0").get "size" :=
  ⟨rfl, rfl, rfl, ⟨rfl, rfl⟩, ⟨rfl, rfl⟩, ⟨rfl, rfl⟩, ⟨rfl, rfl⟩,
    fun h => absurd (Val.num.inj h) (by decide)⟩

/-- C10, amended: every item of a returned tree is the item returned for an entry with fetched
metadata `stats`, and for every name `a` of the attribute list the item carries `stats[a]` under
`a`, provided the entry is a regular file or `a` is none of `children`, `size`, `type` and
`icon`; the item of a directory carries under these four names its own children, the sum of
their sizes, its type and its icon, whatever the attribute list is. -/
theorem C10_attributes_copied (w : World) (lib : PathLib) (options : Option Options)
    (onEachFile onEachDirectory : Bool) (fuel : Nat) (path : String) (root m : Node)
    (h : (directoryTree w lib options onEachFile onEachDirectory fuel path).out = .node root)
    (hm : m.Sub root) :
    ∃ (fuel' : Nat) (p : String) (stats : Stats),
      (directoryTree w lib options onEachFile onEachDirectory fuel' p).out = .node m ∧
      w.statSync (effectivePath options p) = some stats ∧
      (∀ a ∈ attributesOf options,
        (stats.kind = .file ∨ a ∉ ["children", "size", "type", "icon"]) →
        m.get a = stats.get a) ∧
      (stats.kind = .directory →
        m.get "type" = .str "directory" ∧ m.get "icon" = .element "FolderFilled" ∧
        ∃ items, m.get "children" = .arr items ∧ m.get "size" = reduceSize items) := by
  obtain ⟨fuel1, p, h1⟩ :=
    scanned_of_sub w lib options onEachFile onEachDirectory fuel path root m h hm
  obtain ⟨fuel', stats, _, hs, _, hcase⟩ :=
    directoryTree_node_inv w lib options onEachFile onEachDirectory _ p m h1
  refine ⟨fuel1, p, stats, h1, hs, ?_, ?_⟩
  · intro a ha hcond
    rcases hcase with ⟨_, _, hn⟩ | ⟨hk, dirData, _, _, hn⟩
    · rw [hn, fileItem_get]
      simp [ha]
    · rcases hcond with hfile | hname
      · rw [hk] at hfile; cases hfile
      · simp only [List.mem_cons, List.mem_singleton, List.not_mem_nil, or_false, not_or]
          at hname
        rw [hn, directoryItem_get]
        simp [ha, hname.1, hname.2.1, hname.2.2.1, hname.2.2.2]
  · intro hk
    rcases hcase with ⟨hk', _, _⟩ | ⟨_, dirData, _, _, hn⟩
    · rw [hk] at hk'; cases hk'
    · subst hn
      refine ⟨?_, ?_, filterTruthy (dirData.map fun c =>
        (directoryTree w lib options onEachFile onEachDirectory fuel'
          (lib.join (effectivePath options p) c)).out.result?), ?_, ?_⟩
      · rw [directoryItem_get]; simp
      · rw [directoryItem_get]; simp
      · rw [directoryItem_get]; simp only [String.reduceEq, if_false, if_true]
      · rw [directoryItem_get]; simp

/-- C10 amended, on the scenario with `attributes: ["mtime"]`: the item of `/r` and the items
of its children carry the `mtime` of their metadata. -/
theorem C10_attributes_copied_witness :
    (directoryTree exampleWorld plainLib (some withMtime) true true 3 "/r").out
      = .node itemRMtime ∧
    itemRMtime.Sub itemRMtime ∧
    itemRMtime.get "mtime" = .raw "t0" ∧
    itemRMtime.childItems.map (fun c => c.get "mtime") = [.raw "t1", .raw "t2", .raw "t3"] ∧
    ∃ (fuel' : Nat) (p : String) (stats : Stats),
      (directoryTree exampleWorld plainLib (some withMtime) true true fuel' p).out
        = .node itemRMtime ∧
      exampleWorld.statSync (effectivePath (some withMtime) p) = some stats ∧
      (∀ a ∈ attributesOf (some withMtime),
        (stats.kind = .file ∨ a ∉ ["children", "size", "type", "icon"]) →
        itemRMtime.get a = stats.get a) ∧
      (stats.kind = .directory →
        itemRMtime.get "type" = .str "directory" ∧
        itemRMtime.get "icon" = .element "FolderFilled" ∧
        ∃ items, itemRMtime.get "children" = .arr items ∧
          itemRMtime.get "size" = reduceSize items) :=
  ⟨rfl, .self _, rfl, rfl,
    C10_attributes_copied exampleWorld plainLib (some withMtime) true true 3 "/r" itemRMtime
      itemRMtime rfl (.self _)⟩

/-! ## The size of a directory is the total of its subtree -/

theorem Node.childItems_sizeOf_lt (n c : Node) (hc : c ∈ n.childItems) : sizeOf c < sizeOf n := by
  obtain ⟨ps⟩ := n
  unfold Node.childItems Node.get at hc
  simp only [Node.props] at hc
  cases hl : ps.lookup "children" with
  | none => simp [hl] at hc
  | some v =>
    simp only [hl] at hc
    have h1 := lookup_sizeOf_lt "children" ps v hl
    cases v with
    | arr items =>
      simp only at hc
      have h2 := List.sizeOf_lt_of_mem hc
      simp only [Val.arr.sizeOf_spec] at h1
      simp only [Node.mk.sizeOf_spec]
      omega
    | undefined => simp at hc
    | nan => simp at hc
    | num n => simp at hc
    | str s => simp at hc
    | element s => simp at hc
    | raw s => simp at hc

theorem Node.childItems_of_get (n : Node) (items : List Node)
    (h : n.get "children" = .arr items) : n.childItems = items := by
  unfold Node.childItems
  rw [h]

theorem Node.sub_of_mem_childItems (n c : Node) (hc : c ∈ n.childItems) : c.Sub n := by
  unfold Node.childItems at hc
  split at hc
  · rename_i items h
    exact .child h hc (.self _)
  · cases hc

theorem Node.sub_of_sub_of_sub {a b c : Node} (hab : a.Sub b) (hbc : b.Sub c) : a.Sub c := by
  induction hbc with
  | self => exact hab
  | child hch hmem _ ih => exact .child hch hmem ih

/-- The post-order traversal lists the items of the tree, and nothing else. -/
theorem Node.mem_postorder_iff (n m : Node) : m ∈ n.postorder ↔ m.Sub n := by
  constructor
  · have key : ∀ (k : Nat) (n : Node), sizeOf n = k → m ∈ n.postorder → m.Sub n := by
      intro k
      induction k using Nat.strong_induction_on with
      | _ k ih =>
        intro n hs h
        rw [Node.postorder_eq] at h
        simp only [List.mem_append, List.mem_flatMap, List.mem_singleton] at h
        rcases h with ⟨c, hc, hm⟩ | rfl
        · have hlt := Node.childItems_sizeOf_lt n c hc
          exact Node.sub_of_sub_of_sub (ih (sizeOf c) (hs ▸ hlt) c rfl hm)
            (Node.sub_of_mem_childItems n c hc)
        · exact .self _
    exact key (sizeOf n) n rfl
  · intro h
    induction h with
    | self => rw [Node.postorder_eq]; simp
    | @child c n items hch hmem _ ih =>
      rw [Node.postorder_eq, Node.childItems_of_get n items hch]
      simp only [List.mem_append, List.mem_flatMap, List.mem_singleton]
      exact Or.inl ⟨c, hmem, ih⟩

theorem Node.fileSizes_eq (n : Node) :
    n.fileSizes = n.childItems.flatMap Node.fileSizes ++
      if n.isDirectoryItem then [] else [n.get "size"] := by
  unfold Node.fileSizes
  rw [Node.postorder_eq]
  simp only [List.filter_append, List.map_append]
  congr 1
  · generalize n.childItems = items
    induction items with
    | nil => rfl
    | cons c rest ih =>
      simp only [List.flatMap_cons, List.filter_append, List.map_append, ih]
  · cases h : n.isDirectoryItem <;> simp [h]

theorem fileSizes_of_children (children : List Node)
    (hc : ∀ c ∈ children, ∃ sizes : List Nat,
      c.fileSizes = sizes.map Val.num ∧ c.get "size" = .num sizes.sum) :
    ∃ sizes : List Nat, children.flatMap Node.fileSizes = sizes.map Val.num ∧
      reduceSize children = .num sizes.sum := by
  suffices h : ∃ sizes sums : List Nat, children.flatMap Node.fileSizes = sizes.map Val.num ∧
      children.map (fun c => c.get "size") = sums.map Val.num ∧ sums.sum = sizes.sum by
    obtain ⟨sizes, sums, h1, h2, h3⟩ := h
    exact ⟨sizes, h1, by rw [reduceSize_eq children sums h2, h3]⟩
  induction children with
  | nil => exact ⟨[], [], rfl, rfl, rfl⟩
  | cons c rest ih =>
    obtain ⟨sizes, sums, h1, h2, h3⟩ := ih (fun c hc' => hc c (List.mem_cons_of_mem _ hc'))
    obtain ⟨sz, hsz, hsum⟩ := hc c (List.mem_cons_self _ _)
    refine ⟨sz ++ sizes, sz.sum :: sums, ?_, ?_, ?_⟩
    · rw [List.flatMap_cons, hsz, h1, List.map_append]
    · rw [List.map_cons, hsum, h2, List.map_cons]
    · rw [List.sum_cons, List.sum_append, h3]

/-- The size of a returned item is the total of the sizes of the file items of its tree. -/
theorem size_is_subtree_total (w : World) (lib : PathLib) (options : Option Options)
    (onEachFile onEachDirectory : Bool) (fuel : Nat) (path : String) (n : Node)
    (h : (directoryTree w lib options onEachFile onEachDirectory fuel path).out = .node n) :
    ∃ sizes : List Nat, n.fileSizes = sizes.map Val.num ∧ n.get "size" = .num sizes.sum := by
  induction fuel generalizing path n with
  | zero => simp [directoryTree] at h
  | succ fuel ih =>
    obtain ⟨fuel', stats, hf, _, _, hcase⟩ :=
      directoryTree_node_inv w lib options onEachFile onEachDirectory _ path n h
    cases hf
    rcases hcase with ⟨_, _, hn⟩ | ⟨_, dirData, _, _, hn⟩
    · subst hn
      refine ⟨[stats.size], ?_, by rw [fileItem_size]; simp⟩
      rw [Node.fileSizes_eq, fileItem_childItems, fileItem_isDirectoryItem, fileItem_size]
      rfl
    · subst hn
      obtain ⟨sizes, h1, h2⟩ := fileSizes_of_children (filterTruthy (dirData.map fun c =>
          (directoryTree w lib options onEachFile onEachDirectory fuel
            (lib.join (effectivePath options path) c)).out.result?)) (fun c hc => by
        rw [filterTruthy_mem, List.mem_map] at hc
        obtain ⟨e, _, he⟩ := hc
        exact ih _ c (node_of_result _ _ he))
      refine ⟨sizes, ?_, ?_⟩
      · rw [Node.fileSizes_eq, directoryItem_childItems, directoryItem_isDirectoryItem, h1]
        simp
      · rw [directoryItem_get]
        simp only [String.reduceEq, if_false, if_true]
        exact h2

/-- C11: for every item `D` of type directory in a returned tree, `D.size` is the sum of the
sizes of the file items of the tree of `D`, at any depth: of the items met by the post-order
traversal of `D` (which meets exactly the items of the tree of `D`) that are not of type
directory. Each of these is the item returned for a regular file and has the size reported by
its metadata; its type is `file` unless the attributes list names `type`. -/
theorem C11_directory_size_is_subtree_total (w : World) (lib : PathLib)
    (options : Option Options) (onEachFile onEachDirectory : Bool) (fuel : Nat) (path : String)
    (root D : Node)
    (h : (directoryTree w lib options onEachFile onEachDirectory fuel path).out = .node root)
    (hD : D.Sub root) (hdir : D.get "type" = .str "directory") :
    (∃ sizes : List Nat,
      ((D.postorder.filter fun m => !m.isDirectoryItem).map fun m => m.get "size")
        = sizes.map Val.num ∧
      D.get "size" = .num sizes.sum) ∧
    (∀ m : Node, m ∈ D.postorder ↔ m.Sub D) ∧
    (∀ m : Node, m.Sub D → m.isDirectoryItem = false →
      ∃ (fuel' : Nat) (p : String) (stats : Stats),
        (directoryTree w lib options onEachFile onEachDirectory fuel' p).out = .node m ∧
        w.statSync (effectivePath options p) = some stats ∧ stats.kind = .file ∧
        m.get "size" = .num stats.size ∧
        ("type" ∉ attributesOf options → m.get "type" = .str "file")) := by
  have _ := hdir
  obtain ⟨fuel1, p1, h1⟩ :=
    scanned_of_sub w lib options onEachFile onEachDirectory fuel path root D h hD
  refine ⟨size_is_subtree_total w lib options onEachFile onEachDirectory fuel1 p1 D h1,
    fun m => Node.mem_postorder_iff D m, ?_⟩
  intro m hm hnd
  obtain ⟨fuel2, p, h2⟩ :=
    scanned_of_sub w lib options onEachFile onEachDirectory fuel path root m h (Node.sub_of_sub_of_sub hm hD)
  obtain ⟨_, stats, _, hs, _, hcase⟩ :=
    directoryTree_node_inv w lib options onEachFile onEachDirectory _ p m h2
  rcases hcase with ⟨hk, _, hn⟩ | ⟨_, dirData, _, _, hn⟩
  · refine ⟨fuel2, p, stats, h2, hs, hk, hn ▸ fileItem_size _ _ _ _ _, ?_⟩
    intro hty
    rw [hn, fileItem_get]
    simp [hty]
  · rw [hn, directoryItem_isDirectoryItem] at hnd
    cases hnd

/-- C11, on the scenario without filters: the size 10 of `/r` is the sum of the sizes 3, 5 and
2 of `a.txt`, `b.tc` and `sub/c.txt`, the last of which lies one level deeper. -/
theorem C11_directory_size_is_subtree_total_witness :
    (directoryTree exampleWorld plainLib none true true 3 "/r").out = .node itemR ∧
    itemR.Sub itemR ∧ itemR.get "type" = .str "directory" ∧
    itemR.get "size" = .num 10 ∧
    [itemA, itemB, itemC].map (fun m => m.get "size") = [.num 3, .num 5, .num 2] ∧
    itemC.Sub itemSub ∧ itemSub.Sub itemR ∧
    ∃ sizes : List Nat,
      ((itemR.postorder.filter fun m => !m.isDirectoryItem).map fun m => m.get "size")
        = sizes.map Val.num ∧
      itemR.get "size" = .num sizes.sum :=
  ⟨rfl, .self _, rfl, rfl, rfl,
    @Node.Sub.child itemC itemC itemSub [itemC] rfl (by simp) (.self _),
    @Node.Sub.child itemSub itemSub itemR [itemA, itemB, itemSub] rfl (by simp) (.self _),
    (C11_directory_size_is_subtree_total exampleWorld plainLib none true true 3 "/r" itemR itemR
      rfl (.self _) rfl).1⟩

/-! ## The item of a regular file -/

/-- The function `Char.toLower` leaves no letter of `A`-`Z`. -/
theorem toLower_not_isUpper (c : Char) : (Char.toLower c).isUpper = false := by
  unfold Char.toLower
  simp only
  by_cases h : c.toNat ≥ 65 ∧ c.toNat ≤ 90
  · rw [if_pos h]
    obtain ⟨h1, h2⟩ := h
    generalize c.toNat = n at h1 h2
    interval_cases n <;> rfl
  · rw [if_neg h]
    unfold Char.isUpper
    simp only [Char.toNat] at h
    rw [Bool.and_eq_false_iff]
    simp only [ge_iff_le, decide_eq_false_iff_not]
    by_contra hc
    apply h
    push_neg at hc
    exact ⟨hc.1, hc.2⟩

theorem plainLib_toLowerCase_not_isUpper (s : String) (c : Char)
    (hc : c ∈ (plainLib.toLowerCase s).data) : c.isUpper = false := by
  simp only [plainLib, List.mem_map] at hc
  obtain ⟨a, _, rfl⟩ := hc
  exact toLower_not_isUpper a

/-- C12 fails as stated: with `attributes: ["extension"]`, the item returned for the regular
file `/r/b.tc` has the type `file` and the path `/r/b.tc`, whose lowercase extension is `.tc`,
and its `extension` is `undefined`. -/
theorem C12_counterexample :
    (directoryTree exampleWorld plainLib (some withExtensionAttr) true true 1 "/r/b.tc").out
      = .node itemBNoExtension ∧
    itemBNoExtension.get "type" = .str "file" ∧
    itemBNoExtension.get "path" = .str "/r/b.tc" ∧
    plainLib.toLowerCase (plainLib.extname "/r/b.tc") = ".tc" ∧
    itemBNoExtension.get "extension" = .undefined ∧
    itemBNoExtension.get "extension"
      ≠ .str (plainLib.toLowerCase (plainLib.extname "/r/b.tc")) :=
  ⟨rfl, rfl, rfl, rfl, rfl, fun h => Val.noConfusion h⟩

/-- C12, amended: every item `N` of type file in a returned tree is the item returned for a
regular file; `N.size` is the size reported by the metadata of that entry; `N.children` is no
array; the lowercase extension of the path `N` was scanned at passes the configured extension
rule, holds no letter of `A`-`Z` when `toLowerCase` leaves none, and is what `N.extension` holds
whenever `N.extension` is a string; and when the attributes list names neither `path` nor
`extension`, `N.path` is that path and `N.extension` is its lowercase extension. -/
theorem C12_file_item (w : World) (lib : PathLib) (options : Option Options)
    (onEachFile onEachDirectory : Bool) (fuel : Nat) (path : String) (root N : Node)
    (h : (directoryTree w lib options onEachFile onEachDirectory fuel path).out = .node root)
    (hN : N.Sub root) (hfile : N.get "type" = .str "file") :
    ∃ (fuel' : Nat) (p : String) (stats : Stats),
      (directoryTree w lib options onEachFile onEachDirectory fuel' p).out = .node N ∧
      w.statSync (effectivePath options p) = some stats ∧ stats.kind = .file ∧
      N.get "size" = .num stats.size ∧
      (N.childItems = [] ∧ ∀ items, N.get "children" ≠ .arr items) ∧
      (∀ o rule, options = some o → o.extensions = some rule →
        rule (lib.toLowerCase (lib.extname (effectivePath options p))) = true) ∧
      ((∀ s c, c ∈ (lib.toLowerCase s).data → c.isUpper = false) →
        ∀ c ∈ (lib.toLowerCase (lib.extname (effectivePath options p))).data,
          c.isUpper = false) ∧
      (∀ e, N.get "extension" = .str e →
        e = lib.toLowerCase (lib.extname (effectivePath options p))) ∧
      ("path" ∉ attributesOf options → "extension" ∉ attributesOf options →
        N.get "path" = .str (effectivePath options p) ∧
        N.get "extension" = .str (lib.toLowerCase (lib.extname (effectivePath options p)))) := by
  obtain ⟨fuel1, p, h1⟩ :=
    scanned_of_sub w lib options onEachFile onEachDirectory fuel path root N h hN
  obtain ⟨_, stats, _, hs, _, hcase⟩ :=
    directoryTree_node_inv w lib options onEachFile onEachDirectory _ p N h1
  rcases hcase with ⟨hk, hr, hn⟩ | ⟨_, dirData, _, _, hn⟩
  · refine ⟨fuel1, p, stats, h1, hs, hk, hn ▸ fileItem_size _ _ _ _ _,
      ⟨hn ▸ fileItem_childItems _ _ _ _ _, fun items => hn ▸ fileItem_children _ _ _ _ _ items⟩,
      ?_, fun hl c hc => hl _ c hc, fun e he => fileItem_extension _ _ _ _ _ _ (hn ▸ he), ?_⟩
    · intro o rule ho hrule
      subst ho
      simpa [extensionRejected, hrule] using hr
    · intro hp he
      subst hn
      constructor
      · rw [fileItem_get, baseItem_get]; simp [hp]
      · rw [fileItem_get]; simp [he]
  · rw [hn, directoryItem_get] at hfile
    simp at hfile

/-- C12 amended, on the scenario with a rule accepting `.tc` only: the item of `b.tc` has the
size 5 of its metadata, no children and the extension `.tc` of its path `/r/b.tc`. -/
theorem C12_file_item_witness :
    (directoryTree exampleWorld plainLib (some onlyTc) true true 3 "/r").out = .node itemRTc ∧
    itemB.Sub itemRTc ∧ itemB.get "type" = .str "file" ∧
    itemB.get "size" = .num 5 ∧ itemB.get "path" = .str "/r/b.tc" ∧
    itemB.get "extension" = .str ".tc" ∧ itemB.get "children" = .undefined ∧
    ∃ (fuel' : Nat) (p : String) (stats : Stats),
      (directoryTree exampleWorld plainLib (some onlyTc) true true fuel' p).out = .node itemB ∧
      exampleWorld.statSync (effectivePath (some onlyTc) p) = some stats ∧ stats.kind = .file ∧
      itemB.get "size" = .num stats.size ∧
      (itemB.childItems = [] ∧ ∀ items, itemB.get "children" ≠ .arr items) ∧
      (∀ o rule, some onlyTc = some o → o.extensions = some rule →
        rule (plainLib.toLowerCase (plainLib.extname (effectivePath (some onlyTc) p))) = true) ∧
      ((∀ s c, c ∈ (plainLib.toLowerCase s).data → c.isUpper = false) →
        ∀ c ∈ (plainLib.toLowerCase
            (plainLib.extname (effectivePath (some onlyTc) p))).data,
          c.isUpper = false) ∧
      (∀ e, itemB.get "extension" = .str e →
        e = plainLib.toLowerCase (plainLib.extname (effectivePath (some onlyTc) p))) ∧
      ("path" ∉ attributesOf (some onlyTc) → "extension" ∉ attributesOf (some onlyTc) →
        itemB.get "path" = .str (effectivePath (some onlyTc) p) ∧
        itemB.get "extension" = .str (plainLib.toLowerCase
          (plainLib.extname (effectivePath (some onlyTc) p)))) :=
  ⟨rfl, @Node.Sub.child itemB itemB itemRTc [itemB, itemSubEmpty] rfl (by simp) (.self _),
    rfl, rfl, rfl, rfl, rfl,
    C12_file_item exampleWorld plainLib (some onlyTc) true true 3 "/r" itemRTc itemB rfl
      (@Node.Sub.child itemB itemB itemRTc [itemB, itemSubEmpty] rfl (by simp) (.self _)) rfl⟩

/-! ## The path normaliser -/

theorem normalizePath_data (s : String) :
    (normalizePath s).data = s.data.map fun c => if c = '\\' then '/' else c := rfl

theorem normalizePath_no_backslash (s : String) : '\\' ∉ (normalizePath s).data := by
  rw [normalizePath_data]
  intro h
  obtain ⟨c, _, hc⟩ := List.mem_map.1 h
  by_cases hb : c = '\\'
  · rw [if_pos hb] at hc
    exact absurd hc (by decide)
  · rw [if_neg hb] at hc
    exact hb hc

theorem normalizePath_of_no_backslash (s : String) (h : '\\' ∉ s.data) : normalizePath s = s := by
  have hd : (normalizePath s).data = s.data := by
    rw [normalizePath_data]
    conv_rhs => rw [← List.map_id s.data]
    apply List.map_congr_left
    intro c hc
    have hne : ¬ c = '\\' := fun e => h (e ▸ hc)
    rw [if_neg hne]
    rfl
  cases s
  simp only [normalizePath] at hd ⊢
  rw [hd]

theorem normalizePath_idem (s : String) : normalizePath (normalizePath s) = normalizePath s :=
  normalizePath_of_no_backslash _ (normalizePath_no_backslash s)

/-- C13: `normalizePath(s)` is `s` with every backslash replaced by one forward slash and every
other character kept: it has the length of `s`, holds no backslash, and is `s` when `s` holds no
backslash; without options, or with `normalizePath` not enabled, `directoryTree` works on the
path it was given, and with `normalizePath` enabled on the normalised path. -/
theorem C13_normalizePath (s : String) (o : Options) :
    (normalizePath s).data = (s.data.map fun c => if c = '\\' then '/' else c) ∧
    (normalizePath s).length = s.length ∧
    '\\' ∉ (normalizePath s).data ∧
    ('\\' ∉ s.data → normalizePath s = s) ∧
    effectivePath none s = s ∧
    (o.normalizePath = false → effectivePath (some o) s = s) ∧
    (o.normalizePath = true → effectivePath (some o) s = normalizePath s) := by
  refine ⟨rfl, ?_, normalizePath_no_backslash s, normalizePath_of_no_backslash s, rfl, ?_, ?_⟩
  · cases s
    simp only [normalizePath, String.length, List.length_map]
  · intro h; simp [effectivePath, h]
  · intro h; simp [effectivePath, h]

/-- C13, on a Windows style path. -/
theorem C13_normalizePath_witness :
    normalizePath "C:\\cam\\shots" = "C:/cam/shots" ∧
    (normalizePath "C:\\cam\\shots").length = "C:\\cam\\shots".length ∧
    normalizePath "/r/sub" = "/r/sub" ∧
    effectivePath (some onlyTc) "C:\\cam\\shots" = "C:\\cam\\shots" :=
  ⟨rfl, (C13_normalizePath "C:\\cam\\shots" onlyTc).2.1, rfl, rfl⟩

/-! ## Normalised paths at every depth -/

/-- The properties `path`, `key`, `name` and `title` of a returned item, when the attributes
list does not name them: the path the call worked on, and the base name of the path the call
was given. -/
theorem base_props_of_scanned (w : World) (lib : PathLib) (options : Option Options)
    (onEachFile onEachDirectory : Bool) (fuel : Nat) (path : String) (n : Node) (k : String)
    (h : (directoryTree w lib options onEachFile onEachDirectory fuel path).out = .node n)
    (hk : k = "path" ∨ k = "key" ∨ k = "name" ∨ k = "title")
    (hattr : k ∉ attributesOf options) :
    n.get k = (baseItem (lib.basename path) (effectivePath options path)).get k := by
  obtain ⟨fuel', stats, _, _, _, hcase⟩ :=
    directoryTree_node_inv w lib options onEachFile onEachDirectory fuel path n h
  rcases hcase with ⟨_, _, hn⟩ | ⟨_, dirData, _, _, hn⟩
  · rw [hn, fileItem_get]
    rcases hk with rfl | rfl | rfl | rfl <;> simp [hattr]
  · rw [hn, directoryItem_get]
    rcases hk with rfl | rfl | rfl | rfl <;> simp [hattr]

/-- The properties `path`, `key`, `name` and `title` of a returned item, when they are strings:
the path the call worked on, and the base name of the path the call was given. -/
theorem base_props_str_of_scanned (w : World) (lib : PathLib) (options : Option Options)
    (onEachFile onEachDirectory : Bool) (fuel : Nat) (path : String) (n : Node) (k x : String)
    (h : (directoryTree w lib options onEachFile onEachDirectory fuel path).out = .node n)
    (hk : k = "path" ∨ k = "key" ∨ k = "name" ∨ k = "title")
    (hx : n.get k = .str x) :
    .str x = (baseItem (lib.basename path) (effectivePath options path)).get k := by
  by_cases hattr : k ∈ attributesOf options
  · exfalso
    obtain ⟨fuel', stats, _, _, _, hcase⟩ :=
      directoryTree_node_inv w lib options onEachFile onEachDirectory fuel path n h
    rcases hcase with ⟨_, _, hn⟩ | ⟨_, dirData, _, _, hn⟩
    · rw [hn, fileItem_get] at hx
      simp only [hattr, if_true] at hx
      exact Stats.get_ne_str _ _ _ hx
    · rw [hn, directoryItem_get] at hx
      rcases hk with rfl | rfl | rfl | rfl <;>
        simp only [hattr, if_true, String.reduceEq, if_false] at hx <;>
        exact Stats.get_ne_str _ _ _ hx
  · rw [← hx]
    exact base_props_of_scanned w lib options onEachFile onEachDirectory fuel path n k h hk hattr

/-- C14: with `normalizePath` enabled, every item of a returned tree, at any depth, is the item
returned by a call that worked on a normalised path, a path without backslash, whatever the
entry name was; its `path` and its `key`, when they are strings, hold no backslash (`path` is its
own normalisation), and `path` is that normalised path when the attributes list does not name
it. -/
theorem C14_paths_normalised (w : World) (lib : PathLib) (o : Options)
    (onEachFile onEachDirectory : Bool) (fuel : Nat) (path : String) (root m : Node)
    (hnorm : o.normalizePath = true)
    (h : (directoryTree w lib (some o) onEachFile onEachDirectory fuel path).out = .node root)
    (hm : m.Sub root) :
    (∀ q, m.get "path" = .str q → '\\' ∉ q.data ∧ normalizePath q = q) ∧
    (∀ q, m.get "key" = .str q → '\\' ∉ q.data) ∧
    ∃ (fuel' : Nat) (p : String),
      (directoryTree w lib (some o) onEachFile onEachDirectory fuel' p).out = .node m ∧
      effectivePath (some o) p = normalizePath p ∧
      '\\' ∉ (effectivePath (some o) p).data ∧
      ("path" ∉ attributesOf (some o) → m.get "path" = .str (normalizePath p)) := by
  obtain ⟨fuel1, p, h1⟩ :=
    scanned_of_sub w lib (some o) onEachFile onEachDirectory fuel path root m h hm
  have heff : effectivePath (some o) p = normalizePath p := by simp [effectivePath, hnorm]
  refine ⟨?_, ?_, fuel1, p, h1, heff, heff ▸ normalizePath_no_backslash p, ?_⟩
  · intro q hq
    have := base_props_str_of_scanned w lib (some o) onEachFile onEachDirectory fuel1 p m
      "path" q h1 (Or.inl rfl) hq
    rw [baseItem_get, heff] at this
    simp only [String.reduceEq, if_false, if_true, Val.str.injEq] at this
    subst this
    exact ⟨normalizePath_no_backslash p, normalizePath_idem p⟩
  · intro q hq
    have := base_props_str_of_scanned w lib (some o) onEachFile onEachDirectory fuel1 p m
      "key" q h1 (Or.inr (Or.inl rfl)) hq
    rw [baseItem_get, heff] at this
    simp only [if_true, Val.str.injEq] at this
    subst this
    exact normalizePath_no_backslash p
  · intro hattr
    have := base_props_of_scanned w lib (some o) onEachFile onEachDirectory fuel1 p m "path" h1
      (Or.inl rfl) hattr
    rw [this, baseItem_get, heff]
    simp

/-- C14, on `backslashWorld`: the entry of `/r` named `a\b.txt` gives an item whose path is
`/r/a/b.txt`. -/
theorem C14_paths_normalised_witness :
    normalizing.normalizePath = true ∧
    (directoryTree backslashWorld plainLib (some normalizing) true true 3 "/r").out
      = .node itemRBackslash ∧
    itemBackslash.Sub itemRBackslash ∧
    itemBackslash.get "name" = .str "a\\b.txt" ∧
    itemBackslash.get "path" = .str "/r/a/b.txt" ∧
    (∀ q, itemBackslash.get "path" = .str q → '\\' ∉ q.data ∧ normalizePath q = q) :=
  ⟨rfl, rfl,
    @Node.Sub.child itemBackslash itemBackslash itemRBackslash [itemBackslash, itemDirA] rfl
      (by simp) (.self _),
    rfl, rfl,
    (C14_paths_normalised backslashWorld plainLib normalizing true true 3 "/r" itemRBackslash
      itemBackslash rfl rfl
      (@Node.Sub.child itemBackslash itemBackslash itemRBackslash [itemBackslash, itemDirA] rfl
        (by simp) (.self _))).1⟩

/-! ## The name of an item -/

/-- C15 fails as stated: on `backslashWorld` with `normalizePath` enabled, the item returned
for the entry `a\b.txt` of `/r` has the path `/r/a/b.txt`, whose base name is `b.txt`, and the
name `a\b.txt`. -/
theorem C15_counterexample :
    (directoryTree backslashWorld plainLib (some normalizing) true true 3 "/r").out
      = .node itemRBackslash ∧
    itemRBackslash.get "children" = .arr [itemBackslash, itemDirA] ∧
    itemBackslash.get "path" = .str "/r/a/b.txt" ∧
    itemBackslash.get "name" = .str "a\\b.txt" ∧
    plainLib.basename "/r/a/b.txt" = "b.txt" ∧
    itemBackslash.get "name" ≠ .str (plainLib.basename "/r/a/b.txt") :=
  ⟨rfl, rfl, rfl, rfl, rfl, fun h => absurd (Val.str.inj h) (by decide)⟩

/-- C15, amended: every item `N` of a returned tree is the item returned by a call given a
path `p`; `N.name` is the base name of `p`, the path before normalisation, and `N.path` is the
path after normalisation (each when it is a string, and for sure when the attributes list does
not name it). So `N.name` is the base name of `N.path` whenever the base name of `p` is the base
name of its normalisation, as it is when `normalizePath` is not enabled. -/
theorem C15_name_is_basename_of_given_path (w : World) (lib : PathLib)
    (options : Option Options) (onEachFile onEachDirectory : Bool) (fuel : Nat) (path : String)
    (root N : Node)
    (h : (directoryTree w lib options onEachFile onEachDirectory fuel path).out = .node root)
    (hN : N.Sub root) :
    ∃ (fuel' : Nat) (p : String),
      (directoryTree w lib options onEachFile onEachDirectory fuel' p).out = .node N ∧
      (∀ nm, N.get "name" = .str nm → nm = lib.basename p) ∧
      (∀ q, N.get "path" = .str q → q = effectivePath options p) ∧
      ("name" ∉ attributesOf options → N.get "name" = .str (lib.basename p)) ∧
      ("path" ∉ attributesOf options → N.get "path" = .str (effectivePath options p)) ∧
      (lib.basename (effectivePath options p) = lib.basename p →
        ∀ nm q, N.get "name" = .str nm → N.get "path" = .str q → nm = lib.basename q) ∧
      ((options = none ∨ ∃ o, options = some o ∧ o.normalizePath = false) →
        effectivePath options p = p ∧
        ∀ nm q, N.get "name" = .str nm → N.get "path" = .str q → nm = lib.basename q) := by
  obtain ⟨fuel1, p, h1⟩ :=
    scanned_of_sub w lib options onEachFile onEachDirectory fuel path root N h hN
  have hname : ∀ nm, N.get "name" = .str nm → nm = lib.basename p := by
    intro nm hnm
    have := base_props_str_of_scanned w lib options onEachFile onEachDirectory fuel1 p N
      "name" nm h1 (Or.inr (Or.inr (Or.inl rfl))) hnm
    rw [baseItem_get] at this
    simpa using this
  have hpath : ∀ q, N.get "path" = .str q → q = effectivePath options p :=
    fun q hq => path_of_scanned w lib options onEachFile onEachDirectory fuel1 p N q h1 hq
  have hcompat : lib.basename (effectivePath options p) = lib.basename p →
      ∀ nm q, N.get "name" = .str nm → N.get "path" = .str q → nm = lib.basename q := by
    intro hb nm q hnm hq
    rw [hname nm hnm, hpath q hq, hb]
  refine ⟨fuel1, p, h1, hname, hpath, ?_, ?_, hcompat, ?_⟩
  · intro hattr
    rw [base_props_of_scanned w lib options onEachFile onEachDirectory fuel1 p N "name" h1
      (Or.inr (Or.inr (Or.inl rfl))) hattr, baseItem_get]
    simp
  · intro hattr
    rw [base_props_of_scanned w lib options onEachFile onEachDirectory fuel1 p N "path" h1
      (Or.inl rfl) hattr, baseItem_get]
    simp
  · intro hoff
    have heff : effectivePath options p = p := by
      rcases hoff with rfl | ⟨o, rfl, ho⟩
      · rfl
      · simp [effectivePath, ho]
    exact ⟨heff, hcompat (by rw [heff])⟩

/-- C15 amended, on the scenario without options: the item of `a.txt` has the name `a.txt`,
the base name of its path `/r/a.txt`. -/
theorem C15_name_is_basename_of_given_path_witness :
    (directoryTree exampleWorld plainLib none true true 3 "/r").out = .node itemR ∧
    itemA.Sub itemR ∧
    itemA.get "name" = .str "a.txt" ∧ itemA.get "path" = .str "/r/a.txt" ∧
    plainLib.basename "/r/a.txt" = "a.txt" ∧
    ∃ (fuel' : Nat) (p : String),
      (directoryTree exampleWorld plainLib none true true fuel' p).out = .node itemA ∧
      (∀ nm, itemA.get "name" = .str nm → nm = plainLib.basename p) ∧
      (∀ q, itemA.get "path" = .str q → q = effectivePath none p) ∧
      ("name" ∉ attributesOf none → itemA.get "name" = .str (plainLib.basename p)) ∧
      ("path" ∉ attributesOf none → itemA.get "path" = .str (effectivePath none p)) ∧
      (plainLib.basename (effectivePath none p) = plainLib.basename p →
        ∀ nm q, itemA.get "name" = .str nm → itemA.get "path" = .str q →
          nm = plainLib.basename q) ∧
      (((none : Option Options) = none ∨
          ∃ o : Options, (none : Option Options) = some o ∧ o.normalizePath = false) →
        effectivePath none p = p ∧
        ∀ nm q, itemA.get "name" = .str nm → itemA.get "path" = .str q →
          nm = plainLib.basename q) :=
  ⟨rfl, @Node.Sub.child itemA itemA itemR [itemA, itemB, itemSub] rfl (by simp) (.self _),
    rfl, rfl, rfl,
    C15_name_is_basename_of_given_path exampleWorld plainLib none true true 3 "/r" itemR itemA
      rfl (@Node.Sub.child itemA itemA itemR [itemA, itemB, itemSub] rfl (by simp) (.self _))⟩
/-! ## Each path occurs once -/

theorem below_of_below_of_below {w : World} {lib : PathLib} {options : Option Options}
    {t q s : String} (h1 : Below w lib options t q) (h2 : Below w lib options q s) :
    Below w lib options t s := by
  induction h2 with
  | refl => exact h1
  | entry _ hl ih => exact .entry ih hl

theorem below_entry_inv {w : World} {lib : PathLib} {options : Option Options}
    {b s : String} (h : Below w lib options b s) :
    b = s ∨ ∃ q e, Below w lib options b q ∧ Lists w options q e ∧
      s = effectivePath options (lib.join q e) := by
  cases h with
  | refl => exact Or.inl rfl
  | entry hq hl => exact Or.inr ⟨_, _, hq, hl, rfl⟩

/-- The paths above a path form a chain, when the path of an entry tells its directory. -/
theorem below_linear {w : World} {lib : PathLib} {options : Option Options} (p0 : String)
    (hinj : ∀ q e q' e', Below w lib options p0 q → Below w lib options p0 q' →
      Lists w options q e → Lists w options q' e' →
      effectivePath options (lib.join q e) = effectivePath options (lib.join q' e') →
      q = q' ∧ e = e')
    {a b s : String} (ha : Below w lib options p0 a) (hb : Below w lib options p0 b)
    (h1 : Below w lib options a s) :
    Below w lib options b s → Below w lib options a b ∨ Below w lib options b a := by
  induction h1 with
  | refl => exact fun h2 => Or.inr h2
  | @entry q e hq hl ih =>
    intro h2
    rcases below_entry_inv h2 with rfl | ⟨q', e', hq', hl', hs⟩
    · exact Or.inl (.entry hq hl)
    · obtain ⟨rfl, _⟩ := hinj q e q' e' (below_of_below_of_below ha hq)
        (below_of_below_of_below hb hq') hl hl' hs
      exact ih hq'

section
variable (w : World) (lib : PathLib) (options : Option Options) (onEachFile onEachDirectory : Bool)

/-- A call that returns on a directory the scan lists has made a call, which returned, on each
entry of the listing. -/
theorem returns_of_lists (fuel : Nat) (y e : String)
    (hret : (directoryTree w lib options onEachFile onEachDirectory fuel y).out.returns = true)
    (hl : Lists w options (effectivePath options y) e) :
    ∃ fuel', fuel = fuel' + 1 ∧
      (directoryTree w lib options onEachFile onEachDirectory fuel'
        (lib.join (effectivePath options y) e)).out.returns = true := by
  obtain ⟨stats, dirData, hs, hx, hk, hr, he⟩ := hl
  cases fuel with
  | zero => simp [directoryTree, Outcome.returns] at hret
  | succ fuel' =>
    refine ⟨fuel', rfl, ?_⟩
    rw [directoryTree_directory w lib options onEachFile onEachDirectory fuel' y stats hs hx hk]
      at hret
    simp only [safeReadDirSync, hr] at hret
    cases hm : mapChildren (fun child => directoryTree w lib options onEachFile onEachDirectory
      fuel' (lib.join (effectivePath options y) child)) dirData with
    | mk m t =>
      rw [hm] at hret
      cases m with
      | throw ex => simp [Outcome.returns] at hret
      | outOfFuel => simp [Outcome.returns] at hret
      | results rs => exact (mapChildren_results _ _ _ _ hm).1 e he

/-- A call that returns has made a call, which returned, on a path with each effective path
below its own. -/
theorem returns_of_below {t s : String} (h : Below w lib options t s) :
    ∀ (fuel : Nat) (y : String), effectivePath options y = t →
      (directoryTree w lib options onEachFile onEachDirectory fuel y).out.returns = true →
      ∃ fuel' y', fuel' ≤ fuel ∧ effectivePath options y' = s ∧
        (directoryTree w lib options onEachFile onEachDirectory fuel' y').out.returns = true := by
  induction h with
  | refl => exact fun fuel y hy hret => ⟨fuel, y, le_refl _, hy, hret⟩
  | @entry q e _ hl ih =>
    intro fuel y hy hret
    obtain ⟨fuel1, y1, hle, hy1, hret1⟩ := ih fuel y hy hret
    obtain ⟨fuel2, hf, hret2⟩ := returns_of_lists w lib options onEachFile onEachDirectory
      fuel1 y1 e hret1 (hy1 ▸ hl)
    exact ⟨fuel2, lib.join (effectivePath options y1) e, by omega, by rw [hy1], hret2⟩

/-- No cycle: a directory on which a call returns does not lie below one of its entries. -/
theorem not_below_entry (q e : String) (hl : Lists w options q e) :
    ∀ (fuel : Nat) (x : String), effectivePath options x = q →
      (directoryTree w lib options onEachFile onEachDirectory fuel x).out.returns = true →
      ¬ Below w lib options (effectivePath options (lib.join q e)) q := by
  intro fuel
  induction fuel using Nat.strong_induction_on with
  | _ fuel ih =>
    intro x hx hret hb
    obtain ⟨fuel1, hf, hret1⟩ := returns_of_lists w lib options onEachFile onEachDirectory
      fuel x e hret (hx ▸ hl)
    rw [hx] at hret1
    obtain ⟨fuel2, y2, hle, hy2, hret2⟩ := returns_of_below w lib options onEachFile
      onEachDirectory hb fuel1 (lib.join q e) rfl hret1
    exact ih fuel2 (by omega) y2 hy2 hret2 hb

/-- Every item of a returned tree was returned by a call on a path whose effective path lies
below the effective path of the first call, and is the path of the item. -/
theorem below_of_sub (hattr : "path" ∉ attributesOf options) (fuel : Nat) (path : String)
    (root m : Node)
    (h : (directoryTree w lib options onEachFile onEachDirectory fuel path).out = .node root)
    (hm : m.Sub root) :
    ∃ s, m.get "path" = .str s ∧
      Below w lib options (effectivePath options path) s := by
  induction hm generalizing fuel path with
  | self =>
    refine ⟨effectivePath options path, ?_, .refl⟩
    rw [base_props_of_scanned w lib options onEachFile onEachDirectory fuel path _ "path" h
      (Or.inl rfl) hattr, baseItem_get]
    simp
  | @child c n items hch hmem _ ih =>
    obtain ⟨fuel', stats, _, hs, hx, hcase⟩ :=
      directoryTree_node_inv w lib options onEachFile onEachDirectory fuel path n h
    rcases hcase with ⟨_, _, hn⟩ | ⟨hk, dirData, hr, _, hn⟩
    · exact absurd (hn ▸ hch) (fileItem_children _ _ _ _ _ _)
    · rw [hn, directoryItem_get] at hch
      simp only [String.reduceEq, if_false, if_true, Val.arr.injEq] at hch
      rw [← hch, filterTruthy_mem, List.mem_map] at hmem
      obtain ⟨e, he, hres⟩ := hmem
      obtain ⟨s, hs1, hs2⟩ := ih fuel' (lib.join (effectivePath options path) e)
        (node_of_result _ _ hres)
      exact ⟨s, hs1, below_of_below_of_below
        (.entry .refl ⟨stats, dirData, hs, hx, hk, hr, he⟩) hs2⟩

/-- The paths of the items of a returned tree, in post-order, are pairwise distinct, when the
entries of each listing are, the path of an entry tells its directory and its name, and the
attributes list does not name `path`. -/
theorem postorder_paths_nodup (p0 : String)
    (hnodup : ∀ q dirData, w.readdirSync q = .ok dirData → dirData.Nodup)
    (hattr : "path" ∉ attributesOf options)
    (hinj : ∀ q e q' e', Below w lib options p0 q → Below w lib options p0 q' →
      Lists w options q e → Lists w options q' e' →
      effectivePath options (lib.join q e) = effectivePath options (lib.join q' e') →
      q = q' ∧ e = e') :
    ∀ (fuel : Nat) (x : String) (root : Node),
      Below w lib options p0 (effectivePath options x) →
      (directoryTree w lib options onEachFile onEachDirectory fuel x).out = .node root →
      (root.postorder.map fun m => m.get "path").Nodup := by
  intro fuel
  induction fuel with
  | zero => intro x root _ h; simp [directoryTree] at h
  | succ fuel ih =>
    intro x root hb h
    obtain ⟨fuel', stats, hf, hs, hx, hcase⟩ :=
      directoryTree_node_inv w lib options onEachFile onEachDirectory _ x root h
    cases hf
    rcases hcase with ⟨_, _, hn⟩ | ⟨hk, dirData, hr, hret, hn⟩
    · rw [Node.postorder_eq, hn, fileItem_childItems]
      simp
    · have hroot : (directoryTree w lib options onEachFile onEachDirectory (fuel + 1) x).out.returns
          = true := by rw [h]; rfl
      have hlists : ∀ e ∈ dirData, Lists w options (effectivePath options x) e :=
        fun e he => ⟨stats, dirData, hs, hx, hk, hr, he⟩
      have hbelow : ∀ e ∈ dirData, ∀ c m : Node,
          (directoryTree w lib options onEachFile onEachDirectory fuel
            (lib.join (effectivePath options x) e)).out.result? = some c →
          m ∈ c.postorder → ∃ s, m.get "path" = .str s ∧ Below w lib options
            (effectivePath options (lib.join (effectivePath options x) e)) s := by
        intro e _ c m hc hm
        exact below_of_sub w lib options onEachFile onEachDirectory hattr fuel
          (lib.join (effectivePath options x) e) c m (node_of_result _ _ hc)
          ((Node.mem_postorder_iff c m).1 hm)
      have hpath : root.get "path" = .str (effectivePath options x) := by
        rw [base_props_of_scanned w lib options onEachFile onEachDirectory (fuel + 1) x _ "path"
          h (Or.inl rfl) hattr, baseItem_get]
        simp
      have hsib : ∀ e1 ∈ dirData, ∀ e2 ∈ dirData, e1 ≠ e2 →
          ¬ Below w lib options
            (effectivePath options (lib.join (effectivePath options x) e1))
            (effectivePath options (lib.join (effectivePath options x) e2)) := by
        intro e1 h1 e2 h2 hne hbl
        rcases below_entry_inv hbl with heq | ⟨q', e', hq', hl', hs'⟩
        · exact hne (hinj _ e1 _ e2 hb hb (hlists e1 h1) (hlists e2 h2) heq).2
        · obtain ⟨hq, _⟩ := hinj _ e2 q' e' hb
            (below_of_below_of_below hb
              (below_of_below_of_below (.entry .refl (hlists e1 h1)) hq'))
            (hlists e2 h2) hl' hs'
          rw [← hq] at hq'
          exact not_below_entry w lib options onEachFile onEachDirectory
            (effectivePath options x) e1 (hlists e1 h1) (fuel + 1) x rfl hroot hq'
      rw [Node.postorder_eq, hn, directoryItem_childItems, ← hn, filterTruthy_map,
        List.map_append, List.map_flatMap, List.nodup_append]
      refine ⟨?_, by simp, ?_⟩
      · rw [List.nodup_flatMap]
        refine ⟨?_, ?_⟩
        · intro c hc
          rw [List.mem_filterMap] at hc
          obtain ⟨e, he, hres⟩ := hc
          exact ih (lib.join (effectivePath options x) e) c
            (below_of_below_of_below hb (.entry .refl (hlists e he)))
            (node_of_result _ _ hres)
        · rw [List.pairwise_filterMap]
          refine List.Pairwise.imp_of_mem ?_ (hnodup _ _ hr)
          intro e1 e2 h1 h2 hne c1 hc1 c2 hc2
          show List.Disjoint _ _
          rw [List.disjoint_left]
          intro v hv1 hv2
          rw [List.mem_map] at hv1 hv2
          obtain ⟨m1, hm1, rfl⟩ := hv1
          obtain ⟨m2, hm2, hv⟩ := hv2
          obtain ⟨s1, hp1, hb1⟩ := hbelow e1 h1 c1 m1 hc1 hm1
          obtain ⟨s2, hp2, hb2⟩ := hbelow e2 h2 c2 m2 hc2 hm2
          rw [hp1, hp2] at hv
          cases hv
          have ha1 := below_of_below_of_below hb (.entry .refl (hlists e1 h1))
          have ha2 := below_of_below_of_below hb (.entry .refl (hlists e2 h2))
          rcases below_linear p0 hinj ha1 ha2 hb1 hb2 with hl | hl
          · exact hsib e1 h1 e2 h2 hne hl
          · exact hsib e2 h2 e1 h1 (Ne.symm hne) hl
      · rw [List.disjoint_left]
        intro v hv1 hv2
        rw [List.mem_flatMap] at hv1
        obtain ⟨c, hc, hv1⟩ := hv1
        rw [List.mem_filterMap] at hc
        obtain ⟨e, he, hres⟩ := hc
        rw [List.mem_map] at hv1
        obtain ⟨m, hm, rfl⟩ := hv1
        obtain ⟨s, hp, hbs⟩ := hbelow e he c m hres hm
        simp only [List.map_cons, List.map_nil, List.mem_singleton] at hv2
        rw [hp, hpath] at hv2
        cases hv2
        exact not_below_entry w lib options onEachFile onEachDirectory
          (effectivePath options x) e (hlists e he) (fuel + 1) x rfl hroot hbs

end

theorem exampleWorld_readdirSync (q : String) (dirData : List String)
    (h : exampleWorld.readdirSync q = .ok dirData) :
    (q = "/r" ∧ dirData = ["a.txt", "b.tc", "sub"]) ∨ (q = "/r/sub" ∧ dirData = ["c.txt"]) := by
  by_cases h1 : q = "/r"
  · subst h1
    simp [exampleWorld] at h
    exact Or.inl ⟨rfl, h.symm⟩
  · by_cases h2 : q = "/r/sub"
    · subst h2
      simp [exampleWorld] at h
      exact Or.inr ⟨rfl, h.symm⟩
    · simp [exampleWorld, h1, h2] at h

theorem exampleWorld_listings_nodup (q : String) (dirData : List String)
    (h : exampleWorld.readdirSync q = .ok dirData) : dirData.Nodup := by
  rcases exampleWorld_readdirSync q dirData h with ⟨_, rfl⟩ | ⟨_, rfl⟩ <;> decide

theorem exampleWorld_lists (q e : String) (h : Lists exampleWorld none q e) :
    (q = "/r" ∧ (e = "a.txt" ∨ e = "b.tc" ∨ e = "sub")) ∨ (q = "/r/sub" ∧ e = "c.txt") := by
  obtain ⟨stats, dirData, _, _, _, hr, he⟩ := h
  rcases exampleWorld_readdirSync q dirData hr with ⟨hq, rfl⟩ | ⟨hq, rfl⟩
  · exact Or.inl ⟨hq, by simpa using he⟩
  · exact Or.inr ⟨hq, by simpa using he⟩

theorem exampleWorld_entry_paths (q e q' e' : String) (h : Lists exampleWorld none q e)
    (h' : Lists exampleWorld none q' e')
    (heq : effectivePath none (plainLib.join q e) = effectivePath none (plainLib.join q' e')) :
    q = q' ∧ e = e' := by
  rcases exampleWorld_lists q e h with ⟨rfl, rfl | rfl | rfl⟩ | ⟨rfl, rfl⟩ <;>
    rcases exampleWorld_lists q' e' h' with ⟨rfl, rfl | rfl | rfl⟩ | ⟨rfl, rfl⟩ <;>
    first
    | exact ⟨rfl, rfl⟩
    | exact absurd heq (by decide)

theorem backslashWorld_listings_nodup (q : String) (dirData : List String)
    (h : backslashWorld.readdirSync q = .ok dirData) : dirData.Nodup := by
  by_cases h1 : q = "/r"
  · subst h1
    simp [backslashWorld] at h
    subst h
    decide
  · by_cases h2 : q = "/r/a"
    · subst h2
      simp [backslashWorld] at h
      subst h
      decide
    · simp [backslashWorld, h1, h2] at h

/-- C16 fails as stated: on `backslashWorld`, where the entries of each listing are pairwise
distinct, the scan of `/r` with `normalizePath` enabled returns a tree with two distinct items
of the same path and key `/r/a/b.txt`, the one for the entry `a\b.txt` of `/r` and the one for
the entry `b.txt` of `/r/a`. And under `withPathAttr`, which asks for the attribute `path`, the
three items of `children` of the tree returned for `/r` on `exampleWorld` all have the path
`undefined`. -/
theorem C16_counterexample :
    (directoryTree backslashWorld plainLib (some normalizing) true true 3 "/r").out
      = .node itemRBackslash ∧
    (∀ q dirData, backslashWorld.readdirSync q = .ok dirData → dirData.Nodup) ∧
    itemBackslash.Sub itemRBackslash ∧ itemPlainB.Sub itemRBackslash ∧
    itemBackslash ≠ itemPlainB ∧
    itemBackslash.get "path" = .str "/r/a/b.txt" ∧ itemPlainB.get "path" = .str "/r/a/b.txt" ∧
    itemBackslash.get "key" = .str "/r/a/b.txt" ∧ itemPlainB.get "key" = .str "/r/a/b.txt" ∧
    (directoryTree exampleWorld plainLib (some withPathAttr) true true 3 "/r").out
      = .node itemRPathAttr ∧
    itemRPathAttr.childItems.map (fun m => m.get "name")
      = [.str "a.txt", .str "b.tc", .str "sub"] ∧
    itemRPathAttr.childItems.map (fun m => m.get "path")
      = [.undefined, .undefined, .undefined] :=
  ⟨rfl, backslashWorld_listings_nodup,
    Node.Sub.child (rfl : itemRBackslash.get "children" = .arr [itemBackslash, itemDirA])
      (List.mem_cons_self _ _) (.self _),
    Node.Sub.child (rfl : itemRBackslash.get "children" = .arr [itemBackslash, itemDirA])
      (List.mem_cons_of_mem _ (List.mem_cons_self _ _))
      (Node.Sub.child (rfl : itemDirA.get "children" = .arr [itemPlainB])
        (List.mem_cons_self _ _) (.self _)),
    fun h => absurd (Val.str.inj
      (congrArg (fun n : Node => n.get "name") h : Val.str "a\\b.txt" = Val.str "b.txt"))
      (by decide),
    rfl, rfl, rfl, rfl, rfl, rfl, rfl⟩

/-- C16, amended: for every scan that returns an item, on a filesystem where each directory
listing has pairwise distinct entry names, when the attributes list does not name `path` and
when, among the directories the scan lists, the path of an entry (the joined path after the
normalisation the options ask for) tells its directory and its name, no two distinct items of
the returned tree have the same path: the paths of the items in post-order are pairwise
distinct. Each item has its path for key unless the attributes list names `key`. -/
theorem C16_paths_distinct (w : World) (lib : PathLib) (options : Option Options)
    (onEachFile onEachDirectory : Bool) (fuel : Nat) (path : String) (root : Node)
    (hnodup : ∀ q dirData, w.readdirSync q = .ok dirData → dirData.Nodup)
    (hattr : "path" ∉ attributesOf options)
    (hinj : ∀ q e q' e', Below w lib options (effectivePath options path) q →
      Below w lib options (effectivePath options path) q' →
      Lists w options q e → Lists w options q' e' →
      effectivePath options (lib.join q e) = effectivePath options (lib.join q' e') →
      q = q' ∧ e = e')
    (h : (directoryTree w lib options onEachFile onEachDirectory fuel path).out = .node root) :
    (root.postorder.map fun m => m.get "path").Nodup ∧
    (∀ m1 m2 : Node, m1.Sub root → m2.Sub root → m1.get "path" = m2.get "path" → m1 = m2) ∧
    (∀ m : Node, m.Sub root → "key" ∉ attributesOf options → m.get "key" = m.get "path") := by
  have hnd := postorder_paths_nodup w lib options onEachFile onEachDirectory
    (effectivePath options path) hnodup hattr hinj fuel path root .refl h
  refine ⟨hnd, ?_, ?_⟩
  · intro m1 m2 h1 h2 heq
    exact List.inj_on_of_nodup_map hnd ((Node.mem_postorder_iff root m1).2 h1)
      ((Node.mem_postorder_iff root m2).2 h2) heq
  · intro m hm hkey
    obtain ⟨fuel1, p, h1⟩ :=
      scanned_of_sub w lib options onEachFile onEachDirectory fuel path root m h hm
    rw [base_props_of_scanned w lib options onEachFile onEachDirectory fuel1 p m "key" h1
        (Or.inr (Or.inl rfl)) hkey,
      base_props_of_scanned w lib options onEachFile onEachDirectory fuel1 p m "path" h1
        (Or.inl rfl) hattr]
    rfl

/-- C16, on the scenario without options: the listings of `exampleWorld` have pairwise distinct
entries, the joined paths tell directory and name, and the five items of the tree returned for
`/r` have pairwise distinct paths. -/
theorem C16_paths_distinct_witness :
    (directoryTree exampleWorld plainLib none true true 3 "/r").out = .node itemR ∧
    (∀ q dirData, exampleWorld.readdirSync q = .ok dirData → dirData.Nodup) ∧
    "path" ∉ attributesOf none ∧
    (itemR.postorder.map fun m => m.get "path").Nodup ∧
    (∀ m1 m2 : Node, m1.Sub itemR → m2.Sub itemR → m1.get "path" = m2.get "path" → m1 = m2) :=
  ⟨rfl, exampleWorld_listings_nodup, by simp [attributesOf],
    (C16_paths_distinct exampleWorld plainLib none true true 3 "/r" itemR
      exampleWorld_listings_nodup (by simp [attributesOf])
      (fun q e q' e' _ _ hl hl' heq => exampleWorld_entry_paths q e q' e' hl hl' heq) rfl).1,
    (C16_paths_distinct exampleWorld plainLib none true true 3 "/r" itemR
      exampleWorld_listings_nodup (by simp [attributesOf])
      (fun q e q' e' _ _ hl hl' heq => exampleWorld_entry_paths q e q' e' hl hl' heq) rfl).2.1⟩

/-! ## The predicate `isFile` -/

theorem dropWhile_of_forall_ne (l : List Char) (h : ∀ c ∈ l, c ≠ '/') :
    (l.dropWhile fun c => c = '/') = l := by
  cases l with
  | nil => rfl
  | cons a rest =>
    have : a ≠ '/' := h a (List.mem_cons_self _ _)
    simp [List.dropWhile, this]

theorem dropTrailingSlashes_of_forall_ne (l : List Char) (h : ∀ c ∈ l, c ≠ '/') :
    dropTrailingSlashes l = l := by
  unfold dropTrailingSlashes
  rw [dropWhile_of_forall_ne l.reverse (fun c hc => h c (List.mem_reverse.1 hc)),
    List.reverse_reverse]

theorem mem_dropTrailingSlashes (l : List Char) (c : Char) (hc : c ∈ dropTrailingSlashes l) :
    c ∈ l := by
  unfold dropTrailingSlashes at hc
  rw [List.mem_reverse] at hc
  exact List.mem_reverse.1 (List.dropWhile_subset _ hc)

theorem lastSegmentAux_of_forall_ne (cs acc : List Char) (h : ∀ c ∈ cs, c ≠ '/') :
    lastSegmentAux cs acc = acc.reverse ++ cs := by
  induction cs generalizing acc with
  | nil => simp [lastSegmentAux]
  | cons a rest ih =>
    have ha : a ≠ '/' := h a (List.mem_cons_self _ _)
    rw [lastSegmentAux, if_neg ha, ih _ (fun c hc => h c (List.mem_cons_of_mem _ hc))]
    simp

theorem mem_lastSegmentAux (cs acc : List Char) (c : Char) (hc : c ∈ lastSegmentAux cs acc) :
    c ∈ cs ∨ c ∈ acc := by
  induction cs generalizing acc with
  | nil => right; simpa [lastSegmentAux] using hc
  | cons a rest ih =>
    rw [lastSegmentAux] at hc
    split_ifs at hc
    · rcases ih _ hc with h | h
      · exact Or.inl (List.mem_cons_of_mem _ h)
      · cases h
    · rcases ih _ hc with h | h
      · exact Or.inl (List.mem_cons_of_mem _ h)
      · rcases List.mem_cons.1 h with rfl | h
        · exact Or.inl (List.mem_cons_self _ _)
        · exact Or.inr h

theorem splitLastDot_of_forall_ne (cs : List Char) (found : Option (List Char × List Char))
    (before : List Char) (h : ∀ c ∈ cs, c ≠ '.') : splitLastDot cs found before = found := by
  induction cs generalizing before with
  | nil => rfl
  | cons a rest ih =>
    have ha : a ≠ '.' := h a (List.mem_cons_self _ _)
    rw [splitLastDot, if_neg ha, ih _ (fun c hc => h c (List.mem_cons_of_mem _ hc))]

/-- A path without a dot has no extension. -/
theorem plainExtname_of_no_dot (s : String) (h : '.' ∉ s.data) : plainExtname s = "" := by
  unfold plainExtname
  simp only
  rw [splitLastDot_of_forall_ne]
  intro c hc e
  subst e
  rcases mem_lastSegmentAux _ _ _ hc with h1 | h1
  · exact h (mem_dropTrailingSlashes _ _ h1)
  · cases h1

/-- A name made of a leading dot followed by characters other than the dot and the slash has no
extension. -/
theorem plainExtname_of_dotfile (t : List Char) (hdot : '.' ∉ t) (hslash : '/' ∉ t) :
    plainExtname (String.mk ('.' :: t)) = "" := by
  have hne : ∀ c ∈ '.' :: t, c ≠ '/' := by
    intro c hc
    rcases List.mem_cons.1 hc with rfl | hc
    · decide
    · exact fun e => hslash (e ▸ hc)
  unfold plainExtname
  simp only
  rw [dropTrailingSlashes_of_forall_ne _ hne, lastSegmentAux_of_forall_ne _ _ hne]
  simp only [List.reverse_nil, List.nil_append]
  rw [splitLastDot, if_pos rfl,
    splitLastDot_of_forall_ne t _ _ (fun c hc e => hdot (e ▸ hc))]
  simp

/-- C17: `isFile(s)` is true if and only if the extension of `s`, as the path library gives
it, is not the empty string; it looks at nothing but the string. With the POSIX `extname` it is
false for a name without a dot and for a name that is a leading dot followed by letters, and true
for a directory name that carries an extension. -/
theorem C17_isFile (lib : PathLib) (s : String) (t : List Char) :
    (isFile lib s = true ↔ lib.extname s ≠ "") ∧
    (isFile lib s = false ↔ lib.extname s = "") ∧
    ('.' ∉ s.data → isFile plainLib s = false) ∧
    ('.' ∉ t → '/' ∉ t → isFile plainLib (String.mk ('.' :: t)) = false) ∧
    isFile plainLib "README" = false ∧ isFile plainLib ".bashrc" = false ∧
    isFile plainLib "/r/shots.d" = true ∧ isFile plainLib "/r/b.tc" = true := by
  refine ⟨by simp [isFile], by simp [isFile], ?_, ?_, rfl, rfl, rfl, rfl⟩
  · intro h
    simp [isFile, plainLib, plainExtname_of_no_dot s h]
  · intro h1 h2
    simp [isFile, plainLib, plainExtname_of_dotfile t h1 h2]

/-! ## Two consecutive backslashes -/

/-- C18, at the path `\\server\share`: `normalizePath` replaces each of the two leading
backslashes by a forward slash of its own, and gives `//server/share`, not `/server/share`. -/
theorem C18_double_backslash :
    normalizePath "\\\\server\\share" = "//server/share" ∧
    normalizePath "\\\\server\\share" ≠ "/server/share" ∧
    (normalizePath "\\\\server\\share").length = "\\\\server\\share".length :=
  ⟨rfl, by decide, rfl⟩

/-! ## Termination -/

theorem mapChildren_ne_outOfFuel (s : String → Run) (xs : List String)
    (h : ∀ c ∈ xs, (s c).out ≠ .outOfFuel) : (mapChildren s xs).1 ≠ .outOfFuel := by
  induction xs with
  | nil => simp [mapChildren]
  | cons c rest ih =>
    have hrest := ih (fun c hc => h c (List.mem_cons_of_mem _ hc))
    cases hc : (s c).out with
    | outOfFuel => exact absurd hc (h c (List.mem_cons_self _ _))
    | throw ex => rw [mapChildren_cons_throw s c rest ex hc]; simp
    | node item =>
      rw [mapChildren_cons_returns s c rest (by rw [hc]; rfl)]
      rcases hm : mapChildren s rest with ⟨m, t⟩
      rw [hm] at hrest
      cases m <;> simp_all [Mapped.push]
    | absent =>
      rw [mapChildren_cons_returns s c rest (by rw [hc]; rfl)]
      rcases hm : mapChildren s rest with ⟨m, t⟩
      rw [hm] at hrest
      cases m <;> simp_all [Mapped.push]

theorem finishDirectory_ne_outOfFuel (options : Option Options) (onEachDirectory : Bool)
    (name path : String) (stats : Stats) (a : Mapped × List Event) (h : a.1 ≠ .outOfFuel) :
    (finishDirectory options onEachDirectory name path stats a).out ≠ .outOfFuel := by
  obtain ⟨m, t⟩ := a
  cases m <;> simp_all [finishDirectory]

theorem exists_fuel_forall_ends (w : World) (lib : PathLib) (options : Option Options)
    (onEachFile onEachDirectory : Bool) (paths : List String)
    (h : ∀ p ∈ paths, ∃ fuel,
      (directoryTree w lib options onEachFile onEachDirectory fuel p).out ≠ .outOfFuel) :
    ∃ fuel, ∀ p ∈ paths,
      (directoryTree w lib options onEachFile onEachDirectory fuel p).out ≠ .outOfFuel := by
  induction paths with
  | nil => exact ⟨0, fun p hp => by cases hp⟩
  | cons c rest ih =>
    obtain ⟨f1, h1⟩ := ih (fun p hp => h p (List.mem_cons_of_mem _ hp))
    obtain ⟨f2, h2⟩ := h c (List.mem_cons_self _ _)
    refine ⟨max f1 f2, ?_⟩
    intro p hp
    rcases List.mem_cons.1 hp with rfl | hp
    · rw [directoryTree_mono w lib options _ _ f2 _ p h2 (le_max_right _ _)]
      exact h2
    · rw [directoryTree_mono w lib options _ _ f1 _ p (h1 p hp) (le_max_left _ _)]
      exact h1 p hp

/-- On a filesystem where the recursive calls are well-founded, every call ends. -/
theorem directoryTree_ends (w : World) (lib : PathLib) (options : Option Options)
    (onEachFile onEachDirectory : Bool)
    (hwf : WellFounded fun c p => Calls w lib options p c) (path : String) :
    ∃ fuel, (directoryTree w lib options onEachFile onEachDirectory fuel path).out
      ≠ .outOfFuel := by
  induction path using hwf.induction with
  | _ p ih =>
    by_cases hdir : ∃ stats dirData, w.statSync (effectivePath options p) = some stats ∧
        isExcluded options (effectivePath options p) = false ∧ stats.kind = .directory ∧
        w.readdirSync (effectivePath options p) = .ok dirData
    · obtain ⟨stats, dirData, hs, hx, hk, hl⟩ := hdir
      obtain ⟨F, hF⟩ := exists_fuel_forall_ends w lib options onEachFile onEachDirectory
        (dirData.map fun e => lib.join (effectivePath options p) e) (by
          intro c hc
          obtain ⟨e, he, rfl⟩ := List.mem_map.1 hc
          exact ih _ ⟨stats, dirData, e, hs, hx, hk, hl, he, rfl⟩)
      refine ⟨F + 1, ?_⟩
      rw [directoryTree, directoryTreeBody_directory w lib options _ _ _ p stats hs hx hk]
      have : safeReadDirSync w (effectivePath options p) = .entries dirData := by
        simp [safeReadDirSync, hl]
      rw [this]
      simp only
      apply finishDirectory_ne_outOfFuel
      apply mapChildren_ne_outOfFuel
      intro e he
      exact hF _ (List.mem_map.2 ⟨e, he, rfl⟩)
    · refine ⟨1, ?_⟩
      cases hs : w.statSync (effectivePath options p) with
      | none => rw [directoryTree_stat_fails w lib options _ _ 0 p hs]; simp
      | some stats =>
        cases hx : isExcluded options (effectivePath options p) with
        | true => rw [directoryTree_excluded w lib options _ _ 0 p stats hs hx]; simp
        | false =>
          cases hk : stats.kind with
          | other => rw [directoryTree_other w lib options _ _ 0 p stats hs hk]; simp
          | file =>
            rw [directoryTree_file w lib options _ _ 0 p stats hs hx hk]
            split_ifs <;> simp
          | directory =>
            rw [directoryTree, directoryTreeBody_directory w lib options _ _ _ p stats hs hx hk]
            cases hl : w.readdirSync (effectivePath options p) with
            | ok dirData => exact absurd ⟨stats, dirData, hs, hx, hk, hl⟩ hdir
            | error ex =>
              by_cases hcode : ex.code = "EACCES" ∨ ex.code = "EPERM"
              · simp [safeReadDirSync, hl, hcode]
              · simp [safeReadDirSync, hl, hcode]

/-- C19: on a filesystem where the nesting of the directories the scan enters is
well-founded, every call of `directoryTree`, on any path and under any options, ends when given
enough fuel, and ends the same way with any more fuel: it returns an item, or returns `null`,
or throws the fatal listing error of a directory the scan came to. A call on a listed directory
that returns is made of one recursive call for each entry of the listing, in the order of the
listing, followed by its own callback. -/
theorem C19_terminates (w : World) (lib : PathLib) (options : Option Options)
    (onEachFile onEachDirectory : Bool)
    (hwf : WellFounded fun c p => Calls w lib options p c) (path : String) :
    (∃ fuel,
      (directoryTree w lib options onEachFile onEachDirectory fuel path).out ≠ .outOfFuel ∧
      (∀ k, fuel ≤ k →
        directoryTree w lib options onEachFile onEachDirectory k path =
          directoryTree w lib options onEachFile onEachDirectory fuel path) ∧
      ((∃ item, (directoryTree w lib options onEachFile onEachDirectory fuel path).out
          = .node item) ∨
        (directoryTree w lib options onEachFile onEachDirectory fuel path).out = .absent ∨
        ∃ ex p, (directoryTree w lib options onEachFile onEachDirectory fuel path).out
            = .throw ex ∧
          Reached w lib options onEachFile onEachDirectory path p ∧
          FatalListing w options p ex)) ∧
    (∀ (k : Nat) (p : String) (stats : Stats) (dirData : List String),
      w.statSync (effectivePath options p) = some stats →
      isExcluded options (effectivePath options p) = false →
      stats.kind = .directory →
      w.readdirSync (effectivePath options p) = .ok dirData →
      (∀ c ∈ dirData, (directoryTree w lib options onEachFile onEachDirectory k
        (lib.join (effectivePath options p) c)).out.returns = true) →
      directoryTree w lib options onEachFile onEachDirectory (k + 1) p =
        ⟨.node (directoryItem options (lib.basename p) (effectivePath options p) stats
            (dirData.filterMap fun c =>
              (directoryTree w lib options onEachFile onEachDirectory k
                (lib.join (effectivePath options p) c)).out.result?)),
          (dirData.map fun c =>
              (directoryTree w lib options onEachFile onEachDirectory k
                (lib.join (effectivePath options p) c)).trace).flatten ++
            if onEachDirectory then
              [⟨.onEachDirectory,
                directoryItem options (lib.basename p) (effectivePath options p) stats
                  (dirData.filterMap fun c =>
                    (directoryTree w lib options onEachFile onEachDirectory k
                      (lib.join (effectivePath options p) c)).out.result?),
                effectivePath options p, stats⟩]
            else []⟩) := by
  refine ⟨?_, fun k p stats dirData hs hx hk hl hret =>
    directoryTree_directory_run w lib options onEachFile onEachDirectory k p stats dirData
      hs hx hk hl hret⟩
  obtain ⟨fuel, hne⟩ := directoryTree_ends w lib options onEachFile onEachDirectory hwf path
  refine ⟨fuel, hne, fun k hk =>
    directoryTree_mono w lib options onEachFile onEachDirectory fuel k path hne hk, ?_⟩
  cases ho : (directoryTree w lib options onEachFile onEachDirectory fuel path).out with
  | node item => exact Or.inl ⟨item, rfl⟩
  | absent => exact Or.inr (Or.inl rfl)
  | outOfFuel => exact absurd ho hne
  | throw ex =>
    obtain ⟨p, hp, hfatal⟩ :=
      reached_of_throw w lib options onEachFile onEachDirectory fuel path ex ho
    exact Or.inr (Or.inr ⟨ex, p, rfl, hp, hfatal⟩)

/-- The recursive calls on the filesystem of the scenario go down in `exampleRank`. -/
theorem exampleWorld_calls_rank (p c : String) (h : Calls exampleWorld plainLib none p c) :
    exampleRank c < exampleRank p := by
  obtain ⟨stats, dirData, e, _, _, _, hl, he, hc⟩ := h
  simp only [effectivePath] at hl hc
  by_cases h1 : p = "/r"
  · subst h1
    have : dirData = ["a.txt", "b.tc", "sub"] := by
      simp [exampleWorld] at hl
      exact hl.symm
    subst this
    simp only [List.mem_cons, List.mem_singleton, List.not_mem_nil, or_false] at he
    rcases he with rfl | rfl | rfl <;> subst hc <;> decide
  · by_cases h2 : p = "/r/sub"
    · subst h2
      have : dirData = ["c.txt"] := by
        simp [exampleWorld] at hl
        exact hl.symm
      subst this
      simp only [List.mem_singleton] at he
      subst he
      subst hc
      decide
    · simp [exampleWorld, h1, h2] at hl

theorem exampleWorld_wellFounded :
    WellFounded fun c p => Calls exampleWorld plainLib none p c :=
  Subrelation.wf (fun {c p} h => exampleWorld_calls_rank p c h) (measure exampleRank).wf

/-- C19, on the scenario without options: the call on `/r` ends with fuel 3, returning the
item of `/r`, and ends the same way with any more fuel. -/
theorem C19_terminates_witness :
    (WellFounded fun c p => Calls exampleWorld plainLib none p c) ∧
    (directoryTree exampleWorld plainLib none true true 3 "/r").out = .node itemR ∧
    (directoryTree exampleWorld plainLib none true true 2 "/r").out = .outOfFuel ∧
    ∃ fuel,
      (directoryTree exampleWorld plainLib none true true fuel "/r").out ≠ .outOfFuel ∧
      (∀ k, fuel ≤ k →
        directoryTree exampleWorld plainLib none true true k "/r" =
          directoryTree exampleWorld plainLib none true true fuel "/r") ∧
      ((∃ item, (directoryTree exampleWorld plainLib none true true fuel "/r").out
          = .node item) ∨
        (directoryTree exampleWorld plainLib none true true fuel "/r").out = .absent ∨
        ∃ ex p, (directoryTree exampleWorld plainLib none true true fuel "/r").out
            = .throw ex ∧
          Reached exampleWorld plainLib none true true "/r" p ∧
          FatalListing exampleWorld none p ex) :=
  ⟨exampleWorld_wellFounded, rfl, rfl,
    (C19_terminates exampleWorld plainLib none true true exampleWorld_wellFounded "/r").1⟩

/-! ## More exclusion patterns only narrow the result -/

theorem finishDirectory_ne_absent (options : Option Options) (onEachDirectory : Bool)
    (name path : String) (stats : Stats) (a : Mapped × List Event) :
    (finishDirectory options onEachDirectory name path stats a).out ≠ .absent := by
  obtain ⟨m, t⟩ := a
  cases m <;> simp [finishDirectory]

/-- With more paths excluded, a call that returned `null` returns `null`. -/
theorem absent_of_more_excluded (w : World) (lib : PathLib) (o1 o2 : Option Options)
    (onEachFile onEachDirectory : Bool)
    (hp : ∀ p, effectivePath o2 p = effectivePath o1 p)
    (hr : ∀ e, extensionRejected o2 e = extensionRejected o1 e)
    (hx : ∀ q, isExcluded o1 q = true → isExcluded o2 q = true)
    (fuel fuel' : Nat) (path : String)
    (h : (directoryTree w lib o1 onEachFile onEachDirectory fuel path).out = .absent) :
    directoryTree w lib o2 onEachFile onEachDirectory (fuel' + 1) path = ⟨.absent, []⟩ := by
  cases fuel with
  | zero => simp [directoryTree] at h
  | succ fuel =>
    cases hs : w.statSync (effectivePath o1 path) with
    | none => exact directoryTree_stat_fails w lib o2 _ _ fuel' path (by rw [hp, hs])
    | some stats =>
      have hs2 : w.statSync (effectivePath o2 path) = some stats := by rw [hp, hs]
      cases hx2 : isExcluded o2 (effectivePath o2 path) with
      | true => exact directoryTree_excluded w lib o2 _ _ fuel' path stats hs2 hx2
      | false =>
        have hx1 : isExcluded o1 (effectivePath o1 path) = false := by
          cases hx1 : isExcluded o1 (effectivePath o1 path) with
          | false => rfl
          | true =>
            have := hx _ hx1
            rw [← hp, hx2] at this
            cases this
        cases hk : stats.kind with
        | other => exact directoryTree_other w lib o2 _ _ fuel' path stats hs2 hk
        | file =>
          rw [directoryTree_file w lib o1 _ _ fuel path stats hs hx1 hk] at h
          rw [directoryTree_file w lib o2 _ _ fuel' path stats hs2 hx2 hk, hp, hr]
          cases hrej : extensionRejected o1
              (lib.toLowerCase (lib.extname (effectivePath o1 path))) with
          | true => rfl
          | false => rw [hrej] at h; exact absurd h (by simp)
        | directory =>
          rw [directoryTree, directoryTreeBody_directory w lib o1 _ _ _ path stats hs hx1 hk]
            at h
          rw [directoryTree, directoryTreeBody_directory w lib o2 _ _ _ path stats hs2 hx2 hk,
            hp]
          cases hl : safeReadDirSync w (effectivePath o1 path) with
          | null => rfl
          | throw ex => simp [hl] at h
          | entries dirData =>
            rw [hl] at h
            exact absurd h (finishDirectory_ne_absent _ _ _ _ _ _)

theorem prunedList_sizes (s1 s2 : String → Run)
    (hnull : ∀ e, (s1 e).out = .absent → (s2 e).out ≠ .outOfFuel → (s2 e).out = .absent)
    (hnode : ∀ e c1 c2, (s1 e).out = .node c1 → (s2 e).out = .node c2 →
      Pruned c2 c1 ∧ ∃ k2 k1, c2.get "size" = .num k2 ∧ c1.get "size" = .num k1 ∧ k2 ≤ k1)
    (hsize : ∀ e c1, (s1 e).out = .node c1 → ∃ k1, c1.get "size" = .num k1)
    (dirData : List String)
    (h1 : ∀ e ∈ dirData, (s1 e).out.returns = true)
    (h2 : ∀ e ∈ dirData, (s2 e).out.returns = true) :
    PrunedList (dirData.filterMap fun e => (s2 e).out.result?)
        (dirData.filterMap fun e => (s1 e).out.result?) ∧
      ∃ sizes2 sizes1 : List Nat,
        (dirData.filterMap fun e => (s2 e).out.result?).map (fun c => c.get "size")
          = sizes2.map Val.num ∧
        (dirData.filterMap fun e => (s1 e).out.result?).map (fun c => c.get "size")
          = sizes1.map Val.num ∧
        sizes2.sum ≤ sizes1.sum := by
  induction dirData with
  | nil => exact ⟨.nil, [], [], rfl, rfl, le_refl _⟩
  | cons e rest ih =>
    obtain ⟨hpl, sizes2, sizes1, hz2, hz1, hle⟩ :=
      ih (fun e he => h1 e (List.mem_cons_of_mem _ he))
        (fun e he => h2 e (List.mem_cons_of_mem _ he))
    have hr1 := h1 e (List.mem_cons_self _ _)
    have hr2 := h2 e (List.mem_cons_self _ _)
    cases ho1 : (s1 e).out with
    | throw ex => rw [ho1] at hr1; cases hr1
    | outOfFuel => rw [ho1] at hr1; cases hr1
    | absent =>
      have ho2 := hnull e ho1 (returns_ne_outOfFuel _ hr2)
      have e1 : (s1 e).out.result? = none := by rw [ho1]; rfl
      have e2 : (s2 e).out.result? = none := by rw [ho2]; rfl
      simp only [List.filterMap_cons, e1, e2]
      exact ⟨hpl, sizes2, sizes1, hz2, hz1, hle⟩
    | node c1 =>
      obtain ⟨k1, hk1⟩ := hsize e c1 ho1
      cases ho2 : (s2 e).out with
      | throw ex => rw [ho2] at hr2; cases hr2
      | outOfFuel => rw [ho2] at hr2; cases hr2
      | absent =>
        have e1 : (s1 e).out.result? = some c1 := by rw [ho1]; rfl
        have e2 : (s2 e).out.result? = none := by rw [ho2]; rfl
        simp only [List.filterMap_cons, e1, e2]
        refine ⟨.drop hpl, sizes2, k1 :: sizes1, hz2, ?_, ?_⟩
        · rw [List.map_cons, hk1, hz1, List.map_cons]
        · rw [List.sum_cons]; omega
      | node c2 =>
        obtain ⟨hpr, k2, k1', hk2, hk1', hk⟩ := hnode e c1 c2 ho1 ho2
        have e1 : (s1 e).out.result? = some c1 := by rw [ho1]; rfl
        have e2 : (s2 e).out.result? = some c2 := by rw [ho2]; rfl
        simp only [List.filterMap_cons, e1, e2]
        refine ⟨.keep hpr hpl, k2 :: sizes2, k1' :: sizes1, ?_, ?_, ?_⟩
        · rw [List.map_cons, hk2, hz2, List.map_cons]
        · rw [List.map_cons, hk1', hz1, List.map_cons]
        · rw [List.sum_cons, List.sum_cons]; omega

/-- With more paths excluded and the same fuel, the item returned is the item returned before
with subtrees taken out, and its size is at most the size before. -/
theorem pruned_of_more_excluded (w : World) (lib : PathLib) (o1 o2 : Option Options)
    (onEachFile onEachDirectory : Bool)
    (hp : ∀ p, effectivePath o2 p = effectivePath o1 p)
    (hr : ∀ e, extensionRejected o2 e = extensionRejected o1 e)
    (ha : ∀ stats item, copyAttributes o2 stats item = copyAttributes o1 stats item)
    (hx : ∀ q, isExcluded o1 q = true → isExcluded o2 q = true)
    (fuel : Nat) (path : String) (r1 r2 : Node)
    (h1 : (directoryTree w lib o1 onEachFile onEachDirectory fuel path).out = .node r1)
    (h2 : (directoryTree w lib o2 onEachFile onEachDirectory fuel path).out = .node r2) :
    Pruned r2 r1 ∧
      ∃ k2 k1, r2.get "size" = .num k2 ∧ r1.get "size" = .num k1 ∧ k2 ≤ k1 := by
  induction fuel generalizing path r1 r2 with
  | zero => simp [directoryTree] at h1
  | succ fuel ih =>
    have hfile : ∀ name p ext stats, fileItem o2 name p ext stats = fileItem o1 name p ext stats := by
      intro name p ext stats; simp only [fileItem, ha]
    have hdirItem : ∀ name p stats children,
        directoryItem o2 name p stats children = directoryItem o1 name p stats children := by
      intro name p stats children; simp only [directoryItem, ha]
    obtain ⟨f1, stats1, hf1, hs1, _, hcase1⟩ :=
      directoryTree_node_inv w lib o1 onEachFile onEachDirectory _ path r1 h1
    obtain ⟨f2, stats2, hf2, hs2, _, hcase2⟩ :=
      directoryTree_node_inv w lib o2 onEachFile onEachDirectory _ path r2 h2
    cases hf1
    cases hf2
    rw [hp, hs1] at hs2
    cases hs2
    rcases hcase1 with ⟨hk1, _, hn1⟩ | ⟨hk1, dd1, hl1, hret1, hn1⟩
    · rcases hcase2 with ⟨_, _, hn2⟩ | ⟨hk2, _, _, _, _⟩
      · rw [hp, hfile] at hn2
        subst hn1
        subst hn2
        exact ⟨.same _, stats1.size, stats1.size, fileItem_size _ _ _ _ _,
          fileItem_size _ _ _ _ _, le_refl _⟩
      · rw [hk1] at hk2; cases hk2
    · rcases hcase2 with ⟨hk2, _, _⟩ | ⟨_, dd2, hl2, hret2, hn2⟩
      · rw [hk1] at hk2; cases hk2
      · rw [hp, hl1] at hl2
        cases hl2
        rw [hp, hdirItem, filterTruthy_map] at hn2
        rw [filterTruthy_map] at hn1
        simp only [hp] at hret2
        obtain ⟨hpl, sizes2, sizes1, hz2, hz1, hle⟩ := prunedList_sizes
          (fun e => directoryTree w lib o1 onEachFile onEachDirectory fuel
            (lib.join (effectivePath o1 path) e))
          (fun e => directoryTree w lib o2 onEachFile onEachDirectory fuel
            (lib.join (effectivePath o1 path) e))
          (by
            intro e he hne
            simp only at he hne ⊢
            cases fuel with
            | zero => exact absurd rfl hne
            | succ k =>
              rw [absent_of_more_excluded w lib o1 o2 onEachFile onEachDirectory hp hr hx
                (k + 1) k _ he])
          (fun e c1 c2 he1 he2 => ih _ c1 c2 he1 he2)
          (fun e c1 he1 => size_isNum w lib o1 onEachFile onEachDirectory _ _ c1 he1)
          dd1 hret1 hret2
        subst hn1
        subst hn2
        have hsz2 := reduceSize_eq _ _ hz2
        have hsz1 := reduceSize_eq _ _ hz1
        refine ⟨.directory ?_ ?_ ?_ hpl ?_ ?_ hle, sizes2.sum, sizes1.sum, ?_, ?_, hle⟩
        · intro k hkc hks
          rw [directoryItem_get, directoryItem_get]
          simp only [hkc, hks, if_false]
        · rw [directoryItem_get]; simp only [String.reduceEq, if_false, if_true]
        · rw [directoryItem_get]; simp only [String.reduceEq, if_false, if_true]
        · rw [directoryItem_get]; simp only [String.reduceEq, if_false, if_true]; exact hsz2
        · rw [directoryItem_get]; simp only [String.reduceEq, if_false, if_true]; exact hsz1
        · rw [directoryItem_get]; simp only [String.reduceEq, if_false, if_true]; exact hsz2
        · rw [directoryItem_get]; simp only [String.reduceEq, if_false, if_true]; exact hsz1

theorem PrunedList.exists_of_mem {cs2 cs1 : List Node} (h : PrunedList cs2 cs1) (c2 : Node)
    (hc : c2 ∈ cs2) : ∃ c1, c1 ∈ cs1 ∧ Pruned c2 c1 := by
  induction cs1 generalizing cs2 with
  | nil =>
    cases h
    cases hc
  | cons a rest ih =>
    cases h with
    | drop h' =>
      obtain ⟨c1, hm, hp⟩ := ih h' hc
      exact ⟨c1, List.mem_cons_of_mem _ hm, hp⟩
    | keep hpr h' =>
      rcases List.mem_cons.1 hc with rfl | hc
      · exact ⟨a, List.mem_cons_self _ _, hpr⟩
      · obtain ⟨c1, hm, hp⟩ := ih h' hc
        exact ⟨c1, List.mem_cons_of_mem _ hm, hp⟩

/-- Every item of a pruned tree has its counterpart at the same place of the full tree. -/
theorem Pruned.exists_of_sub {r2 r1 m2 : Node} (h : Pruned r2 r1) (hm : m2.Sub r2) :
    ∃ m1, m1.Sub r1 ∧ Pruned m2 m1 := by
  induction hm generalizing r1 with
  | self => exact ⟨r1, .self _, h⟩
  | @child c n items hch hmem _ ih =>
    cases h with
    | same => exact ⟨m2, .child hch hmem (by assumption), .same _⟩
    | directory _ hc2 hc1 hpl _ _ _ =>
      rw [hch] at hc2
      cases hc2
      obtain ⟨c1, hc1m, hpr⟩ := hpl.exists_of_mem c hmem
      obtain ⟨m1, hm1, hp1⟩ := ih hpr
      exact ⟨m1, .child hc1 hc1m hm1, hp1⟩

theorem Pruned.get_eq {n2 n1 : Node} (h : Pruned n2 n1) (k : String) (hc : k ≠ "children")
    (hs : k ≠ "size") : n2.get k = n1.get k := by
  cases h with
  | same => rfl
  | directory hk _ _ _ _ _ _ => exact hk k hc hs

theorem Pruned.size_le {n2 n1 : Node} (h : Pruned n2 n1) (k2 k1 : Nat)
    (h2 : n2.get "size" = .num k2) (h1 : n1.get "size" = .num k1) : k2 ≤ k1 := by
  cases h with
  | same =>
    rw [h2] at h1
    cases h1
    exact le_refl _
  | directory _ _ _ _ hs2 hs1 hle =>
    rw [h2] at hs2
    rw [h1] at hs1
    cases hs2
    cases hs1
    exact hle

theorem withMoreExclusions_effectivePath (options : Option Options) (extra : List Pattern)
    (p : String) :
    effectivePath (some (withMoreExclusions options extra)) p = effectivePath options p := by
  cases options <;> rfl

theorem withMoreExclusions_extensionRejected (options : Option Options) (extra : List Pattern)
    (e : String) :
    extensionRejected (some (withMoreExclusions options extra)) e
      = extensionRejected options e := by
  cases options <;> rfl

theorem withMoreExclusions_copyAttributes (options : Option Options) (extra : List Pattern)
    (stats : Stats) (item : Node) :
    copyAttributes (some (withMoreExclusions options extra)) stats item
      = copyAttributes options stats item := by
  cases options <;> rfl

theorem withMoreExclusions_isExcluded (options : Option Options) (extra : List Pattern)
    (q : String) :
    isExcluded (some (withMoreExclusions options extra)) q
      = (isExcluded options q || extra.any fun pattern => pattern q) := by
  cases options with
  | none => simp [isExcluded, withMoreExclusions, excludesOf]
  | some o =>
    cases hex : o.exclude with
    | none => simp [isExcluded, withMoreExclusions, excludesOf, exclusionsOf, hex]
    | some exclude =>
      simp [isExcluded, withMoreExclusions, excludesOf, exclusionsOf, hex, List.any_append]

/-- C20: let the second options differ from the first only in further exclusion patterns. If
both scans of a path return an item, the second tree is the first with subtrees taken out: each
of its items has a counterpart at the same place of the first tree with the same path and type,
the children kept keep their order, and no size is larger than the size of the counterpart. If
the first scan returns `null`, so does the second. -/
theorem C20_more_exclusions_narrow (w : World) (lib : PathLib) (options : Option Options)
    (extra : List Pattern) (onEachFile onEachDirectory : Bool) (fuel1 fuel2 : Nat)
    (path : String) :
    (∀ r1 r2 : Node,
      (directoryTree w lib options onEachFile onEachDirectory fuel1 path).out = .node r1 →
      (directoryTree w lib (some (withMoreExclusions options extra)) onEachFile onEachDirectory
        fuel2 path).out = .node r2 →
      Pruned r2 r1 ∧
      ∀ m2 : Node, m2.Sub r2 → ∃ m1 : Node, m1.Sub r1 ∧ Pruned m2 m1 ∧
        m2.get "path" = m1.get "path" ∧ m2.get "type" = m1.get "type" ∧
        ∀ k2 k1, m2.get "size" = .num k2 → m1.get "size" = .num k1 → k2 ≤ k1) ∧
    ((directoryTree w lib options onEachFile onEachDirectory fuel1 path).out = .absent →
      directoryTree w lib (some (withMoreExclusions options extra)) onEachFile onEachDirectory
        (fuel2 + 1) path = ⟨.absent, []⟩) := by
  have hx : ∀ q, isExcluded options q = true →
      isExcluded (some (withMoreExclusions options extra)) q = true := by
    intro q hq
    rw [withMoreExclusions_isExcluded, hq]
    rfl
  refine ⟨?_, ?_⟩
  · intro r1 r2 h1 h2
    have e1 := directoryTree_mono w lib options onEachFile onEachDirectory fuel1
      (max fuel1 fuel2) path (by rw [h1]; intro e; cases e) (le_max_left _ _)
    have e2 := directoryTree_mono w lib (some (withMoreExclusions options extra)) onEachFile
      onEachDirectory fuel2 (max fuel1 fuel2) path (by rw [h2]; intro e; cases e)
      (le_max_right _ _)
    have hpr := (pruned_of_more_excluded w lib options
      (some (withMoreExclusions options extra)) onEachFile onEachDirectory
      (withMoreExclusions_effectivePath options extra)
      (withMoreExclusions_extensionRejected options extra)
      (withMoreExclusions_copyAttributes options extra) hx (max fuel1 fuel2) path r1 r2
      (by rw [e1]; exact h1) (by rw [e2]; exact h2)).1
    refine ⟨hpr, ?_⟩
    intro m2 hm2
    obtain ⟨m1, hm1, hp1⟩ := hpr.exists_of_sub hm2
    exact ⟨m1, hm1, hp1, hp1.get_eq "path" (by decide) (by decide),
      hp1.get_eq "type" (by decide) (by decide), fun k2 k1 => hp1.size_le k2 k1⟩
  · intro h
    exact absent_of_more_excluded w lib options (some (withMoreExclusions options extra))
      onEachFile onEachDirectory (withMoreExclusions_effectivePath options extra)
      (withMoreExclusions_extensionRejected options extra) hx fuel1 fuel2 path h

/-- C20, on the scenario: without options the scan of `/r` returns the tree of size 10 with
`a.txt`, `b.tc` and `sub`; with the further pattern matching `/r/sub` it returns the tree of
size 8 with `a.txt` and `b.tc`, which is the first tree with `sub` taken out. -/
theorem C20_more_exclusions_narrow_witness :
    (directoryTree exampleWorld plainLib none true true 3 "/r").out = .node itemR ∧
    (directoryTree exampleWorld plainLib
      (some (withMoreExclusions none [fun path => path == "/r/sub"])) true true 3 "/r").out
      = .node itemRNoSub ∧
    itemR.get "children" = .arr [itemA, itemB, itemSub] ∧ itemR.get "size" = .num 10 ∧
    itemRNoSub.get "children" = .arr [itemA, itemB] ∧ itemRNoSub.get "size" = .num 8 ∧
    Pruned itemRNoSub itemR :=
  ⟨rfl, rfl, rfl, rfl, rfl, rfl,
    ((C20_more_exclusions_narrow exampleWorld plainLib none [fun path => path == "/r/sub"]
      true true 3 3 "/r").1 itemR itemRNoSub rfl rfl).1⟩

end AutoCam
